import Mathlib

/-!
# Verification of the `bencedit` Bencode value engine

A shallow embedding of `src/benc.rs` (the Bencode decoder, the `Value`
data model and its derived equality/ordering, and the `select` path
navigation), together with a spec-modelled encoder (the encoder itself
lives in the external `bencode` crate; only its callers are in this
repository).

Conventions of the embedding:

* Rust `u8` is `UInt8`; byte buffers (`Vec<u8>`, `&[u8]`) are `List UInt8`.
* Rust `String`s that hold parsed payload (`Value::Str`) are represented
  by their UTF-8 byte lists; a `Value.str` is only ever built through
  `str_or_bytes`, which performs the `String::from_utf8` validity check.
* `Rc<RefCell<BTreeMap<..>>>` / `Rc<RefCell<Vec<..>>>` cells created by
  the decoder are modelled by a heap: `dictHeap` / `listHeap` lists of
  cells, with `Value.dictRef n` / `Value.listRef n` holding the index of
  the cell (the Rust variants hold the `Rc` pointer).
* Rust `Vec` parser stacks keep their `Vec` layout: index 0 is the
  bottom, `push` appends at the end, `pop` removes the last element.
* Out-of-bounds indexing and `Option::unwrap` on `None` are Rust panics;
  they are modelled by an explicit `panicked` outcome.
* The decoder pulls input in chunks of `CHUNK_SIZE` bytes; chunk refill
  is I/O plumbing that resumes the machine in the same state, and we
  model the buffer as holding the entire input (one chunk).  The chunk
  boundary logic of `State::Str`/`State::StrRem` is translated as in the
  source, with `buf.len()` equal to the input length.
-/

namespace Bencedit

/-! ## Bytes and tokens -/

/-- `Token::Dict` as a byte (`'d'`). -/
def dTok : UInt8 := 100
/-- `Token::Int` as a byte (`'i'`). -/
def iTok : UInt8 := 105
/-- `Token::List` as a byte (`'l'`). -/
def lTok : UInt8 := 108
/-- `Token::Colon` as a byte (`':'`). -/
def colonTok : UInt8 := 58
/-- `Token::End` as a byte (`'e'`). -/
def eTok : UInt8 := 101
/-- `'-'` as a byte. -/
def minusTok : UInt8 := 45

/-- Is `c` an ASCII digit (`'0'..='9'`)? -/
def isDigit (c : UInt8) : Bool := 48 ≤ c.toNat && c.toNat ≤ 57

/-- Bytes of a string (ASCII use only; mirrors handing a `&str` to `load`). -/
def bytesOf (s : String) : List UInt8 := s.toList.map (fun c => UInt8.ofNat c.toNat)

/-! ## UTF-8 validity (`String::from_utf8`)

The standard UTF-8 well-formedness check (RFC 3629 ranges), as performed
by Rust's `String::from_utf8`. -/

/-- Is `c` a UTF-8 continuation byte (`0x80..=0xBF`)? -/
def isCont (c : UInt8) : Bool := 128 ≤ c.toNat && c.toNat ≤ 191

/-- UTF-8 validity of a byte list, as checked by `String::from_utf8`. -/
def validUtf8 : List UInt8 → Bool
  | [] => true
  | c :: rest =>
    if c.toNat ≤ 127 then validUtf8 rest
    else if 194 ≤ c.toNat && c.toNat ≤ 223 then
      match rest with
      | c1 :: r => isCont c1 && validUtf8 r
      | [] => false
    else if c.toNat = 224 then
      match rest with
      | c1 :: c2 :: r => (160 ≤ c1.toNat && c1.toNat ≤ 191) && isCont c2 && validUtf8 r
      | _ => false
    else if 225 ≤ c.toNat && c.toNat ≤ 236 then
      match rest with
      | c1 :: c2 :: r => isCont c1 && isCont c2 && validUtf8 r
      | _ => false
    else if c.toNat = 237 then
      match rest with
      | c1 :: c2 :: r => (128 ≤ c1.toNat && c1.toNat ≤ 159) && isCont c2 && validUtf8 r
      | _ => false
    else if 238 ≤ c.toNat && c.toNat ≤ 239 then
      match rest with
      | c1 :: c2 :: r => isCont c1 && isCont c2 && validUtf8 r
      | _ => false
    else if c.toNat = 240 then
      match rest with
      | c1 :: c2 :: c3 :: r =>
        (144 ≤ c1.toNat && c1.toNat ≤ 191) && isCont c2 && isCont c3 && validUtf8 r
      | _ => false
    else if 241 ≤ c.toNat && c.toNat ≤ 243 then
      match rest with
      | c1 :: c2 :: c3 :: r => isCont c1 && isCont c2 && isCont c3 && validUtf8 r
      | _ => false
    else if c.toNat = 244 then
      match rest with
      | c1 :: c2 :: c3 :: r =>
        (128 ≤ c1.toNat && c1.toNat ≤ 143) && isCont c2 && isCont c3 && validUtf8 r
      | _ => false
    else false

/-! ## The `Value` data model (`benc.rs`, lines 78–87)

```rust
pub enum Value {
    Int(i64), Str(String), Bytes(Vec<u8>),
    Dict(BTreeMap<Value, Value>), List(Vec<Value>),
    DictRef(Rc<RefCell<BTreeMap<Value, Value>>>),
    ListRef(Rc<RefCell<Vec<Value>>>),
}
```

`BTreeMap<Value, Value>` is represented by its iteration sequence: the
association list of (key, value) pairs in ascending key order (the order
of the derived `Ord` below); `BTreeMap::insert` is `btreeInsert`. -/

inductive Value where
  | int (i : Int)
  | str (s : List UInt8)
  | bytes (b : List UInt8)
  | dict (m : List (Value × Value))
  | list (l : List Value)
  | dictRef (r : Nat)
  | listRef (r : Nat)

mutual

/-- Structural equality (the derived `PartialEq`/`Eq`).  For the `Rc`
variants Rust compares the referents; our refs hold heap indices and the
decoder never compares two refs (`BTreeMap` keys are never refs), so
index equality is used. -/
def Value.beq : Value → Value → Bool
  | .int a, .int b => a == b
  | .str a, .str b => a == b
  | .bytes a, .bytes b => a == b
  | .dict a, .dict b => Value.beqEntries a b
  | .list a, .list b => Value.beqList a b
  | .dictRef a, .dictRef b => a == b
  | .listRef a, .listRef b => a == b
  | _, _ => false

/-- Pairwise equality of dict entry sequences. -/
def Value.beqEntries : List (Value × Value) → List (Value × Value) → Bool
  | [], [] => true
  | (k, v) :: as_, (k', v') :: bs => Value.beq k k' && Value.beq v v' && Value.beqEntries as_ bs
  | _, _ => false

/-- Pairwise equality of value lists. -/
def Value.beqList : List Value → List Value → Bool
  | [], [] => true
  | a :: as_, b :: bs => Value.beq a b && Value.beqList as_ bs
  | _, _ => false

end

mutual

theorem Value.beq_iff : ∀ (a b : Value), Value.beq a b = true ↔ a = b
  | .int _, .int _ => by simp [Value.beq]
  | .str _, .str _ => by simp [Value.beq]
  | .bytes _, .bytes _ => by simp [Value.beq]
  | .dict a, .dict b => by simp [Value.beq, Value.beqEntries_iff a b]
  | .list a, .list b => by simp [Value.beq, Value.beqList_iff a b]
  | .dictRef _, .dictRef _ => by simp [Value.beq]
  | .listRef _, .listRef _ => by simp [Value.beq]
  | .int _, .str _ | .int _, .bytes _ | .int _, .dict _ | .int _, .list _
  | .int _, .dictRef _ | .int _, .listRef _
  | .str _, .int _ | .str _, .bytes _ | .str _, .dict _ | .str _, .list _
  | .str _, .dictRef _ | .str _, .listRef _
  | .bytes _, .int _ | .bytes _, .str _ | .bytes _, .dict _ | .bytes _, .list _
  | .bytes _, .dictRef _ | .bytes _, .listRef _
  | .dict _, .int _ | .dict _, .str _ | .dict _, .bytes _ | .dict _, .list _
  | .dict _, .dictRef _ | .dict _, .listRef _
  | .list _, .int _ | .list _, .str _ | .list _, .bytes _ | .list _, .dict _
  | .list _, .dictRef _ | .list _, .listRef _
  | .dictRef _, .int _ | .dictRef _, .str _ | .dictRef _, .bytes _ | .dictRef _, .dict _
  | .dictRef _, .list _ | .dictRef _, .listRef _
  | .listRef _, .int _ | .listRef _, .str _ | .listRef _, .bytes _ | .listRef _, .dict _
  | .listRef _, .list _ | .listRef _, .dictRef _ => by simp [Value.beq]

theorem Value.beqEntries_iff :
    ∀ (a b : List (Value × Value)), Value.beqEntries a b = true ↔ a = b
  | [], [] => by simp [Value.beqEntries]
  | [], _ :: _ => by simp [Value.beqEntries]
  | _ :: _, [] => by simp [Value.beqEntries]
  | (k, v) :: as_, (k', v') :: bs => by
    simp [Value.beqEntries, Value.beq_iff k k', Value.beq_iff v v',
      Value.beqEntries_iff as_ bs, and_assoc]

theorem Value.beqList_iff : ∀ (a b : List Value), Value.beqList a b = true ↔ a = b
  | [], [] => by simp [Value.beqList]
  | [], _ :: _ => by simp [Value.beqList]
  | _ :: _, [] => by simp [Value.beqList]
  | a :: as_, b :: bs => by
    simp [Value.beqList, Value.beq_iff a b, Value.beqList_iff as_ bs]

end

instance : DecidableEq Value := fun a b => decidable_of_iff _ (Value.beq_iff a b)

namespace Value

/-- Discriminant order of the derived `Ord` (declaration order of the
variants). -/
def tagOf : Value → Nat
  | .int _ => 0 | .str _ => 1 | .bytes _ => 2 | .dict _ => 3
  | .list _ => 4 | .dictRef _ => 5 | .listRef _ => 6

/-- Lexicographic comparison of byte sequences (`Ord` on `Vec<u8>` /
`String`, both of which compare byte-wise). -/
def cmpBytes : List UInt8 → List UInt8 → Ordering
  | [], [] => .eq
  | [], _ :: _ => .lt
  | _ :: _, [] => .gt
  | a :: as_, b :: bs =>
    if a < b then .lt else if b < a then .gt else cmpBytes as_ bs

end Value

mutual

/-- The derived `Ord` on `Value`: variants compare by declaration order
(`Int < Str < Bytes < Dict < List < DictRef < ListRef`); equal variants
compare their fields (byte-wise for `Str`/`Bytes`, lexicographically
entry-wise for `Dict` iteration order, element-wise for `List`).  For the
`Rc` variants Rust compares the referents; as with `beq`, heap indices
stand in and are never reached by the decoder's comparisons. -/
def Value.cmp : Value → Value → Ordering
  | .int a, .int b => compare a b
  | .str a, .str b => Value.cmpBytes a b
  | .bytes a, .bytes b => Value.cmpBytes a b
  | .dict a, .dict b => Value.cmpEntries a b
  | .list a, .list b => Value.cmpList a b
  | .dictRef a, .dictRef b => compare a b
  | .listRef a, .listRef b => compare a b
  | a, b => compare (Value.tagOf a) (Value.tagOf b)

/-- Lexicographic comparison of dict entry sequences (`Ord` on
`BTreeMap` iterates pairs; a pair compares key first, then value). -/
def Value.cmpEntries : List (Value × Value) → List (Value × Value) → Ordering
  | [], [] => .eq
  | [], _ :: _ => .lt
  | _ :: _, [] => .gt
  | (k, v) :: as_, (k', v') :: bs =>
    match Value.cmp k k' with
    | .lt => .lt | .gt => .gt
    | .eq =>
      match Value.cmp v v' with
      | .lt => .lt | .gt => .gt
      | .eq => Value.cmpEntries as_ bs

/-- Lexicographic comparison of value lists (`Ord` on `Vec<Value>`). -/
def Value.cmpList : List Value → List Value → Ordering
  | [], [] => .eq
  | [], _ :: _ => .lt
  | _ :: _, [] => .gt
  | a :: as_, b :: bs =>
    match Value.cmp a b with
    | .lt => .lt | .gt => .gt
    | .eq => Value.cmpList as_ bs

end

/-- `str_or_bytes` (`benc.rs` 591–596): convert a raw buffer to utf8 if
possible and return the appropriate `Value`. -/
def str_or_bytes (vec : List UInt8) : Value :=
  if validUtf8 vec then .str vec else .bytes vec

/-- `BTreeMap::insert` on the sorted iteration sequence: position found
by key comparison; on an equal key the value is replaced and the stored
key kept. -/
def btreeInsert (m : List (Value × Value)) (k v : Value) : List (Value × Value) :=
  match m with
  | [] => [(k, v)]
  | (k', v') :: rest =>
    match Value.cmp k k' with
    | .lt => (k, v) :: (k', v') :: rest
    | .eq => (k', v) :: rest
    | .gt => (k', v') :: btreeInsert rest k v

namespace Value

/-- `Value::is_int`. -/
def is_int : Value → Bool | .int _ => true | _ => false
/-- `Value::is_str`. -/
def is_str : Value → Bool | .str _ => true | _ => false
/-- `Value::is_bytes`. -/
def is_bytes : Value → Bool | .bytes _ => true | _ => false
/-- `Value::is_dict`. -/
def is_dict : Value → Bool | .dict _ => true | _ => false
/-- `Value::is_list`. -/
def is_list : Value → Bool | .list _ => true | _ => false
/-- `Value::is_ref`: is the current value a reference (`DictRef`/`ListRef`)? -/
def is_ref : Value → Bool | .dictRef _ => true | .listRef _ => true | _ => false

/-- `Value::to_i64`. -/
def to_i64 : Value → Option Int | .int v => some v | _ => none
/-- `Value::to_str` (the `String` as its byte list). -/
def to_str : Value → Option (List UInt8) | .str s => some s | _ => none
/-- `Value::to_bytes`. -/
def to_bytes : Value → Option (List UInt8) | .bytes b => some b | _ => none
/-- `Value::to_map`. -/
def to_map : Value → Option (List (Value × Value)) | .dict m => some m | _ => none
/-- `Value::to_vec`. -/
def to_vec : Value → Option (List Value) | .list l => some l | _ => none

end Value

end Bencedit

namespace Bencedit

/-! ## Integer parsing (`str::parse::<u64>` / `::<i64>`)

`buf_int` only ever holds ASCII digits and `'-'` (the `State::Int`
accumulator admits nothing else), so the exotic forms Rust's parsers
accept (`"+7"`) cannot occur and are not modelled. -/

/-- Are all bytes ASCII digits? -/
def allDigits (l : List UInt8) : Bool := l.all isDigit

/-- Numeric value of a digit sequence. -/
def digitsVal (l : List UInt8) : Nat := l.foldl (fun a c => a * 10 + (c.toNat - 48)) 0

/-- `str::parse::<u64>` on the accumulator: nonempty digits whose value
fits in 64 bits. -/
def parseU64 (s : List UInt8) : Option Nat :=
  if s ≠ [] ∧ allDigits s ∧ digitsVal s < 2 ^ 64 then some (digitsVal s) else none

/-- `str::parse::<i64>` on the accumulator: optional leading `'-'`,
nonempty digits, value within `[-2^63, 2^63)`. -/
def parseI64 (s : List UInt8) : Option Int :=
  match s with
  | [] => none
  | c :: rest =>
    if c = minusTok then
      if rest ≠ [] ∧ allDigits rest ∧ digitsVal rest ≤ 2 ^ 63 then
        some (-(digitsVal rest : Int))
      else none
    else if allDigits s ∧ digitsVal s < 2 ^ 63 then some ((digitsVal s : Int)) else none

/-! ## The decoder state machine (`load`, `benc.rs` 91–583) -/

/-- `MAX_INT_BUF`. -/
def maxIntBuf : Nat := 32

/-- The `State` enum (`benc.rs` 21–46). -/
inductive State where
  | root | dict | int | str | dictKey | dictVal | strRem | dictFlush
  | dictValStr | dictValInt | dictValDict | dictValList
  | listVal | listValStr | listValInt | listValDict | listValList | listFlush
  | rootValInt | rootValStr | rootValDict | rootValList | done
  deriving DecidableEq, Repr

/-- The `Error` enum (`benc.rs` 56–65).  `Error::Io` is omitted: the
embedding reads from an in-memory buffer (as `load_str`'s `Cursor`
does), which cannot fail. -/
inductive Error where
  | empty
  | synErr (pos : Nat) (msg : String)
  | eof
  | stackUnderflow
  | unexpectedState
  | bigInt
  deriving DecidableEq, Repr

/-- A halted computation: a returned `Error`, or a Rust panic
(out-of-bounds index / `unwrap` of `None`). -/
inductive Halt where
  | fail (e : Error)
  | panicked
  deriving DecidableEq, Repr

/-- The mutable state of `load`'s main loop.  `pos` is `buf_index`,
`itPos` the number of bytes consumed from `buf_chars` (the two agree
except in the `RootValInt` loop arm, which advances only `buf_index`).
`dictHeap`/`listHeap` are the live `Rc<RefCell<..>>` cells;
`dictStack`/`listStack` hold cell indices.  Stacks keep the `Vec`
layout: index 0 first, push/pop at the end. -/
structure Cfg where
  pos : Nat
  itPos : Nat
  state : State
  nextState : List State
  bufStr : List UInt8
  bufStrRem : Nat
  bufInt : List UInt8
  keyStack : List (Option Value)
  valStack : List (Option Value)
  itemStack : List (Option Value)
  dictStack : List Nat
  listStack : List Nat
  dictHeap : List (List (Value × Value))
  listHeap : List (List Value)
  dictI : Int
  listI : Int
  deriving DecidableEq

/-- `Vec::push`. -/
def vpush (l : List α) (x : α) : List α := l ++ [x]

/-- `Vec::pop` (returns the remaining vector and the removed element). -/
def vpop : List α → Option (List α × α)
  | [] => none
  | [x] => some ([], x)
  | x :: y :: r => (vpop (y :: r)).map fun p => (x :: p.1, p.2)

/-- `Vec` read `l[i]` with an `i8` index cast `as usize` (negative
indices wrap to huge values and are out of bounds). -/
def vget (l : List α) (i : Int) : Option α :=
  if 0 ≤ i then l.get? i.toNat else none

/-- `Vec` write `l[i] = x`; `none` is the out-of-bounds panic. -/
def vset (l : List α) (i : Int) (x : α) : Option (List α) :=
  if 0 ≤ i ∧ i.toNat < l.length then some (l.set i.toNat x) else none

/-- `Value::unref` (`benc.rs` 620–627), resolving `Rc` contents through
the heaps.  A dangling index cannot arise from `Rc` in Rust; it is
mapped to `none` (treated as a panic) for totality. -/
def unrefIn (dh : List (List (Value × Value))) (lh : List (List Value)) :
    Value → Option Value
  | .dictRef n => (dh.get? n).map .dict
  | .listRef n => (lh.get? n).map .list
  | v => some v

/-- `format!("Unexpected '{}' token", Into::<u8>::into(a) as char)`
(`benc.rs` 187–190: the byte is printed as a `char`). -/
def unexpectedTokenCharMsg (c : UInt8) : String :=
  "Unexpected '" ++ (Char.ofNat c.toNat).toString ++ "' token"

/-- `format!("Unexpected '{}' token", c)` with `c : u8` (`benc.rs` 274:
the byte is printed as a number). -/
def unexpectedTokenNumMsg (c : UInt8) : String :=
  "Unexpected '" ++ toString c.toNat ++ "' token"

/-- One iteration of `load`'s main loop (`benc.rs` 139–543), entered
with `pos < input.length`.  `real_index = file_index + buf_index` is
`pos` (single chunk). -/
def step (input : List UInt8) (cfg : Cfg) : Except Halt Cfg :=
  match cfg.state with
  | .root =>
    -- let c = **buf_chars.peek().unwrap();
    match input.get? cfg.itPos with
    | none => .error .panicked
    | some c =>
      if c = dTok then
        -- Dict value
        .ok { cfg with
              itPos := cfg.itPos + 1
              pos := cfg.pos + 1
              dictStack := vpush cfg.dictStack cfg.dictHeap.length
              dictHeap := vpush cfg.dictHeap []
              keyStack := vpush cfg.keyStack none
              valStack := vpush cfg.valStack none
              dictI := cfg.dictI + 1
              state := .dictKey
              nextState := vpush cfg.nextState .rootValDict }
      else if c = lTok then
        -- List value
        .ok { cfg with
              itPos := cfg.itPos + 1
              pos := cfg.pos + 1
              listStack := vpush cfg.listStack cfg.listHeap.length
              listHeap := vpush cfg.listHeap []
              itemStack := vpush cfg.itemStack none
              listI := cfg.listI + 1
              state := .listVal
              nextState := vpush cfg.nextState .rootValList }
      else if c = iTok then
        -- Int value
        .ok { cfg with
              state := .int
              itPos := cfg.itPos + 1
              pos := cfg.pos + 1
              nextState := vpush cfg.nextState .rootValInt }
      else if c = eTok ∨ c = colonTok then
        -- End, Colon
        .error (.fail (.synErr cfg.pos (unexpectedTokenCharMsg c)))
      else
        -- Str value
        .ok { cfg with
              state := .str
              nextState := vpush cfg.nextState .rootValStr }

  -- Root int value: just increase buf_index here so the loop can be broken
  | .rootValInt => .ok { cfg with pos := cfg.pos + 1 }

  -- Read dict key or end the dict if it is empty
  | .dictKey =>
    match input.get? cfg.itPos with
    | none => .error .panicked
    | some c =>
      if c = eTok then
        match vpop cfg.nextState with
        | none => .error (.fail .stackUnderflow)
        | some (ns, s) =>
          .ok { cfg with
                itPos := cfg.itPos + 1
                pos := cfg.pos + 1
                state := s
                nextState := ns }
      else if cfg.bufStr.length = 0 then
        .ok { cfg with
              state := .str
              nextState := vpush cfg.nextState .dictKey }
      else
        match vset cfg.keyStack cfg.dictI (some (str_or_bytes cfg.bufStr)) with
        | none => .error .panicked
        | some ks =>
          .ok { cfg with
                keyStack := ks
                bufStr := []
                state := .dictVal }

  -- Read dict value
  | .dictVal =>
    match input.get? cfg.itPos with
    | none => .error (.fail .eof)
    | some c =>
      if c = dTok then
        -- Dict value
        match vset cfg.valStack cfg.dictI (some (.dictRef cfg.dictHeap.length)) with
        | none => .error .panicked
        | some vs =>
          .ok { cfg with
                itPos := cfg.itPos + 1
                pos := cfg.pos + 1
                valStack := vpush vs none
                dictStack := vpush cfg.dictStack cfg.dictHeap.length
                dictHeap := vpush cfg.dictHeap []
                keyStack := vpush cfg.keyStack none
                dictI := cfg.dictI + 1
                state := .dictKey
                nextState := vpush cfg.nextState .dictValDict }
      else if c = lTok then
        -- List value
        match vset cfg.valStack cfg.dictI (some (.listRef cfg.listHeap.length)) with
        | none => .error .panicked
        | some vs =>
          .ok { cfg with
                itPos := cfg.itPos + 1
                pos := cfg.pos + 1
                valStack := vs
                listStack := vpush cfg.listStack cfg.listHeap.length
                listHeap := vpush cfg.listHeap []
                itemStack := vpush cfg.itemStack none
                listI := cfg.listI + 1
                state := .listVal
                nextState := vpush cfg.nextState .dictValList }
      else if c = iTok then
        -- Int value
        .ok { cfg with
              itPos := cfg.itPos + 1
              pos := cfg.pos + 1
              state := .int
              nextState := vpush cfg.nextState .dictValInt }
      else if c = eTok ∨ c = colonTok then
        -- Colon, End
        .error (.fail (.synErr cfg.pos (unexpectedTokenNumMsg c)))
      else
        -- String value
        .ok { cfg with
              state := .str
              nextState := vpush cfg.nextState .dictValStr }

  -- Process current dict value as str
  | .dictValStr =>
    match vset cfg.valStack cfg.dictI (some (str_or_bytes cfg.bufStr)) with
    | none => .error .panicked
    | some vs =>
      .ok { cfg with
            valStack := vs
            bufStr := []
            state := .dictFlush }

  -- Process current dict value as int
  | .dictValInt =>
    match input.get? cfg.itPos with
    | none => .error .panicked
    | some c =>
      if c ≠ eTok then .error (.fail (.synErr cfg.pos "Expected 'e' token"))
      else
        match parseI64 cfg.bufInt with
        | none => .error (.fail (.synErr cfg.pos "Invalid integer"))
        | some v =>
          match vset cfg.valStack cfg.dictI (some (.int v)) with
          | none => .error .panicked
          | some vs =>
            .ok { cfg with
                  itPos := cfg.itPos + 1
                  pos := cfg.pos + 1
                  valStack := vs
                  bufInt := []
                  state := .dictFlush }

  -- Process current dict value as dict
  | .dictValDict =>
    match vpop cfg.dictStack with
    | none => .error (.fail .stackUnderflow)
    | some (ds, d) =>
      match vset cfg.valStack cfg.dictI (some (.dictRef d)) with
      | none => .error .panicked
      | some vs =>
        match vpop cfg.keyStack with
        | none => .error (.fail .stackUnderflow)
        | some (ks, _) =>
          match vpop vs with
          | none => .error (.fail .stackUnderflow)
          | some (vs', _) =>
            .ok { cfg with
                  dictStack := ds
                  keyStack := ks
                  valStack := vs'
                  dictI := cfg.dictI - 1
                  state := .dictFlush }

  -- Process current dict value as list
  | .dictValList =>
    match vpop cfg.listStack with
    | none => .error (.fail .stackUnderflow)
    | some (ls, l) =>
      match vset cfg.valStack cfg.dictI (some (.listRef l)) with
      | none => .error .panicked
      | some vs =>
        match vpop cfg.itemStack with
        | none => .error (.fail .stackUnderflow)
        | some (its, _) =>
          .ok { cfg with
                listStack := ls
                valStack := vs
                itemStack := its
                listI := cfg.listI - 1
                state := .dictFlush }

  -- Insert current (key, value) pair into current dict
  | .dictFlush =>
    match vget cfg.keyStack cfg.dictI with
    | none => .error .panicked
    | some none => .error .panicked
    | some (some key) =>
      match vget cfg.valStack cfg.dictI with
      | none => .error .panicked
      | some none => .error .panicked
      | some (some v0) =>
        match unrefIn cfg.dictHeap cfg.listHeap v0 with
        | none => .error .panicked
        | some val =>
          match vget cfg.dictStack cfg.dictI with
          | none => .error .panicked
          | some cellIdx =>
            match cfg.dictHeap.get? cellIdx with
            | none => .error .panicked
            | some cell =>
              match input.get? cfg.itPos with
              | none => .error (.fail .eof)
              | some c =>
                if c = eTok then
                  match vpop cfg.nextState with
                  | none => .error (.fail .stackUnderflow)
                  | some (ns, s) =>
                    .ok { cfg with
                          dictHeap := cfg.dictHeap.set cellIdx (btreeInsert cell key val)
                          itPos := cfg.itPos + 1
                          pos := cfg.pos + 1
                          state := s
                          nextState := ns }
                else
                  .ok { cfg with
                        dictHeap := cfg.dictHeap.set cellIdx (btreeInsert cell key val)
                        state := .dictKey }

  -- List value
  | .listVal =>
    match input.get? cfg.itPos with
    | none => .error (.fail .eof)
    | some c =>
      if c = eTok then
        -- End of list
        match vpop cfg.nextState with
        | none => .error (.fail .stackUnderflow)
        | some (ns, s) =>
          .ok { cfg with
                itPos := cfg.itPos + 1
                pos := cfg.pos + 1
                state := s
                nextState := ns }
      else if c = dTok then
        -- Dict value
        match vset cfg.itemStack cfg.listI (some (.dictRef cfg.dictHeap.length)) with
        | none => .error .panicked
        | some its =>
          .ok { cfg with
                itemStack := its
                itPos := cfg.itPos + 1
                dictStack := vpush cfg.dictStack cfg.dictHeap.length
                dictHeap := vpush cfg.dictHeap []
                keyStack := vpush cfg.keyStack none
                valStack := vpush cfg.valStack none
                dictI := cfg.dictI + 1
                pos := cfg.pos + 1
                state := .dictKey
                nextState := vpush cfg.nextState .listValDict }
      else if c = lTok then
        -- List value (the current state stays ListVal)
        match vset cfg.itemStack cfg.listI (some (.listRef cfg.listHeap.length)) with
        | none => .error .panicked
        | some its =>
          .ok { cfg with
                itemStack := vpush its none
                itPos := cfg.itPos + 1
                listStack := vpush cfg.listStack cfg.listHeap.length
                listHeap := vpush cfg.listHeap []
                listI := cfg.listI + 1
                pos := cfg.pos + 1
                nextState := vpush cfg.nextState .listValList }
      else if c = iTok then
        -- Int value
        .ok { cfg with
              itPos := cfg.itPos + 1
              pos := cfg.pos + 1
              state := .int
              nextState := vpush cfg.nextState .listValInt }
      else if c = colonTok then
        -- Colon
        .error (.fail (.synErr cfg.pos "Unexpected ':' token"))
      else
        -- String value
        .ok { cfg with
              state := .str
              nextState := vpush cfg.nextState .listValStr }

  -- Process current list value as str
  | .listValStr =>
    match vset cfg.itemStack cfg.listI (some (str_or_bytes cfg.bufStr)) with
    | none => .error .panicked
    | some its =>
      .ok { cfg with
            itemStack := its
            bufStr := []
            state := .listFlush }

  -- Process current list value as int
  | .listValInt =>
    match input.get? cfg.itPos with
    | none => .error .panicked
    | some c =>
      if c ≠ eTok then .error (.fail (.synErr cfg.pos "Expected 'e' token"))
      else
        match parseI64 cfg.bufInt with
        | none => .error (.fail (.synErr cfg.pos "Invalid integer"))
        | some v =>
          match vset cfg.itemStack cfg.listI (some (.int v)) with
          | none => .error .panicked
          | some its =>
            .ok { cfg with
                  itPos := cfg.itPos + 1
                  pos := cfg.pos + 1
                  itemStack := its
                  bufInt := []
                  state := .listFlush }

  -- Process current list value as dict (stored owned: borrow().clone())
  | .listValDict =>
    match vpop cfg.dictStack with
    | none => .error (.fail .stackUnderflow)
    | some (ds, d) =>
      match cfg.dictHeap.get? d with
      | none => .error .panicked
      | some cell =>
        match vset cfg.itemStack cfg.listI (some (.dict cell)) with
        | none => .error .panicked
        | some its =>
          .ok { cfg with
                dictStack := ds
                itemStack := its
                keyStack := cfg.keyStack.dropLast
                valStack := cfg.valStack.dropLast
                dictI := cfg.dictI - 1
                state := .listFlush }

  -- Process current list value as list (written to the child slot, which
  -- is then popped; the parent slot keeps the ListRef installed on entry)
  | .listValList =>
    match vpop cfg.listStack with
    | none => .error (.fail .stackUnderflow)
    | some (ls, l) =>
      match cfg.listHeap.get? l with
      | none => .error .panicked
      | some cell =>
        match vset cfg.itemStack cfg.listI (some (.list cell)) with
        | none => .error .panicked
        | some its =>
          .ok { cfg with
                listStack := ls
                itemStack := its.dropLast
                listI := cfg.listI - 1
                state := .listFlush }

  -- Add current list value to the current list
  | .listFlush =>
    match vget cfg.itemStack cfg.listI with
    | none => .error .panicked
    | some none => .error .panicked
    | some (some v0) =>
      match unrefIn cfg.dictHeap cfg.listHeap v0 with
      | none => .error .panicked
      | some val =>
        match vget cfg.listStack cfg.listI with
        | none => .error .panicked
        | some cellIdx =>
          match cfg.listHeap.get? cellIdx with
          | none => .error .panicked
          | some cell =>
            match input.get? cfg.itPos with
            | none => .error .panicked
            | some c =>
              if c = eTok then
                match vpop cfg.nextState with
                | none => .error (.fail .stackUnderflow)
                | some (ns, s) =>
                  .ok { cfg with
                        listHeap := cfg.listHeap.set cellIdx (cell ++ [val])
                        itPos := cfg.itPos + 1
                        pos := cfg.pos + 1
                        state := s
                        nextState := ns }
              else
                .ok { cfg with
                      listHeap := cfg.listHeap.set cellIdx (cell ++ [val])
                      state := .listVal }

  -- Process string
  | .str =>
    if cfg.bufInt.length = 0 then
      .ok { cfg with
            bufStr := []
            bufStrRem := 0
            state := .int
            nextState := vpush cfg.nextState .str }
    else
      match input.get? cfg.itPos with
      | none => .error (.fail .eof)
      | some c =>
        if c ≠ colonTok then .error (.fail (.synErr cfg.pos "Expected ':'"))
        else
          match parseU64 cfg.bufInt with
          | none => .error (.fail (.synErr cfg.pos "Invalid integer"))
          | some size =>
            -- the ':' is consumed (buf_index += 1) before the size check
            if cfg.pos + 1 + size > input.length then
              -- String is bigger than buffer
              .ok { cfg with
                    bufInt := []
                    bufStrRem := size - (input.length - (cfg.pos + 1))
                    bufStr := cfg.bufStr ++ input.drop (cfg.itPos + 1)
                    itPos := input.length
                    pos := cfg.pos + 1 + (input.length - (cfg.pos + 1))
                    state := .strRem }
            else
              match vpop cfg.nextState with
              | none => .error (.fail .stackUnderflow)
              | some (ns, s) =>
                .ok { cfg with
                      bufInt := []
                      bufStr := cfg.bufStr ++ (input.drop (cfg.itPos + 1)).take size
                      itPos := cfg.itPos + 1 + size
                      pos := cfg.pos + 1 + size
                      state := s
                      nextState := ns }

  -- Process string remainder
  | .strRem =>
    if cfg.bufStrRem > 0 ∧ cfg.pos + cfg.bufStrRem > input.length then
      .ok { cfg with
            bufStrRem := cfg.bufStrRem - (input.length - cfg.pos)
            bufStr := cfg.bufStr ++ input.drop cfg.itPos
            itPos := input.length
            pos := cfg.pos + (input.length - cfg.pos) }
    else
      match vpop cfg.nextState with
      | none => .error (.fail .stackUnderflow)
      | some (ns, s) =>
        .ok { cfg with
              bufStr := cfg.bufStr ++ (input.drop cfg.itPos).take cfg.bufStrRem
              itPos := cfg.itPos + cfg.bufStrRem
              pos := cfg.pos + cfg.bufStrRem
              bufStrRem := 0
              state := s
              nextState := ns }

  -- Int
  | .int =>
    match input.get? cfg.itPos with
    | none => .error (.fail .eof)
    | some c =>
      if isDigit c ∨ c = minusTok then
        -- Only allow minus at the beginning
        if c = minusTok ∧ cfg.bufInt.length > 0 then
          .error (.fail (.synErr cfg.pos "Unexpected '-'"))
        else
          .ok { cfg with
                bufInt := cfg.bufInt ++ [c]
                itPos := cfg.itPos + 1
                pos := cfg.pos + 1 }
      else
        if cfg.bufInt.length = 0 then
          .error (.fail (.synErr cfg.pos "Empty integer"))
        else if cfg.bufInt.length > maxIntBuf then
          .error (.fail .bigInt)
        else
          match vpop cfg.nextState with
          | none => .error (.fail .stackUnderflow)
          | some (ns, s) =>
            .ok { cfg with
                  state := s
                  nextState := ns }

  | _ => .error (.fail .unexpectedState)

/-- The result of `load`: a `Value`, a returned `Error`, or a panic. -/
inductive LoadResult where
  | ok (v : Value)
  | err (e : Error)
  | panicked
  deriving DecidableEq

/-- Map a halt of the loop body to the loop's result. -/
def haltOut : Halt → LoadResult
  | .fail e => .err e
  | .panicked => .panicked

/-- Finalisation after the main loop (`benc.rs` 546–582). -/
def finalize (input : List UInt8) (cfg : Cfg) : LoadResult :=
  if cfg.nextState.length > 0 then .err .eof
  else
    match cfg.state with
    | .rootValInt =>
      match input.get? cfg.itPos with
      | none => .panicked
      | some c =>
        if c ≠ eTok then .err (.synErr (input.length - 1) "Expected 'e' token")
        else
          match parseI64 cfg.bufInt with
          | none => .err (.synErr cfg.pos "Invalid integer")
          | some v => .ok (.int v)
    | .rootValStr => .ok (str_or_bytes cfg.bufStr)
    | .rootValDict =>
      match vpop cfg.dictStack with
      | none => .err .stackUnderflow
      | some (_, d) =>
        match cfg.dictHeap.get? d with
        | none => .panicked
        | some cell => .ok (.dict cell)
    | .rootValList =>
      match vpop cfg.listStack with
      | none => .err .stackUnderflow
      | some (_, l) =>
        match cfg.listHeap.get? l with
        | none => .panicked
        | some cell => .ok (.list cell)
    | _ => .err .unexpectedState

/-! ### Termination of the main loop

Every iteration either consumes input or strictly decreases a rank that
bounds the number of administrative transitions before the next byte is
consumed. -/

/-- Rank of a state for the loop measure (second argument: is `buf_int`
empty?). -/
def State.rank : State → Bool → Nat
  | .int, e => if e then 1 else 8
  | .str, e => if e then 3 else 1
  | .strRem, _ => 8
  | .root, _ => 5
  | .dictKey, _ => 6
  | .dictVal, _ => 5
  | .dictFlush, _ => 7
  | .dictValStr, _ => 8
  | .dictValInt, _ => 8
  | .dictValDict, _ => 8
  | .dictValList, _ => 8
  | .listVal, _ => 5
  | .listValStr, _ => 8
  | .listValInt, _ => 8
  | .listValDict, _ => 8
  | .listValList, _ => 8
  | .listFlush, _ => 6
  | _, _ => 1

/-- Loop measure. -/
def mu (input : List UInt8) (cfg : Cfg) : Nat :=
  16 * (input.length - cfg.pos) + State.rank cfg.state cfg.bufInt.isEmpty +
    cfg.nextState.length

theorem State.rank_le (s : State) (e : Bool) :
    1 ≤ State.rank s e ∧ State.rank s e ≤ 8 := by
  cases s <;> cases e <;> simp [State.rank]

theorem vpop_length {l r : List α} {x : α} (h : vpop l = some (r, x)) :
    r.length + 1 = l.length := by
  induction l generalizing r x with
  | nil => simp [vpop] at h
  | cons a t ih =>
    cases t with
    | nil => simp [vpop] at h; simp [← h.1]
    | cons b u =>
      simp only [vpop, Option.map_eq_some'] at h
      obtain ⟨p, hp, he⟩ := h
      cases he
      have := ih (by simpa [vpop] using hp)
      simpa using this

/-- A step that consumes at least one byte decreases the measure. -/
theorem mu_lt_of_consume {input : List UInt8} {cfg c : Cfg}
    (hp : cfg.pos < input.length) (h1 : cfg.pos + 1 ≤ c.pos)
    (h3 : c.nextState.length ≤ cfg.nextState.length + 1) :
    mu input c < mu input cfg := by
  have ha := State.rank_le c.state c.bufInt.isEmpty
  have hb := State.rank_le cfg.state cfg.bufInt.isEmpty
  unfold mu
  omega

theorem step_mu_lt {input : List UInt8} {cfg c : Cfg}
    (hp : cfg.pos < input.length) (hs : step input cfg = .ok c) :
    mu input c < mu input cfg := by
  obtain ⟨pos, itPos, st, ns, bstr, brem, bint, ks, vs, its, dst, lst, dh, lh, di, li⟩ := cfg
  replace hp : pos < input.length := hp
  cases st <;> simp only [step] at hs
  case root =>
    cases hc : input.get? itPos <;> simp only [hc] at hs
    · cases hs
    split at hs
    · cases hs; exact mu_lt_of_consume hp (by simp) (by simp [vpush])
    split at hs
    · cases hs; exact mu_lt_of_consume hp (by simp) (by simp [vpush])
    split at hs
    · cases hs; exact mu_lt_of_consume hp (by simp) (by simp [vpush])
    split at hs
    · cases hs
    · cases hs
      cases hbe : bint.isEmpty <;> simp [mu, State.rank, vpush, hbe] <;> omega
  case rootValInt =>
    cases hs; exact mu_lt_of_consume hp (by simp) (by simp)
  case dictKey =>
    cases hc : input.get? itPos <;> simp only [hc] at hs
    · cases hs
    split at hs
    · cases hv : vpop ns with
      | none => simp only [hv] at hs; cases hs
      | some p =>
        obtain ⟨ns', s⟩ := p
        simp only [hv] at hs
        cases hs
        exact mu_lt_of_consume hp (by simp) (by have := vpop_length hv; simp; omega)
    split at hs
    · cases hs
      cases hbe : bint.isEmpty <;> simp [mu, State.rank, vpush, hbe] <;> omega
    · cases hv : vset ks di (some (str_or_bytes bstr)) <;> simp only [hv] at hs
      · cases hs
      · cases hs; simp [mu, State.rank]
  case dictVal =>
    cases hc : input.get? itPos <;> simp only [hc] at hs
    · cases hs
    split at hs
    · cases hv : vset vs di (some (Value.dictRef dh.length)) <;> simp only [hv] at hs
      · cases hs
      · cases hs; exact mu_lt_of_consume hp (by simp) (by simp [vpush])
    split at hs
    · cases hv : vset vs di (some (Value.listRef lh.length)) <;> simp only [hv] at hs
      · cases hs
      · cases hs; exact mu_lt_of_consume hp (by simp) (by simp [vpush])
    split at hs
    · cases hs; exact mu_lt_of_consume hp (by simp) (by simp [vpush])
    split at hs
    · cases hs
    · cases hs
      cases hbe : bint.isEmpty <;> simp [mu, State.rank, vpush, hbe] <;> omega
  case dictValStr =>
    cases hv : vset vs di (some (str_or_bytes bstr)) <;> simp only [hv] at hs
    · cases hs
    · cases hs; simp [mu, State.rank]
  case dictValInt =>
    cases hc : input.get? itPos <;> simp only [hc] at hs
    · cases hs
    split at hs
    · cases hs
    cases hpi : parseI64 bint with
    | none => simp only [hpi] at hs; cases hs
    | some v =>
      simp only [hpi] at hs
      cases hv : vset vs di (some (Value.int v)) <;> simp only [hv] at hs
      · cases hs
      · cases hs; exact mu_lt_of_consume hp (by simp) (by simp)
  case dictValDict =>
    cases hv : vpop dst with
    | none => simp only [hv] at hs; cases hs
    | some p =>
      obtain ⟨ds, d⟩ := p
      simp only [hv] at hs
      cases hv2 : vset vs di (some (Value.dictRef d)) <;> simp only [hv2] at hs
      · cases hs
      case some vs2 =>
      cases hv3 : vpop ks with
      | none => simp only [hv3] at hs; cases hs
      | some p2 =>
        obtain ⟨ks', k2⟩ := p2
        simp only [hv3] at hs
        cases hv4 : vpop vs2 with
        | none => simp only [hv4] at hs; cases hs
        | some p3 =>
          obtain ⟨vs', v2⟩ := p3
          simp only [hv4] at hs
          cases hs; simp [mu, State.rank]
  case dictValList =>
    cases hv : vpop lst with
    | none => simp only [hv] at hs; cases hs
    | some p =>
      obtain ⟨ls, l⟩ := p
      simp only [hv] at hs
      cases hv2 : vset vs di (some (Value.listRef l)) <;> simp only [hv2] at hs
      · cases hs
      cases hv3 : vpop its with
      | none => simp only [hv3] at hs; cases hs
      | some p2 =>
        obtain ⟨its', i2⟩ := p2
        simp only [hv3] at hs
        cases hs; simp [mu, State.rank]
  case dictFlush =>
    cases h1 : vget ks di <;> simp only [h1] at hs
    · cases hs
    case some o =>
    cases o
    · cases hs
    case some key =>
    cases h2 : vget vs di <;> simp only [h2] at hs
    · cases hs
    case some o2 =>
    cases o2
    · cases hs
    case some v0 =>
    cases h3 : unrefIn dh lh v0 <;> simp only [h3] at hs
    · cases hs
    case some val =>
    cases h4 : vget dst di <;> simp only [h4] at hs
    · cases hs
    case some cellIdx =>
    cases h5 : dh.get? cellIdx <;> simp only [h5] at hs
    · cases hs
    case some cell =>
    cases h6 : input.get? itPos <;> simp only [h6] at hs
    · cases hs
    split at hs
    · cases h7 : vpop ns with
      | none => simp only [h7] at hs; cases hs
      | some p =>
        obtain ⟨ns', s⟩ := p
        simp only [h7] at hs
        cases hs
        exact mu_lt_of_consume hp (by simp) (by have := vpop_length h7; simp; omega)
    · cases hs; simp [mu, State.rank]
  case listVal =>
    cases hc : input.get? itPos <;> simp only [hc] at hs
    · cases hs
    split at hs
    · cases h7 : vpop ns with
      | none => simp only [h7] at hs; cases hs
      | some p =>
        obtain ⟨ns', s⟩ := p
        simp only [h7] at hs
        cases hs
        exact mu_lt_of_consume hp (by simp) (by have := vpop_length h7; simp; omega)
    split at hs
    · cases hv : vset its li (some (Value.dictRef dh.length)) <;> simp only [hv] at hs
      · cases hs
      · cases hs; exact mu_lt_of_consume hp (by simp) (by simp [vpush])
    split at hs
    · cases hv : vset its li (some (Value.listRef lh.length)) <;> simp only [hv] at hs
      · cases hs
      · cases hs; exact mu_lt_of_consume hp (by simp) (by simp [vpush])
    split at hs
    · cases hs; exact mu_lt_of_consume hp (by simp) (by simp [vpush])
    split at hs
    · cases hs
    · cases hs
      cases hbe : bint.isEmpty <;> simp [mu, State.rank, vpush, hbe] <;> omega
  case listValStr =>
    cases hv : vset its li (some (str_or_bytes bstr)) <;> simp only [hv] at hs
    · cases hs
    · cases hs; simp [mu, State.rank]
  case listValInt =>
    cases hc : input.get? itPos <;> simp only [hc] at hs
    · cases hs
    split at hs
    · cases hs
    cases hpi : parseI64 bint with
    | none => simp only [hpi] at hs; cases hs
    | some v =>
      simp only [hpi] at hs
      cases hv : vset its li (some (Value.int v)) <;> simp only [hv] at hs
      · cases hs
      · cases hs; exact mu_lt_of_consume hp (by simp) (by simp)
  case listValDict =>
    cases hv : vpop dst with
    | none => simp only [hv] at hs; cases hs
    | some p =>
      obtain ⟨ds, d⟩ := p
      simp only [hv] at hs
      cases h5 : dh.get? d <;> simp only [h5] at hs
      · cases hs
      case some cell =>
      cases hv2 : vset its li (some (Value.dict cell)) <;> simp only [hv2] at hs
      · cases hs
      cases hs; simp [mu, State.rank]
  case listValList =>
    cases hv : vpop lst with
    | none => simp only [hv] at hs; cases hs
    | some p =>
      obtain ⟨ls, l⟩ := p
      simp only [hv] at hs
      cases h5 : lh.get? l <;> simp only [h5] at hs
      · cases hs
      case some cell =>
      cases hv2 : vset its li (some (Value.list cell)) <;> simp only [hv2] at hs
      · cases hs
      cases hs; simp [mu, State.rank]
  case listFlush =>
    cases h1 : vget its li <;> simp only [h1] at hs
    · cases hs
    case some o =>
    cases o
    · cases hs
    case some v0 =>
    cases h3 : unrefIn dh lh v0 <;> simp only [h3] at hs
    · cases hs
    case some val =>
    cases h4 : vget lst li <;> simp only [h4] at hs
    · cases hs
    case some cellIdx =>
    cases h5 : lh.get? cellIdx <;> simp only [h5] at hs
    · cases hs
    case some cell =>
    cases h6 : input.get? itPos <;> simp only [h6] at hs
    · cases hs
    split at hs
    · cases h7 : vpop ns with
      | none => simp only [h7] at hs; cases hs
      | some p =>
        obtain ⟨ns', s⟩ := p
        simp only [h7] at hs
        cases hs
        exact mu_lt_of_consume hp (by simp) (by have := vpop_length h7; simp; omega)
    · cases hs; simp [mu, State.rank]
  case str =>
    split at hs
    · cases hs
      simp only [mu, State.rank]
      have hbe : bint.isEmpty = true := by
        have : bint.length = 0 := by assumption
        simpa [List.isEmpty_iff, List.length_eq_zero] using this
      simp [hbe, vpush]
      omega
    · next hbe =>
      cases hc : input.get? itPos <;> simp only [hc] at hs
      · cases hs
      split at hs
      · cases hs
      cases hpu : parseU64 bint <;> simp only [hpu] at hs
      · cases hs
      split at hs
      · cases hs; exact mu_lt_of_consume hp (by simp) (by simp)
      · cases h7 : vpop ns with
        | none => simp only [h7] at hs; cases hs
        | some p =>
          obtain ⟨ns', s⟩ := p
          simp only [h7] at hs
          cases hs
          exact mu_lt_of_consume hp (by simp) (by have := vpop_length h7; simp; omega)
  case strRem =>
    split at hs
    · cases hs
      next hcond =>
      exact mu_lt_of_consume hp (by simp; omega) (by simp)
    · next hcond =>
      cases h7 : vpop ns with
      | none => simp only [h7] at hs; cases hs
      | some p =>
        obtain ⟨ns', s⟩ := p
        simp only [h7] at hs
        cases hs
        rcases Nat.eq_zero_or_pos brem with hz | hpos
        · have hl := vpop_length h7
          have hr := State.rank_le s bint.isEmpty
          have h8 : State.rank State.strRem bint.isEmpty = 8 := rfl
          simp only [mu, hz, Nat.add_zero]
          omega
        · have hle : pos + brem ≤ input.length := by
            rcases Nat.lt_or_ge input.length (pos + brem) with h | h
            · exact absurd ⟨hpos, h⟩ hcond
            · exact h
          exact mu_lt_of_consume hp (by simp; omega)
            (by have := vpop_length h7; simp; omega)
  case int =>
    cases hc : input.get? itPos <;> simp only [hc] at hs
    · cases hs
    split at hs
    · split at hs
      · cases hs
      · cases hs; exact mu_lt_of_consume hp (by simp) (by simp)
    · split at hs
      · cases hs
      split at hs
      · cases hs
      cases h7 : vpop ns with
      | none => simp only [h7] at hs; cases hs
      | some p =>
        obtain ⟨ns', s⟩ := p
        simp only [h7] at hs
        cases hs
        have hlen : ¬ bint.length = 0 := by assumption
        have hbe : bint.isEmpty = false := by
          cases bint with
          | nil => simp at hlen
          | cons a t => rfl
        have hl := vpop_length h7
        have hr := State.rank_le s bint.isEmpty
        have h8 : State.rank State.int bint.isEmpty = 8 := by
          rw [hbe]; simp [State.rank]
        simp only [mu]
        omega
  case dict => cases hs
  case done => cases hs
  case rootValStr => cases hs
  case rootValDict => cases hs
  case rootValList => cases hs

/-- The main loop of `load` (`benc.rs` 119–544) plus finalisation:
iterate `step` while input remains, then finalise. -/
def run (input : List UInt8) (cfg : Cfg) : LoadResult :=
  if hp : cfg.pos < input.length then
    match hs : step input cfg with
    | .ok c => run input c
    | .error e => haltOut e
  else finalize input cfg
termination_by mu input cfg
decreasing_by exact step_mu_lt hp hs

/-- The initial configuration (`benc.rs` 101–116). -/
def initCfg : Cfg where
  pos := 0
  itPos := 0
  state := .root
  nextState := []
  bufStr := []
  bufStrRem := 0
  bufInt := []
  keyStack := []
  valStack := []
  itemStack := []
  dictStack := []
  listStack := []
  dictHeap := []
  listHeap := []
  dictI := -1
  listI := -1

/-- `load` (`benc.rs` 91–583) on an in-memory byte source. -/
def load (input : List UInt8) : LoadResult :=
  if input.length = 0 then .err .empty else run input initCfg

/-- `load_str` (`benc.rs` 585–588). -/
def load_str (s : String) : LoadResult := load (bytesOf s)

/-! ### A fuelled evaluator for concrete computation

`run` is defined by well-founded recursion and does not reduce inside
the kernel; `runF` is the same loop on explicit fuel and does. -/

/-- Fuelled form of `run`. -/
def runF (input : List UInt8) : Nat → Cfg → Option LoadResult
  | 0, _ => none
  | fuel + 1, cfg =>
    if cfg.pos < input.length then
      match step input cfg with
      | .ok c => runF input fuel c
      | .error e => some (haltOut e)
    else some (finalize input cfg)

theorem run_eq_step {input : List UInt8} {cfg c : Cfg}
    (hp : cfg.pos < input.length) (hs : step input cfg = .ok c) :
    run input cfg = run input c := by
  rw [run, dif_pos hp]
  split
  · next c2 heq => rw [hs] at heq; cases heq; rfl
  · next e heq => rw [hs] at heq; cases heq

theorem run_eq_halt {input : List UInt8} {cfg : Cfg} {e : Halt}
    (hp : cfg.pos < input.length) (hs : step input cfg = .error e) :
    run input cfg = haltOut e := by
  rw [run, dif_pos hp]
  split
  · next c2 heq => rw [hs] at heq; cases heq
  · next e2 heq => rw [hs] at heq; cases heq; rfl

theorem run_eq_finalize {input : List UInt8} {cfg : Cfg}
    (hp : ¬ cfg.pos < input.length) :
    run input cfg = finalize input cfg := by
  rw [run, dif_neg hp]

theorem runF_run {input : List UInt8} :
    ∀ {n : Nat} {cfg : Cfg} {r : LoadResult},
      runF input n cfg = some r → run input cfg = r := by
  intro n
  induction n with
  | zero => intro cfg r h; simp [runF] at h
  | succ n ih =>
    intro cfg r h
    unfold runF at h
    by_cases hp : cfg.pos < input.length
    · simp only [if_pos hp] at h
      cases hs : step input cfg with
      | ok c =>
        rw [hs] at h
        rw [run_eq_step hp hs]
        exact ih h
      | error e =>
        rw [hs] at h
        rw [run_eq_halt hp hs]
        exact Option.some_injective _ h
    · simp only [if_neg hp] at h
      rw [run_eq_finalize hp]
      exact Option.some_injective _ h

end Bencedit

namespace Bencedit

/-! ## Selectors (`Value::select`, `benc.rs` 711–950)

Selectors are `&str` values; we model them as `List Char` and byte
positions as character positions (the selectors of interest are ASCII,
where the two coincide; slicing a multi-byte character in half would
only add further panics).  Rust string slicing `&s[..i]` / `&s[i..]`
panics when `i` exceeds the length; `sliceTo`/`sliceFrom` return `none`
there. -/

/-- `&s[..i]`. -/
def sliceTo (s : List Char) (i : Nat) : Option (List Char) :=
  if i ≤ s.length then some (s.take i) else none

/-- `&s[i..]`. -/
def sliceFrom (s : List Char) (i : Nat) : Option (List Char) :=
  if i ≤ s.length then some (s.drop i) else none

/-- UTF-8 bytes of a character (for comparing selector keys against
`Value::Str` payloads). -/
def charUtf8 (c : Char) : List UInt8 :=
  let n := c.toNat
  if n < 128 then [UInt8.ofNat n]
  else if n < 2048 then
    [UInt8.ofNat (192 + n / 64), UInt8.ofNat (128 + n % 64)]
  else if n < 65536 then
    [UInt8.ofNat (224 + n / 4096), UInt8.ofNat (128 + (n / 64) % 64),
     UInt8.ofNat (128 + n % 64)]
  else
    [UInt8.ofNat (240 + n / 262144), UInt8.ofNat (128 + (n / 4096) % 64),
     UInt8.ofNat (128 + (n / 64) % 64), UInt8.ofNat (128 + n % 64)]

/-- UTF-8 bytes of a string. -/
def utf8 (l : List Char) : List UInt8 := (l.map charUtf8).join

/-- The `SelectError` enum (`benc.rs` 67–76).  `synErr` models
`SelectError::Syntax` and `atEnd` models `SelectError::End`. -/
inductive SelectError where
  | key (ctx : List Char) (k : List Char)
  | index (ctx : List Char) (i : Nat)
  | subscriptable (ctx : List Char)
  | indexable (ctx : List Char)
  | primitive (ctx : List Char)
  | synErr (ctx : List Char) (pos : Nat) (msg : String)
  | atEnd
  deriving DecidableEq

/-- Result of a selector-parsing helper: value, returned error, or
panic. -/
inductive PRes (α : Type) where
  | ok (a : α)
  | err (e : SelectError)
  | panicked
  deriving DecidableEq

/-- The `context` closures (`benc.rs` 753–767, 852–860, 912–920): slice
the full selector up to `p` (a panic if out of range) and substitute
`"<root>"` for an empty prefix. -/
def selCtx (full : List Char) (p : Nat) : Option (List Char) :=
  match sliceTo full p with
  | none => none
  | some c => some (if c.isEmpty then "<root>".toList else c)

/-- `usize::from_str` on selector characters (`input[..i].parse::<usize>()`):
an optional leading `'+'`, then one or more ASCII digits, the value
fitting in 64-bit `usize`. -/
def parseUsize (l : List Char) : Option Nat :=
  let ds := match l with
            | '+' :: t => t
            | _ => l
  if ds ≠ [] ∧ ds.all Char.isDigit ∧
      (ds.foldl (fun a c => a * 10 + (c.toNat - 48)) 0) < 2 ^ 64
  then some (ds.foldl (fun a c => a * 10 + (c.toNat - 48)) 0) else none

/-- The statements after `parse_key_selector`'s loop (`benc.rs`
898–907): `buf` and the re-sliced `input` become the key and the rest of
the selector. -/
def finishKey (cur buf : List Char) : List Char × List Char :=
  if buf.isEmpty ∧ ¬ cur.isEmpty then ([], cur) else (cur, buf)

/-- The `for (i, c) in chars.enumerate()` loop of `parse_key_selector`
(`benc.rs` 869–896).  `rem` is what is left to iterate, `i` the
enumeration index, `cur` the shadowed `input` slice (re-sliced by the
loop body with indices relative to the original string, exactly as the
source does), `buf` the key accumulator and `esc` the escape flag. -/
def pksLoop (full : List Char) (pos0 : Nat) :
    List Char → Nat → List Char → List Char → Bool → PRes (List Char × List Char)
  | [], _, cur, buf, esc =>
    if esc then
      match selCtx full pos0 with
      | none => .panicked
      | some ctx => .err (.synErr ctx pos0 "Trailing escape")
    else .ok (finishKey cur buf)
  | c :: rem, i, cur, buf, esc =>
    if c = '.' ∨ c = '[' then
      if esc then
        match sliceFrom cur (i + 1) with
        | none => .panicked
        | some cur' => pksLoop full pos0 rem (i + 1) cur' (buf ++ [c]) false
      else
        -- break: flush the run before the terminator and stop
        match sliceTo cur i, sliceFrom cur i with
        | some pre, some cur' => .ok (finishKey cur' (buf ++ pre))
        | _, _ => .panicked
    else if c = '\\' then
      if esc then
        match sliceFrom cur (i + 1) with
        | none => .panicked
        | some cur' => pksLoop full pos0 rem (i + 1) cur' (buf ++ [c]) false
      else
        match sliceTo cur i, sliceFrom cur (i + 1) with
        | some pre, some cur' => pksLoop full pos0 rem (i + 1) cur' (buf ++ pre) true
        | _, _ => .panicked
    else if esc then
      match selCtx full pos0 with
      | none => .panicked
      | some ctx => .err (.synErr ctx pos0 ("Cannot escape '" ++ c.toString ++ "'"))
    else pksLoop full pos0 rem (i + 1) cur buf esc

/-- `Value::parse_key_selector` (`benc.rs` 846–908).  Returns the
remaining selector and the parsed key.  The `pos`/`context` closures
capture the *original* `input` argument (the later `input` re-binding
shadows it), so they are the constants `pos0`/`selCtx full pos0`. -/
def parseKeySelector (input full : List Char) : PRes (List Char × List Char) :=
  let pos0 := full.length - input.length + 1
  match input with
  | [] => .panicked
  | c0 :: adl =>
    if c0 ≠ '.' then
      match selCtx full pos0 with
      | none => .panicked
      | some ctx => .err (.synErr ctx pos0 "Expected dot")
    else pksLoop full pos0 adl 0 adl [] false

/-- The `for (i, c) in chars.enumerate()` loop of `parse_index_selector`
(`benc.rs` 932–943); `cur` is the shadowed `input` (not re-sliced until
the break). -/
def pisLoop (full : List Char) (pos0 : Nat) :
    List Char → Nat → List Char → PRes (List Char × Nat)
  | [], _, _ => .err .atEnd
  | c :: rem, i, cur =>
    if c = ']' then
      match sliceTo cur i with
      | none => .panicked
      | some digits =>
        match parseUsize digits with
        | none =>
          match selCtx full pos0 with
          | none => .panicked
          | some ctx => .err (.synErr ctx pos0 "Not a number")
        | some idx =>
          match sliceFrom cur (i + 1) with
          | none => .panicked
          | some cur' => .ok (cur', idx)
    else if c = '-' then
      match selCtx full pos0 with
      | none => .panicked
      | some ctx => .err (.synErr ctx pos0 "Unexpected '-'")
    else pisLoop full pos0 rem (i + 1) cur

/-- `Value::parse_index_selector` (`benc.rs` 910–950). -/
def parseIndexSelector (input full : List Char) : PRes (List Char × Nat) :=
  let pos0 := full.length - input.length + 1
  match input with
  | [] => .panicked
  | c0 :: adl =>
    if c0 ≠ '[' then
      match selCtx full pos0 with
      | none => .panicked
      | some ctx => .err (.synErr ctx pos0 "Expected '['")
    else pisLoop full pos0 adl 0 adl

theorem sliceFrom_eq_some {s : List Char} {i : Nat} {r : List Char}
    (h : sliceFrom s i = some r) : r = s.drop i := by
  unfold sliceFrom at h
  split at h
  · exact (Option.some_injective _ h).symm
  · cases h

theorem finishKey_fst_length (cur buf : List Char) :
    (finishKey cur buf).1.length ≤ cur.length := by
  unfold finishKey
  split <;> simp

theorem pksLoop_length {full : List Char} {pos0 : Nat} :
    ∀ {rem : List Char} {i : Nat} {cur buf : List Char} {esc : Bool}
      {rest key : List Char},
      pksLoop full pos0 rem i cur buf esc = .ok (rest, key) → rest.length ≤ cur.length := by
  intro rem
  induction rem with
  | nil =>
    intro i cur buf esc rest key h
    unfold pksLoop at h
    split at h
    · cases hsc : selCtx full pos0 <;> simp only [hsc] at h <;> cases h
    · injection h with h2
      have hfk := finishKey_fst_length cur buf
      rw [h2] at hfk
      simpa using hfk
  | cons c rem ih =>
    intro i cur buf esc rest key h
    unfold pksLoop at h
    split at h
    · split at h
      · cases hsf : sliceFrom cur (i + 1) with
        | none => simp only [hsf] at h; cases h
        | some cur' =>
          simp only [hsf] at h
          have hih := ih h
          have he := sliceFrom_eq_some hsf
          subst he
          simp at hih
          omega
      · cases hst : sliceTo cur i with
        | none => simp only [hst] at h; cases h
        | some pre =>
          simp only [hst] at h
          cases hsf : sliceFrom cur i with
          | none => simp only [hsf] at h; cases h
          | some cur' =>
            simp only [hsf] at h
            injection h with h2
            have hfk := finishKey_fst_length cur' (buf ++ pre)
            rw [h2] at hfk
            have he := sliceFrom_eq_some hsf
            subst he
            simp at hfk ⊢
            omega
    split at h
    · split at h
      · cases hsf : sliceFrom cur (i + 1) with
        | none => simp only [hsf] at h; cases h
        | some cur' =>
          simp only [hsf] at h
          have hih := ih h
          have he := sliceFrom_eq_some hsf
          subst he
          simp at hih
          omega
      · cases hst : sliceTo cur i with
        | none => simp only [hst] at h; cases h
        | some pre =>
          simp only [hst] at h
          cases hsf : sliceFrom cur (i + 1) with
          | none => simp only [hsf] at h; cases h
          | some cur' =>
            simp only [hsf] at h
            have hih := ih h
            have he := sliceFrom_eq_some hsf
            subst he
            simp at hih
            omega
    split at h
    · cases hsc : selCtx full pos0 <;> simp only [hsc] at h <;> cases h
    · exact ih h

theorem parseKeySelector_length {input full rest key : List Char}
    (h : parseKeySelector input full = .ok (rest, key)) :
    rest.length < input.length := by
  unfold parseKeySelector at h
  cases input with
  | nil => cases h
  | cons c0 adl =>
    simp only at h
    split at h
    · split at h <;> cases h
    · have := pksLoop_length h
      simp
      omega

theorem pisLoop_length {full : List Char} {pos0 : Nat} :
    ∀ {rem : List Char} {i : Nat} {cur : List Char} {rest : List Char} {idx : Nat},
      pisLoop full pos0 rem i cur = .ok (rest, idx) → rest.length ≤ cur.length := by
  intro rem
  induction rem with
  | nil => intro i cur rest idx h; cases h
  | cons c rem ih =>
    intro i cur rest idx h
    unfold pisLoop at h
    split at h
    · cases hst : sliceTo cur i with
      | none => simp only [hst] at h; cases h
      | some digits =>
        simp only [hst] at h
        cases hpu : parseUsize digits with
        | none =>
          simp only [hpu] at h
          cases hsc : selCtx full pos0 <;> simp only [hsc] at h <;> cases h
        | some idx2 =>
          simp only [hpu] at h
          cases hsf : sliceFrom cur (i + 1) with
          | none => simp only [hsf] at h; cases h
          | some cur' =>
            simp only [hsf] at h
            cases h
            have he := sliceFrom_eq_some hsf
            subst he
            simp
    split at h
    · cases hsc : selCtx full pos0 <;> simp only [hsc] at h <;> cases h
    · exact ih h

theorem parseIndexSelector_length {input full rest : List Char} {idx : Nat}
    (h : parseIndexSelector input full = .ok (rest, idx)) :
    rest.length < input.length := by
  unfold parseIndexSelector at h
  cases input with
  | nil => cases h
  | cons c0 adl =>
    simp only at h
    split at h
    · split at h <;> cases h
    · have := pisLoop_length h
      simp
      omega

/-- Result of `Value::select`: the addressed node, a `SelectError`, a
panic, or divergence (`hangs`: the `TraverseState::Root` iteration makes
no progress when the root is a `DictRef`/`ListRef` and the selector is
nonempty, looping forever). -/
inductive SelectResult where
  | ok (v : Value)
  | err (e : SelectError)
  | panicked
  | hangs
  deriving DecidableEq

mutual

/-- The `TraverseState::Dict` arm of `select`'s loop (`benc.rs`
781–811): `m` is the current dict's entry sequence, `sel` the remaining
selector (nonempty at every entry to the arm). -/
def selLoopDict (full : List Char) (m : List (Value × Value)) (sel : List Char) :
    SelectResult :=
  match sel with
  | [] => .panicked
  | c :: crest =>
    if c = '[' then
      match selCtx full (full.length - (c :: crest).length + 1) with
      | none => .panicked
      | some ctx => .err (.indexable ctx)
    else
      match hk : parseKeySelector (c :: crest) full with
      | .panicked => .panicked
      | .err e => .err e
      | .ok (rest, key) =>
        -- find_map over the map iterator: the first entry whose key is a
        -- Str equal to `key` (Bytes keys never compare equal)
        match m.findSome? (fun kv =>
          match kv.1.to_str with
          | some s => if s = utf8 key then some kv.2 else none
          | none => none) with
        | some v =>
          if rest.isEmpty then .ok v
          else
            match v with
            | .dict m' => selLoopDict full m' rest
            | .list l' => selLoopList full l' rest
            | _ =>
              match selCtx full (full.length - rest.length + 1) with
              | none => .panicked
              | some ctx => .err (.primitive ctx)
        | none =>
          match selCtx full (full.length - rest.length + 1) with
          | none => .panicked
          | some ctx => .err (.key ctx key)
termination_by sel.length
decreasing_by
  · exact parseKeySelector_length hk
  · exact parseKeySelector_length hk

/-- The `TraverseState::List` arm of `select`'s loop (`benc.rs`
813–836). -/
def selLoopList (full : List Char) (l : List Value) (sel : List Char) :
    SelectResult :=
  match sel with
  | [] => .panicked
  | c :: crest =>
    if c = '.' then
      match selCtx full (full.length - (c :: crest).length + 1) with
      | none => .panicked
      | some ctx => .err (.subscriptable ctx)
    else
      match hk : parseIndexSelector (c :: crest) full with
      | .panicked => .panicked
      | .err e => .err e
      | .ok (rest, index) =>
        match l.get? index with
        | some v =>
          if rest.isEmpty then .ok v
          else
            match v with
            | .dict m' => selLoopDict full m' rest
            | .list l' => selLoopList full l' rest
            | _ =>
              match selCtx full (full.length - rest.length + 1) with
              | none => .panicked
              | some ctx => .err (.primitive ctx)
        | none =>
          match selCtx full (full.length - rest.length + 1) with
          | none => .panicked
          | some ctx => .err (.index ctx index)
termination_by sel.length
decreasing_by
  · exact parseIndexSelector_length hk
  · exact parseIndexSelector_length hk

end

/-- `Value::select` (`benc.rs` 738–844). -/
def Value.select (root : Value) (selector : List Char) : SelectResult :=
  if ¬ root.is_dict ∧ ¬ root.is_list ∧ ¬ root.is_ref then
    .err (.primitive ("<root>".toList))
  else if selector.isEmpty then .ok root
  else
    match root with
    | .dict m => selLoopDict selector m selector
    | .list l => selLoopList selector l selector
    | _ => .hangs

end Bencedit

namespace Bencedit

/-! ## Shape of successful `load` results -/

/-- A `run` that returns a value obtained it from `finalize`. -/
theorem run_ok_finalize {input : List UInt8} {cfg : Cfg} {v : Value}
    (h : run input cfg = .ok v) : ∃ c2, finalize input c2 = .ok v := by
  by_cases hp : cfg.pos < input.length
  · cases hs : step input cfg with
    | ok c =>
      rw [run_eq_step hp hs] at h
      exact run_ok_finalize h
    | error e =>
      rw [run_eq_halt hp hs] at h
      cases e <;> simp [haltOut] at h
  · rw [run_eq_finalize hp] at h
    exact ⟨cfg, h⟩
termination_by mu input cfg
decreasing_by exact step_mu_lt hp hs

/-- `finalize` only builds `Int`, `Str`/`Bytes`, `Dict` or `List` roots. -/
theorem finalize_ok_not_ref {input : List UInt8} {cfg : Cfg} {v : Value}
    (h : finalize input cfg = .ok v) : v.is_ref = false := by
  unfold finalize at h
  split at h
  · cases h
  split at h
  · -- rootValInt
    split at h
    · cases h
    split at h
    · cases h
    split at h
    · cases h
    cases h; rfl
  · -- rootValStr
    cases h
    unfold str_or_bytes
    split <;> rfl
  · -- rootValDict
    split at h
    · cases h
    split at h
    · cases h
    cases h; rfl
  · -- rootValList
    split at h
    · cases h
    split at h
    · cases h
    cases h; rfl
  · cases h

/-! ## Claim theorems: the `Value` model and `select` -/

/-- **C2** (code_bug evidence).  `select(V, "")` does *not* yield every
valid `V` unchanged: the primitive-root check (`benc.rs` 739–741) runs
before the empty-selector check (`benc.rs` 743–745), so an `Int` or
`Str`/`Bytes` root with the empty selector yields
`SelectError::Primitive("<root>")` — contradicting the claim, the spec,
and the function's own doc comment ("An empty selector will return this
Value.").  Container roots do return themselves. -/
theorem C2_select_empty_selector :
    (Value.int 0).select "".toList = .err (.primitive "<root>".toList) ∧
    (Value.str (bytesOf "ab")).select "".toList = .err (.primitive "<root>".toList) ∧
    (Value.bytes [255]).select "".toList = .err (.primitive "<root>".toList) ∧
    (Value.dict []).select "".toList = .ok (.dict []) ∧
    (Value.list []).select "".toList = .ok (.list []) := by
  refine ⟨?_, ?_, ?_, ?_, ?_⟩ <;> rfl

/-- **C3** (counterexample).  Ordering of byte-string values is *not*
byte-wise across the text/bytes boundary: `Str "z"` (valid UTF-8,
rendered as text) compares `lt` against `Bytes [1, 255]` (invalid UTF-8,
rendered as an escaped byte literal) although byte-wise `[122] > [1,
255]`; and a `Str` never equals a `Bytes` with identical bytes. -/
theorem C3_counterexample :
    validUtf8 (bytesOf "z") = true ∧
    validUtf8 [1, 255] = false ∧
    Value.cmp (.str (bytesOf "z")) (.bytes [1, 255]) = .lt ∧
    Value.cmpBytes (bytesOf "z") [1, 255] = .gt ∧
    Value.str (bytesOf "foo") ≠ Value.bytes (bytesOf "foo") := by
  refine ⟨rfl, rfl, rfl, rfl, ?_⟩
  decide

/-- **C3** (amended).  Equality and ordering are byte-wise only within a
rendering kind: two `Str` values (and two `Bytes` values) compare
lexicographically by bytes and are equal iff their bytes are equal;
across the kinds the derived variant order puts every `Str` before every
`Bytes` regardless of content, and equality across kinds never holds. -/
theorem C3_bytewise_within_variant :
    (∀ s t, Value.cmp (.str s) (.str t) = Value.cmpBytes s t) ∧
    (∀ s t, Value.cmp (.bytes s) (.bytes t) = Value.cmpBytes s t) ∧
    (∀ s t, Value.cmp (.str s) (.bytes t) = .lt) ∧
    (∀ s t, Value.cmp (.bytes s) (.str t) = .gt) ∧
    (∀ s t, Value.str s = Value.str t ↔ s = t) ∧
    (∀ s t, Value.bytes s = Value.bytes t ↔ s = t) ∧
    (∀ s t, Value.str s ≠ Value.bytes t) := by
  refine ⟨fun s t => rfl, fun s t => rfl, fun s t => rfl, fun s t => rfl,
    fun s t => by simp, fun s t => by simp, fun s t => by simp⟩

/-- **C4** (counterexample).  The public `Value` enum does expose
"reference-to-still-building" variants: `Value::DictRef` is a `Value`
that is none of the four data-model kinds (nor a `Str`/`Bytes`). -/
theorem C4_counterexample :
    Value.is_ref (.dictRef 0) = true ∧
    Value.is_int (.dictRef 0) = false ∧
    Value.is_str (.dictRef 0) = false ∧
    Value.is_bytes (.dictRef 0) = false ∧
    Value.is_dict (.dictRef 0) = false ∧
    Value.is_list (.dictRef 0) = false ∧
    Value.is_ref (.listRef 0) = true := by
  refine ⟨rfl, rfl, rfl, rfl, rfl, rfl, rfl⟩

/-- **C4** (amended).  The `Value` type does expose `DictRef`/`ListRef`
variants (see the counterexample), but every root returned by a
successful `load` is one of the owned kinds: it is never a reference. -/
theorem C4_load_root_not_ref (input : List UInt8) (v : Value)
    (h : load input = .ok v) : v.is_ref = false := by
  unfold load at h
  split at h
  · cases h
  · obtain ⟨c2, hc2⟩ := run_ok_finalize h
    exact finalize_ok_not_ref hc2

end Bencedit

namespace Bencedit

/-- Evaluate `load` through the fuelled loop. -/
theorem load_eval {input : List UInt8} {n : Nat} {r : LoadResult}
    (h0 : input.length ≠ 0) (h : runF input n initCfg = some r) : load input = r := by
  rw [load, if_neg h0]
  exact runF_run h

/-- **C4** (witness): the root decoded from `"de"` is not a reference. -/
theorem C4_witness : Value.is_ref (.dict []) = false :=
  C4_load_root_not_ref (bytesOf "de") (.dict [])
    (load_eval (by decide) (Eq.refl (runF (bytesOf "de") 10 initCfg)))

/-- **C8** (counterexample).  A failing selector's context is *not* "the
prefix up to and including the failing accessor": looking up the missing
key `bar` in `{"foo": 0}` via `".bar.x"` reports context `".bar."` — the
accessor plus the following character (`pos` is computed as one past the
consumed prefix, `benc.rs` 764–766). -/
theorem C8_counterexample :
    (Value.dict [(.str (bytesOf "foo"), .int 0)]).select ".bar.x".toList =
      .err (.key ".bar.".toList "bar".toList) ∧
    ".bar.".toList ≠ ".bar".toList := by
  constructor
  · simp [Value.select, selLoopDict, selLoopList, parseKeySelector, parseIndexSelector,
      pksLoop, pisLoop, finishKey, selCtx, sliceTo, sliceFrom, parseUsize, utf8, charUtf8,
      Value.to_str, Value.is_dict, Value.is_list, Value.is_ref, List.findSome?, bytesOf]
  · decide

end Bencedit

namespace Bencedit

/-! ## Runs of the machine over digit sequences -/

theorem get?_of_drop_cons {α : Type} {l : List α} {n : Nat} {x : α} {r : List α}
    (h : l.drop n = x :: r) : l[n]? = some x := by
  induction n generalizing l with
  | zero => rw [List.drop_zero] at h; rw [h]; simp
  | succ n ih =>
    cases l with
    | nil => simp at h
    | cons a t => simpa using ih (by simpa using h)

theorem lt_length_of_drop_cons {α : Type} {l : List α} {n : Nat} {x : α} {r : List α}
    (h : l.drop n = x :: r) : n < l.length := by
  have h2 := congrArg List.length h
  simp at h2
  omega

theorem isDigit_toNat {c : UInt8} (h : isDigit c = true) :
    48 ≤ c.toNat ∧ c.toNat ≤ 57 := by
  simpa [isDigit] using h

theorem isDigit_ne_tok {c : UInt8} (h : isDigit c = true) :
    c ≠ dTok ∧ c ≠ iTok ∧ c ≠ lTok ∧ c ≠ eTok ∧ c ≠ colonTok ∧ c ≠ minusTok := by
  have h2 := isDigit_toNat h
  refine ⟨?_, ?_, ?_, ?_, ?_, ?_⟩ <;> intro he <;> subst he <;>
    exact absurd h2 (by decide)

/-- `State::Int` consumes a run of digits, appending them to `buf_int`. -/
theorem run_int_digits {input : List UInt8} :
    ∀ (ds : List UInt8) (pos : Nat) (ns : List State) (bstr : List UInt8) (brem : Nat)
      (bint : List UInt8) (ks vs its : List (Option Value)) (dst lst : List Nat)
      (dh : List (List (Value × Value))) (lh : List (List Value)) (di li : Int),
      (∀ c ∈ ds, isDigit c = true) →
      input.drop pos = ds ++ input.drop (pos + ds.length) →
      run input (Cfg.mk pos pos .int ns bstr brem bint ks vs its dst lst dh lh di li) =
        run input (Cfg.mk (pos + ds.length) (pos + ds.length) .int ns bstr brem
          (bint ++ ds) ks vs its dst lst dh lh di li) := by
  intro ds
  induction ds with
  | nil => intro pos ns bstr brem bint ks vs its dst lst dh lh di li _ _; simp
  | cons d ds ih =>
    intro pos ns bstr brem bint ks vs its dst lst dh lh di li hdig hdrop
    have hd : isDigit d = true := hdig d (by simp)
    have hdrop1 : input.drop (pos + 1) = ds ++ input.drop ((pos + 1) + ds.length) := by
      have h1 : input.drop (pos + 1) = (input.drop pos).drop 1 := by
        rw [List.drop_drop]
      have h2 : pos + (d :: ds).length = pos + 1 + ds.length := by
        simp
        omega
      rw [h1, hdrop, h2]
      rfl
    have hget : input[pos]? = some d := by
      exact get?_of_drop_cons (by simpa using hdrop)
    have hlt : pos < input.length := by
      exact lt_length_of_drop_cons (by simpa using hdrop)
    have hne := isDigit_ne_tok hd
    have hstep : step input
        (Cfg.mk pos pos .int ns bstr brem bint ks vs its dst lst dh lh di li) =
        .ok (Cfg.mk (pos + 1) (pos + 1) .int ns bstr brem (bint ++ [d])
          ks vs its dst lst dh lh di li) := by
      simp [step, hget, hd, hne.2.2.2.2.2]
    rw [run_eq_step hlt hstep, ih (pos + 1) ns bstr brem (bint ++ [d])
      ks vs its dst lst dh lh di li (fun c hc => hdig c (by simp [hc])) hdrop1]
    congr 1 <;> simp <;> omega

end Bencedit

namespace Bencedit

/-! ## Claim theorems: decoder error behaviour -/

/-- **C5**.  A non-string value in dict key position is rejected with a
`Syntax` error: whenever the machine reads a dict key and the next byte
is `i`, `l`, `d` or `:` (the start of anything but a string), the run
fails with `Syntax("Empty integer")` at that position — the `DictKey`
arm routes through `Str` into `Int`, whose accumulator stays empty.  In
particular `di0ei0ee` is rejected this way at offset 1. -/
theorem C5_nonstring_dict_key :
    (∀ (input : List UInt8) (cfg : Cfg) (c : UInt8),
      cfg.state = .dictKey → cfg.bufStr = [] → cfg.bufInt = [] →
      cfg.itPos = cfg.pos → input[cfg.pos]? = some c →
      (c = iTok ∨ c = lTok ∨ c = dTok ∨ c = colonTok) →
      run input cfg = .err (.synErr cfg.pos "Empty integer")) ∧
    load_str "di0ei0ee" = .err (.synErr 1 "Empty integer") := by
  constructor
  · intro input cfg c hst hbs hbi hit hget hc
    obtain ⟨pos, itPos, st, ns, bstr, brem, bint, ks, vs, its, dst, lst, dh, lh, di, li⟩ := cfg
    simp only at hst hbs hbi hit hget ⊢
    subst hst hbs hbi hit
    have hlt : itPos < input.length := by
      rcases Nat.lt_or_ge itPos input.length with h | h
      · exact h
      · rw [List.getElem?_eq_none h] at hget; cases hget
    rcases hc with rfl | rfl | rfl | rfl <;>
    · have hs1 : step input
          (Cfg.mk itPos itPos .dictKey ns [] brem [] ks vs its dst lst dh lh di li) =
          .ok (Cfg.mk itPos itPos .str (vpush ns .dictKey) [] brem [] ks vs its dst lst dh lh di li) := by
        simp [step, hget, iTok, lTok, dTok, colonTok, eTok]
      have hs2 : step input
          (Cfg.mk itPos itPos .str (vpush ns .dictKey) [] brem [] ks vs its dst lst dh lh di li) =
          .ok (Cfg.mk itPos itPos .int (vpush (vpush ns .dictKey) .str) [] 0 [] ks vs its dst lst dh lh di li) := by
        simp [step]
      have hs3 : step input
          (Cfg.mk itPos itPos .int (vpush (vpush ns .dictKey) .str) [] 0 [] ks vs its dst lst dh lh di li) =
          .error (.fail (.synErr itPos "Empty integer")) := by
        simp [step, hget, iTok, lTok, dTok, colonTok, minusTok]
        decide
      rw [run_eq_step hlt hs1, run_eq_step hlt hs2, run_eq_halt hlt hs3]
      rfl
  · exact load_eval (by decide) (Eq.refl (runF (bytesOf "di0ei0ee") 100 initCfg))

/-- **C5** (witness): the general statement at the configuration reached
after reading the `d` of `di0ei0ee`. -/
theorem C5_witness :
    run (bytesOf "di0ei0ee")
      (Cfg.mk 1 1 .dictKey [.rootValDict] [] 0 [] [none] [none] [] [0] [] [[]] [] 0 (-1)) =
      .err (.synErr 1 "Empty integer") :=
  C5_nonstring_dict_key.1 (bytesOf "di0ei0ee") _ iTok rfl rfl rfl rfl (by decide)
    (Or.inl rfl)

/-- **C6**.  When the input is exhausted while the return-state stack is
still non-empty (an open container), `load`'s loop ends and finalisation
returns `Error::Eof` — no partial value.  In particular `d3:fooi0e`
(missing its closing `e`) fails with input exhaustion. -/
theorem C6_eof_open_container :
    (∀ (input : List UInt8) (cfg : Cfg), ¬ cfg.pos < input.length →
      cfg.nextState ≠ [] → run input cfg = .err .eof) ∧
    load_str "d3:fooi0e" = .err .eof := by
  constructor
  · intro input cfg hp hns
    rw [run_eq_finalize hp]
    unfold finalize
    rw [if_pos (List.length_pos.mpr hns)]
  · exact load_eval (by decide) (Eq.refl (runF (bytesOf "d3:fooi0e") 100 initCfg))

/-- **C6** (witness): at end of input with `RootValDict` still pending,
the run yields `Eof`. -/
theorem C6_witness :
    run [100] (Cfg.mk 1 1 .dictKey [.rootValDict] [] 0 [] [none] [none] [] [0] [] [[]] [] 0 (-1)) =
      .err .eof :=
  C6_eof_open_container.1 [100] _ (by decide) (by decide)

end Bencedit

namespace Bencedit

/-- **C7**.  A digit run longer than `MAX_INT_BUF = 32` is rejected with
`Error::BigInt` when its terminator is reached, both as an integer
literal body (`i<digits>e`) and as a string length prefix
(`<digits>:…`). -/
theorem C7_oversize_digits :
    (∀ (ds rest : List UInt8), (∀ c ∈ ds, isDigit c = true) → 32 < ds.length →
      load (iTok :: (ds ++ (eTok :: rest))) = .err .bigInt) ∧
    (∀ (ds rest : List UInt8), (∀ c ∈ ds, isDigit c = true) → 32 < ds.length →
      load (ds ++ (colonTok :: rest)) = .err .bigInt) := by
  constructor
  · intro ds rest hdig hlen
    have hlen0 : (iTok :: (ds ++ (eTok :: rest))).length = ds.length + rest.length + 2 := by
      simp
      omega
    rw [load, if_neg (by omega)]
    have h0lt : 0 < (iTok :: (ds ++ (eTok :: rest))).length := by omega
    have hs1 : step (iTok :: (ds ++ (eTok :: rest))) initCfg =
        .ok (Cfg.mk 1 1 .int [.rootValInt] [] 0 [] [] [] [] [] [] [] [] (-1) (-1)) := by
      simp [step, initCfg, vpush, iTok, dTok, lTok, eTok, colonTok]
    rw [run_eq_step h0lt hs1]
    have hdrop2 : (iTok :: (ds ++ (eTok :: rest))).drop (1 + ds.length) = eTok :: rest := by
      have h1 : (iTok :: (ds ++ (eTok :: rest))).drop (1 + ds.length) =
          (ds ++ (eTok :: rest)).drop ds.length := by
        rw [Nat.add_comm]
        rfl
      rw [h1, List.drop_left]
    have hdrop : (iTok :: (ds ++ (eTok :: rest))).drop 1 =
        ds ++ (iTok :: (ds ++ (eTok :: rest))).drop (1 + ds.length) := by
      rw [hdrop2]
      rfl
    rw [run_int_digits ds 1 [.rootValInt] [] 0 [] [] [] [] [] [] [] [] (-1) (-1) hdig hdrop]
    have hget2 : (iTok :: (ds ++ (eTok :: rest)))[1 + ds.length]? = some eTok :=
      get?_of_drop_cons hdrop2
    have hlt2 : 1 + ds.length < (iTok :: (ds ++ (eTok :: rest))).length := by omega
    have hne : ds ≠ [] := by
      intro h
      rw [h] at hlen
      simp at hlen
    have hdig_e : ¬ (isDigit eTok = true ∨ eTok = minusTok) := by decide
    have hne2 : ¬ (([] ++ ds).length = 0) := by simpa using hne
    have hbig : ([] ++ ds).length > maxIntBuf := by simpa [maxIntBuf] using hlen
    have hs3 : step (iTok :: (ds ++ (eTok :: rest)))
        (Cfg.mk (1 + ds.length) (1 + ds.length) .int [.rootValInt] [] 0 ([] ++ ds)
          [] [] [] [] [] [] [] (-1) (-1)) = .error (.fail .bigInt) := by
      simp only [step, List.get?_eq_getElem?, hget2, if_neg hdig_e, if_neg hne2,
        if_pos hbig]
    rw [run_eq_halt hlt2 hs3]
    rfl
  · intro ds rest hdig hlen
    cases ds with
    | nil => simp at hlen
    | cons d0 ds' =>
      have hd0 : isDigit d0 = true := hdig d0 (by simp)
      have hne0 := isDigit_ne_tok hd0
      have hlen0 : ((d0 :: ds') ++ (colonTok :: rest)).length =
          ds'.length + rest.length + 2 := by
        simp
        omega
      rw [load, if_neg (by omega)]
      have h0lt : 0 < ((d0 :: ds') ++ (colonTok :: rest)).length := by omega
      have hs1 : step ((d0 :: ds') ++ (colonTok :: rest)) initCfg =
          .ok (Cfg.mk 0 0 .str [.rootValStr] [] 0 [] [] [] [] [] [] [] [] (-1) (-1)) := by
        simp [step, initCfg, vpush, hne0.1, hne0.2.1, hne0.2.2.1, hne0.2.2.2.1,
          hne0.2.2.2.2.1]
      rw [run_eq_step h0lt hs1]
      have hs2 : step ((d0 :: ds') ++ (colonTok :: rest))
          (Cfg.mk 0 0 .str [.rootValStr] [] 0 [] [] [] [] [] [] [] [] (-1) (-1)) =
          .ok (Cfg.mk 0 0 .int [.rootValStr, .str] [] 0 [] [] [] [] [] [] [] [] (-1) (-1)) := by
        simp [step, vpush]
      rw [run_eq_step h0lt hs2]
      have hdrop2 : ((d0 :: ds') ++ (colonTok :: rest)).drop (0 + (d0 :: ds').length) =
          colonTok :: rest := by
        rw [Nat.zero_add, List.drop_left]
      have hdrop : ((d0 :: ds') ++ (colonTok :: rest)).drop 0 =
          (d0 :: ds') ++ ((d0 :: ds') ++ (colonTok :: rest)).drop (0 + (d0 :: ds').length) := by
        rw [hdrop2]
        rfl
      rw [run_int_digits (d0 :: ds') 0 [.rootValStr, .str] [] 0 [] [] [] [] [] [] [] []
        (-1) (-1) hdig hdrop]
      have hget2 : ((d0 :: ds') ++ (colonTok :: rest))[0 + (d0 :: ds').length]? =
          some colonTok := get?_of_drop_cons hdrop2
      have hlt2 : 0 + (d0 :: ds').length < ((d0 :: ds') ++ (colonTok :: rest)).length := by
        simp only [List.length_append, List.length_cons]
        omega
      have hdig_c : ¬ (isDigit colonTok = true ∨ colonTok = minusTok) := by decide
      have hne2 : ¬ (([] ++ (d0 :: ds')).length = 0) := by simp
      have hbig : ([] ++ (d0 :: ds')).length > maxIntBuf := by
        simpa [maxIntBuf] using hlen
      have hs3 : step ((d0 :: ds') ++ (colonTok :: rest))
          (Cfg.mk (0 + (d0 :: ds').length) (0 + (d0 :: ds').length) .int [.rootValStr, .str]
            [] 0 ([] ++ (d0 :: ds')) [] [] [] [] [] [] [] (-1) (-1)) =
          .error (.fail .bigInt) := by
        simp only [step, List.get?_eq_getElem?, hget2, if_neg hdig_c, if_neg hne2,
          if_pos hbig]
      rw [run_eq_halt hlt2 hs3]
      rfl

/-- **C7** (witness): a 33-digit integer literal yields `BigInt`. -/
theorem C7_witness :
    load (iTok :: (List.replicate 33 48 ++ (eTok :: []))) = .err .bigInt :=
  C7_oversize_digits.1 (List.replicate 33 48) [] (by decide) (by decide)

end Bencedit

namespace Bencedit

/-- **C10**.  An integer literal whose body has at most 32 digits but
whose value does not fit a signed 64-bit integer passes the `BigInt`
check and fails only at `buf_int.parse::<i64>()`: `load` returns
`Syntax("Invalid integer")` (at the position just past the terminator),
not `Oversize`. -/
theorem C10_nonfitting_i64 (ds : List UInt8)
    (hdig : ∀ c ∈ ds, isDigit c = true) (hpos : 0 < ds.length)
    (hle : ds.length ≤ 32) (hbig : 2 ^ 63 ≤ digitsVal ds) :
    load (iTok :: (ds ++ [eTok])) = .err (.synErr (ds.length + 2) "Invalid integer") := by
  have hlen0 : (iTok :: (ds ++ [eTok])).length = ds.length + 2 := by
    simp
  rw [load, if_neg (by omega)]
  have h0lt : 0 < (iTok :: (ds ++ [eTok])).length := by omega
  have hs1 : step (iTok :: (ds ++ [eTok])) initCfg =
      .ok (Cfg.mk 1 1 .int [.rootValInt] [] 0 [] [] [] [] [] [] [] [] (-1) (-1)) := by
    simp [step, initCfg, vpush, iTok, dTok, lTok, eTok, colonTok]
  rw [run_eq_step h0lt hs1]
  have hdrop2 : (iTok :: (ds ++ [eTok])).drop (1 + ds.length) = [eTok] := by
    have h1 : (iTok :: (ds ++ [eTok])).drop (1 + ds.length) =
        (ds ++ [eTok]).drop ds.length := by
      rw [Nat.add_comm]
      rfl
    rw [h1, List.drop_left]
  have hdrop : (iTok :: (ds ++ [eTok])).drop 1 =
      ds ++ (iTok :: (ds ++ [eTok])).drop (1 + ds.length) := by
    rw [hdrop2]
    rfl
  rw [run_int_digits ds 1 [.rootValInt] [] 0 [] [] [] [] [] [] [] [] (-1) (-1) hdig hdrop]
  have hget2 : (iTok :: (ds ++ [eTok]))[1 + ds.length]? = some eTok :=
    get?_of_drop_cons hdrop2
  have hlt2 : 1 + ds.length < (iTok :: (ds ++ [eTok])).length := by omega
  have hdig_e : ¬ (isDigit eTok = true ∨ eTok = minusTok) := by decide
  have hne2 : ¬ (([] ++ ds).length = 0) := by
    simp only [List.nil_append]
    omega
  have hsmall : ¬ (([] ++ ds).length > maxIntBuf) := by
    simp only [List.nil_append, maxIntBuf]
    omega
  have hs3 : step (iTok :: (ds ++ [eTok]))
      (Cfg.mk (1 + ds.length) (1 + ds.length) .int [.rootValInt] [] 0 ([] ++ ds)
        [] [] [] [] [] [] [] (-1) (-1)) =
      .ok (Cfg.mk (1 + ds.length) (1 + ds.length) .rootValInt [] [] 0 ([] ++ ds)
        [] [] [] [] [] [] [] (-1) (-1)) := by
    simp only [step, List.get?_eq_getElem?, hget2, if_neg hdig_e, if_neg hne2,
      if_neg hsmall, vpop]
  rw [run_eq_step hlt2 hs3]
  have hs4 : step (iTok :: (ds ++ [eTok]))
      (Cfg.mk (1 + ds.length) (1 + ds.length) .rootValInt [] [] 0 ([] ++ ds)
        [] [] [] [] [] [] [] (-1) (-1)) =
      .ok (Cfg.mk (1 + ds.length + 1) (1 + ds.length) .rootValInt [] [] 0 ([] ++ ds)
        [] [] [] [] [] [] [] (-1) (-1)) := by
    simp only [step]
  rw [run_eq_step hlt2 hs4]
  rw [run_eq_finalize (by simp only [hlen0]; omega)]
  have hp64 : parseI64 ds = none := by
    cases ds with
    | nil => simp at hpos
    | cons c0 r =>
      have h0 : isDigit c0 = true := hdig c0 (by simp)
      have hnm := (isDigit_ne_tok h0).2.2.2.2.2
      simp only [parseI64]
      rw [if_neg hnm, if_neg]
      rintro ⟨-, h2⟩
      omega
  have h12 : 1 + ds.length + 1 = ds.length + 2 := by omega
  simp [finalize, hget2, hp64, h12]

/-- **C10** (witness): the 19-digit literal `9999999999999999999`
(beyond `i64::MAX`) yields `Syntax("Invalid integer")`. -/
theorem C10_witness :
    load (iTok :: (List.replicate 19 57 ++ [eTok])) =
      .err (.synErr ((List.replicate 19 57 : List UInt8).length + 2) "Invalid integer") :=
  C10_nonfitting_i64 (List.replicate 19 57) (by decide) (by decide) (by decide) (by decide)

end Bencedit

namespace Bencedit

/-! ## Multi-step reachability of the main loop -/

/-- Reflexive-transitive closure of successful loop iterations. -/
inductive Steps (input : List UInt8) : Cfg → Cfg → Prop where
  | refl (c : Cfg) : Steps input c c
  | head {a b c : Cfg} (hp : a.pos < input.length) (hs : step input a = .ok b)
      (ht : Steps input b c) : Steps input a c

theorem Steps.single {input : List UInt8} {a b : Cfg}
    (hp : a.pos < input.length) (hs : step input a = .ok b) : Steps input a b :=
  .head hp hs (.refl b)

theorem Steps.trans {input : List UInt8} {a b c : Cfg}
    (h1 : Steps input a b) (h2 : Steps input b c) : Steps input a c := by
  induction h1 with
  | refl => exact h2
  | head hp hs _ ih => exact .head hp hs (ih h2)

/-- Reachable configurations share the loop's result. -/
theorem run_eq_of_steps {input : List UInt8} {a b : Cfg}
    (h : Steps input a b) : run input a = run input b := by
  induction h with
  | refl => rfl
  | head hp hs _ ih => rw [run_eq_step hp hs]; exact ih

/-! ## Small facts about the `Vec` operations -/

theorem vpop_eq {α : Type} : ∀ {l r : List α} {x : α},
    vpop l = some (r, x) → l = r ++ [x] := by
  intro l
  induction l with
  | nil => intro r x h; simp [vpop] at h
  | cons a t ih =>
    intro r x h
    cases t with
    | nil => simp [vpop] at h; simp [← h.1, ← h.2]
    | cons b u =>
      simp only [vpop, Option.map_eq_some'] at h
      obtain ⟨p, hp, he⟩ := h
      cases he
      have := ih (by simpa [vpop] using hp)
      simp [this]

theorem vpop_append_singleton {α : Type} : ∀ (l : List α) (x : α),
    vpop (l ++ [x]) = some (l, x) := by
  intro l
  induction l with
  | nil => intro x; rfl
  | cons a t ih =>
    intro x
    cases t with
    | nil => rfl
    | cons b u =>
      show (vpop ((b :: u) ++ [x])).map _ = _
      rw [ih x]
      rfl

theorem vget_last {α : Type} (l : List α) (x : α) :
    vget (l ++ [x]) (l.length : Int) = some x := by
  rw [vget, if_pos (by omega)]
  simp

theorem vget_last_of_eq {α : Type} (l : List α) (x : α) (i : Int)
    (h : i = (l.length : Int)) : vget (l ++ [x]) i = some x := by
  rw [h]; exact vget_last l x

theorem set_length_append {α : Type} : ∀ (l : List α) (x : α) (t : List α) (y : α),
    (l ++ x :: t).set l.length y = l ++ y :: t := by
  intro l
  induction l with
  | nil => intro x t y; rfl
  | cons a u ih => intro x t y; simp [ih]

theorem vset_last {α : Type} (l : List α) (x y : α) (i : Int)
    (h : i = (l.length : Int)) : vset (l ++ [x]) i y = some (l ++ [y]) := by
  subst h
  rw [vset, if_pos (by constructor <;> simp <;> omega)]
  have h2 : ((l.length : Int)).toNat = l.length := by omega
  rw [h2, set_length_append]

theorem set_eq_self_of_get? {α : Type} : ∀ (l : List α) (n : Nat) (a : α),
    l[n]? = some a → l.set n a = l := by
  intro l
  induction l with
  | nil => intro n a h; simp at h
  | cons x t ih =>
    intro n a h
    cases n with
    | zero => simp at h; simp [h]
    | succ n => simp at h ⊢; exact ih n a h

theorem set_append_left_of_lt {α : Type} (l t : List α) (i : Nat) (x : α)
    (h : i < l.length) : (l ++ t).set i x = l.set i x ++ t := by
  rw [List.set_append]
  simp [h]

theorem getElem?_append_left_of_lt {α : Type} (l t : List α) (i : Nat)
    (h : i < l.length) : (l ++ t)[i]? = l[i]? := by
  rw [List.getElem?_append, if_pos h]

theorem getElem?_append_length {α : Type} (l : List α) (x : α) (t : List α) :
    (l ++ x :: t)[l.length]? = some x := by
  rw [List.getElem?_append_right (by omega)]
  simp

/-- Shifting a `drop` fact over a known prefix. -/
theorem drop_shift {α : Type} {input : List α} {p : Nat} {A B : List α}
    (h : input.drop p = A ++ B) : input.drop (p + A.length) = B := by
  have h1 : input.drop (p + A.length) = (input.drop p).drop A.length := by
    rw [List.drop_drop, Nat.add_comm]
  rw [h1, h, List.drop_left]

theorem length_ge_of_drop {α : Type} {input : List α} {p : Nat} {A B : List α}
    (h : input.drop p = A ++ B) (hp : p ≤ input.length) :
    input.length = p + A.length + B.length := by
  have h2 := congrArg List.length h
  simp [List.length_drop] at h2
  omega

end Bencedit

namespace Bencedit

/-! ## Reference-freeness and full well-formedness of values

`Value.WF` characterises exactly the tree shapes the decoder can hand
out: integers fit `i64` (they came from `parse::<i64>`), the
text/bytes split agrees with `str_or_bytes`, byte lengths fit `u64`
(they came from a parsed `u64` length prefix), dict keys are non-empty
byte strings (`DictKey` installs a key only from a non-empty buffer),
dict entries are strictly sorted by the derived order (`BTreeMap`
iteration), and no `DictRef`/`ListRef` occurs. -/

mutual

/-- No `DictRef`/`ListRef` node anywhere in the tree. -/
def Value.noRefs : Value → Bool
  | .dict m => Value.noRefsEntries m
  | .list l => Value.noRefsList l
  | .dictRef _ => false
  | .listRef _ => false
  | _ => true

/-- `noRefs` over dict entries. -/
def Value.noRefsEntries : List (Value × Value) → Bool
  | [] => true
  | (k, v) :: r => Value.noRefs k && Value.noRefs v && Value.noRefsEntries r

/-- `noRefs` over list items. -/
def Value.noRefsList : List Value → Bool
  | [] => true
  | v :: r => Value.noRefs v && Value.noRefsList r

end

/-- A value the decoder can install as a dict key: a non-empty byte
string on the `str_or_bytes` side of the text/bytes split, with a
length that fits `u64`. -/
def Value.WFkey : Value → Bool
  | .str s => !s.isEmpty && validUtf8 s && decide (s.length < 2 ^ 64)
  | .bytes b => !b.isEmpty && !validUtf8 b && decide (b.length < 2 ^ 64)
  | _ => false

/-- Is `k` strictly below every key of `m` in the derived order? -/
def Value.keysAbove (k : Value) : List (Value × Value) → Bool
  | [] => true
  | (k', _) :: r => decide (Value.cmp k k' = .lt) && Value.keysAbove k r

/-- Strictly ascending keys (the `BTreeMap` iteration invariant). -/
def Value.sortedEnt : List (Value × Value) → Bool
  | [] => true
  | (k, _) :: r => Value.keysAbove k r && Value.sortedEnt r

mutual

/-- Well-formedness of decoder-produced values (see the section
comment). -/
def Value.WF : Value → Bool
  | .int n => decide (-(2 ^ 63) ≤ n) && decide (n < 2 ^ 63)
  | .str s => validUtf8 s && decide (s.length < 2 ^ 64)
  | .bytes b => !validUtf8 b && decide (b.length < 2 ^ 64)
  | .dict m => Value.WFentries m && Value.sortedEnt m
  | .list l => Value.WFlist l
  | .dictRef _ => false
  | .listRef _ => false

/-- `WF` over dict entries: keys are installable keys, values are
well-formed. -/
def Value.WFentries : List (Value × Value) → Bool
  | [] => true
  | (k, v) :: r => Value.WFkey k && Value.WF v && Value.WFentries r

/-- `WF` over list items. -/
def Value.WFlist : List Value → Bool
  | [] => true
  | v :: r => Value.WF v && Value.WFlist r

end

mutual

theorem Value.WF_noRefs : ∀ (v : Value), Value.WF v = true → Value.noRefs v = true
  | .int _, _ => rfl
  | .str _, _ => rfl
  | .bytes _, _ => rfl
  | .dict m, h => by
    simp only [Value.WF, Bool.and_eq_true] at h
    exact Value.WFentries_noRefs m h.1
  | .list l, h => Value.WFlist_noRefs l h

theorem Value.WFentries_noRefs : ∀ (m : List (Value × Value)),
    Value.WFentries m = true → Value.noRefsEntries m = true
  | [], _ => rfl
  | (k, v) :: r, h => by
    simp only [Value.WFentries, Bool.and_eq_true] at h
    have hk : Value.noRefs k = true := by
      cases k <;> simp [Value.WFkey] at h <;> rfl
    simp only [Value.noRefsEntries, Bool.and_eq_true]
    exact ⟨⟨hk, Value.WF_noRefs v h.1.2⟩, Value.WFentries_noRefs r h.2⟩

theorem Value.WFlist_noRefs : ∀ (l : List Value),
    Value.WFlist l = true → Value.noRefsList l = true
  | [], _ => rfl
  | v :: r, h => by
    simp only [Value.WFlist, Bool.and_eq_true] at h
    simp only [Value.noRefsList, Bool.and_eq_true]
    exact ⟨Value.WF_noRefs v h.1, Value.WFlist_noRefs r h.2⟩

end

end Bencedit

namespace Bencedit

/-! ## Decimal rendering (`format!` / `ToString` on integers)

The encoder is not part of this crate (it lives in the external
`bencode` dependency), so its byte output is modelled from the spec
(§4.3); decimal rendering of integers is the standard base-10
big-endian digit string. -/

/-- Modelled from the spec: the base-10 rendering of a natural number,
most significant digit first ("0" for zero). -/
def decNat (n : Nat) : List UInt8 :=
  if n = 0 then [48] else (Nat.digits 10 n).reverse.map (fun d => UInt8.ofNat (48 + d))

/-- Modelled from the spec: the base-10 rendering of a signed integer
(`-` prefix for negatives). -/
def decInt (n : Int) : List UInt8 :=
  if n < 0 then minusTok :: decNat n.natAbs else decNat n.natAbs

theorem digit_byte_toNat {d : Nat} (h : d < 10) :
    (UInt8.ofNat (48 + d)).toNat = 48 + d := by
  simp [UInt8.toNat, UInt8.ofNat, Fin.ofNat]
  omega

theorem decNat_ne_nil (n : Nat) : decNat n ≠ [] := by
  unfold decNat
  split
  · simp
  · simp [Nat.digits_ne_nil_iff_ne_zero.mpr (by assumption)]

theorem decNat_all_digits (n : Nat) : allDigits (decNat n) = true := by
  unfold decNat
  split
  · rfl
  · simp only [allDigits, List.all_eq_true]
    intro c hc
    simp only [List.mem_map, List.mem_reverse] at hc
    obtain ⟨d, hd, rfl⟩ := hc
    have hlt : d < 10 := Nat.digits_lt_base (by norm_num) hd
    simp [isDigit, digit_byte_toNat hlt]
    omega

theorem foldl_dec_aux : ∀ (L : List Nat) (a : Nat), (∀ d ∈ L, d < 10) →
    (L.reverse.map (fun d => UInt8.ofNat (48 + d))).foldl
        (fun x c => x * 10 + (c.toNat - 48)) a =
      a * 10 ^ L.length + Nat.ofDigits 10 L := by
  intro L
  induction L with
  | nil => intro a _; simp
  | cons d L ih =>
    intro a h
    have hd : d < 10 := h d (by simp)
    have hL : ∀ x ∈ L, x < 10 := fun x hx => h x (by simp [hx])
    simp only [List.reverse_cons, List.map_append, List.foldl_append, ih a hL,
      List.map_cons, List.map_nil, List.foldl_cons, List.foldl_nil,
      digit_byte_toNat hd, Nat.ofDigits_cons, List.length_cons]
    have h1 : 48 + d - 48 = d := by omega
    rw [h1, pow_succ]
    ring

theorem digitsVal_decNat (n : Nat) : digitsVal (decNat n) = n := by
  unfold decNat digitsVal
  split
  · next h => simp [h]; decide
  · rw [foldl_dec_aux _ 0 (fun d hd => Nat.digits_lt_base (by norm_num) hd)]
    simp [Nat.ofDigits_digits]

theorem decNat_length_le {n k : Nat} (h1 : 1 ≤ k) (h : n < 10 ^ k) :
    (decNat n).length ≤ k := by
  unfold decNat
  split
  · simpa using h1
  · next hn =>
    simp only [List.length_map, List.length_reverse]
    rw [Nat.digits_len 10 n (by norm_num) hn]
    have := (Nat.lt_pow_iff_log_lt (by norm_num) hn).mp h
    omega

theorem parseU64_decNat {n : Nat} (h : n < 2 ^ 64) : parseU64 (decNat n) = some n := by
  rw [parseU64, if_pos ⟨decNat_ne_nil n, decNat_all_digits n, by rw [digitsVal_decNat]; exact h⟩,
    digitsVal_decNat]

theorem allDigits_head_ne_minus {c : UInt8} {cs : List UInt8}
    (h : allDigits (c :: cs) = true) : c ≠ minusTok := by
  simp only [allDigits, List.all_cons, Bool.and_eq_true] at h
  exact (isDigit_ne_tok h.1).2.2.2.2.2

theorem parseI64_decInt {n : Int} (h1 : -(2 ^ 63) ≤ n) (h2 : n < 2 ^ 63) :
    parseI64 (decInt n) = some n := by
  unfold decInt
  split
  · next hneg =>
    have hrange : (n.natAbs : Nat) ≤ 2 ^ 63 := by omega
    simp only [parseI64, if_true]
    rw [if_pos ⟨decNat_ne_nil _, decNat_all_digits _, by rw [digitsVal_decNat]; exact hrange⟩,
      digitsVal_decNat]
    congr 1
    omega
  · next hpos =>
    have hd := decNat_all_digits n.natAbs
    have hrange : (n.natAbs : Nat) < 2 ^ 63 := by omega
    obtain ⟨c, cs, hcs⟩ : ∃ c cs, decNat n.natAbs = c :: cs := by
      cases hx : decNat n.natAbs with
      | nil => exact absurd hx (decNat_ne_nil _)
      | cons c cs => exact ⟨c, cs, rfl⟩
    rw [hcs]
    simp only [parseI64]
    rw [if_neg (allDigits_head_ne_minus (hcs ▸ hd)), ← hcs,
      if_pos ⟨hd, by rw [digitsVal_decNat]; exact hrange⟩, digitsVal_decNat]
    congr 1
    omega

theorem decInt_ne_nil (n : Int) : decInt n ≠ [] := by
  unfold decInt
  split
  · simp
  · exact decNat_ne_nil _

theorem decInt_length_le {n : Int} (h1 : -(2 ^ 63) ≤ n) (h2 : n < 2 ^ 63) :
    (decInt n).length ≤ 20 := by
  unfold decInt
  have hlen : (decNat n.natAbs).length ≤ 19 := by
    apply decNat_length_le (by norm_num)
    have : (n.natAbs : Nat) ≤ 2 ^ 63 := by omega
    calc (n.natAbs : Nat) ≤ 2 ^ 63 := this
      _ < 10 ^ 19 := by norm_num
  split
  · simp only [List.length_cons]
    omega
  · omega

theorem head_digit_of_allDigits {c : UInt8} {cs : List UInt8}
    (h : allDigits (c :: cs) = true) : isDigit c = true := by
  simp only [allDigits, List.all_cons, Bool.and_eq_true] at h
  exact h.1

end Bencedit

namespace Bencedit

/-! ## The encoder (spec §4.3; the `bencode` crate is not part of this
repository, so the byte format is taken from the spec) -/

mutual

/-- Modelled from the spec: `Int → i<decimal>e`; `ByteString of length
N → <N>:<bytes>`; `List → l <children> e`; `Dict → d <(key value)
pairs in ascending key order> e`.  Dict entries are emitted in stored
(`BTreeMap` iteration) order; the reference variants have no encoding
(the spec's encoder consumes only the four data-model kinds). -/
def Value.enc : Value → List UInt8
  | .int n => iTok :: (decInt n ++ [eTok])
  | .str s => decNat s.length ++ colonTok :: s
  | .bytes b => decNat b.length ++ colonTok :: b
  | .dict m => dTok :: (Value.encEntries m ++ [eTok])
  | .list l => lTok :: (Value.encList l ++ [eTok])
  | .dictRef _ => []
  | .listRef _ => []

/-- Modelled from the spec: dict entries are encoded as the
concatenation `enc key ++ enc value`, in iteration order. -/
def Value.encEntries : List (Value × Value) → List UInt8
  | [] => []
  | (k, v) :: r => Value.enc k ++ (Value.enc v ++ Value.encEntries r)

/-- Modelled from the spec: list items are encoded consecutively. -/
def Value.encList : List Value → List UInt8
  | [] => []
  | v :: r => Value.enc v ++ Value.encList r

end

/-! Sizes for the round-trip induction. -/

mutual

def vsize : Value → Nat
  | .dict m => esize m + 1
  | .list l => lsize l + 1
  | _ => 1

def esize : List (Value × Value) → Nat
  | [] => 0
  | (k, v) :: r => vsize k + vsize v + esize r + 1

def lsize : List Value → Nat
  | [] => 0
  | v :: r => vsize v + lsize r + 1

end

theorem vsize_pos (v : Value) : 1 ≤ vsize v := by
  cases v <;> simp [vsize] <;> omega

end Bencedit

namespace Bencedit

/-! ## Order facts for keys and `BTreeMap::insert` -/

theorem u8_eq_of_toNat {a b : UInt8} (h : a.toNat = b.toNat) : a = b := by
  cases a with
  | mk v =>
    cases b with
    | mk w =>
      congr 1
      exact BitVec.eq_of_toNat_eq h

theorem u8_lt_iff {a b : UInt8} : a < b ↔ a.toNat < b.toNat := Iff.rfl

theorem u8_trichotomy (x y : UInt8) : x < y ∨ x = y ∨ y < x := by
  rcases Nat.lt_trichotomy x.toNat y.toNat with h | h | h
  · exact Or.inl h
  · exact Or.inr (Or.inl (u8_eq_of_toNat h))
  · exact Or.inr (Or.inr h)

theorem u8_asymm {x y : UInt8} (h : x < y) : ¬ y < x := by
  intro h2
  have h1 := u8_lt_iff.mp h
  have h3 := u8_lt_iff.mp h2
  omega

theorem u8_irrefl (x : UInt8) : ¬ x < x := by
  intro h
  have h1 := u8_lt_iff.mp h
  omega

theorem u8_lt_trans {x y z : UInt8} (h1 : x < y) (h2 : y < z) : x < z := by
  have a1 := u8_lt_iff.mp h1
  have a2 := u8_lt_iff.mp h2
  exact u8_lt_iff.mpr (by omega)

theorem cmpBytes_swap : ∀ (a b : List UInt8),
    Value.cmpBytes b a = (Value.cmpBytes a b).swap := by
  intro a
  induction a with
  | nil => intro b; cases b <;> rfl
  | cons x as ih =>
    intro b
    cases b with
    | nil => rfl
    | cons y bs =>
      simp only [Value.cmpBytes]
      rcases u8_trichotomy x y with h | h | h
      · rw [if_neg (u8_asymm h), if_pos h, if_pos h]
        rfl
      · subst h
        rw [if_neg (u8_irrefl x), if_neg (u8_irrefl x), if_neg (u8_irrefl x),
          if_neg (u8_irrefl x)]
        exact ih bs
      · rw [if_pos h, if_neg (u8_asymm h), if_pos h]
        rfl

theorem cmpBytes_trans : ∀ (a b c : List UInt8),
    Value.cmpBytes a b = .lt → Value.cmpBytes b c = .lt →
      Value.cmpBytes a c = .lt := by
  intro a
  induction a with
  | nil =>
    intro b c h1 h2
    cases b with
    | nil => exact h2
    | cons y bs =>
      cases c with
      | nil => simp [Value.cmpBytes] at h2
      | cons z cs => rfl
  | cons x as ih =>
    intro b c h1 h2
    cases b with
    | nil => simp [Value.cmpBytes] at h1
    | cons y bs =>
      cases c with
      | nil => simp [Value.cmpBytes] at h2
      | cons z cs =>
        simp only [Value.cmpBytes] at h1 h2 ⊢
        rcases u8_trichotomy x y with hxy | hxy | hxy
        · rcases u8_trichotomy y z with hyz | hyz | hyz
          · rw [if_pos (u8_lt_trans hxy hyz)]
          · subst hyz
            rw [if_pos hxy]
          · rw [if_neg (u8_asymm hyz), if_pos hyz] at h2
            cases h2
        · subst hxy
          rw [if_neg (u8_irrefl x), if_neg (u8_irrefl x)] at h1
          rcases u8_trichotomy x z with hyz | hyz | hyz
          · rw [if_pos hyz]
          · subst hyz
            rw [if_neg (u8_irrefl x), if_neg (u8_irrefl x)] at h2 ⊢
            exact ih bs cs h1 h2
          · rw [if_neg (u8_asymm hyz), if_pos hyz] at h2
            cases h2
        · rw [if_neg (u8_asymm hxy), if_pos hxy] at h1
          cases h1

theorem WFkey_kind {k : Value} (h : Value.WFkey k = true) :
    (∃ b, k = .str b) ∨ (∃ b, k = .bytes b) := by
  cases k <;> simp [Value.WFkey] at h ⊢

theorem key_cmp_swap {a b : Value} (ha : Value.WFkey a = true)
    (hb : Value.WFkey b = true) : Value.cmp b a = (Value.cmp a b).swap := by
  rcases WFkey_kind ha with ⟨s, rfl⟩ | ⟨s, rfl⟩ <;>
    rcases WFkey_kind hb with ⟨t, rfl⟩ | ⟨t, rfl⟩
  · exact cmpBytes_swap s t
  · rfl
  · rfl
  · exact cmpBytes_swap s t

theorem key_cmp_trans {a b c : Value} (ha : Value.WFkey a = true)
    (hb : Value.WFkey b = true) (hc : Value.WFkey c = true)
    (h1 : Value.cmp a b = .lt) (h2 : Value.cmp b c = .lt) :
    Value.cmp a c = .lt := by
  rcases WFkey_kind ha with ⟨s, rfl⟩ | ⟨s, rfl⟩ <;>
    rcases WFkey_kind hb with ⟨t, rfl⟩ | ⟨t, rfl⟩ <;>
    rcases WFkey_kind hc with ⟨u, rfl⟩ | ⟨u, rfl⟩
  · exact cmpBytes_trans s t u h1 h2
  · rfl
  · have h2' : Ordering.gt = Ordering.lt := h2
    cases h2'
  · rfl
  · have h1' : Ordering.gt = Ordering.lt := h1
    cases h1'
  · have h1' : Ordering.gt = Ordering.lt := h1
    cases h1'
  · have h2' : Ordering.gt = Ordering.lt := h2
    cases h2'
  · exact cmpBytes_trans s t u h1 h2

theorem keysAbove_iff (k : Value) : ∀ (m : List (Value × Value)),
    Value.keysAbove k m = true ↔ ∀ p ∈ m, Value.cmp k p.1 = .lt := by
  intro m
  induction m with
  | nil => simp [Value.keysAbove]
  | cons p r ih =>
    obtain ⟨k', v'⟩ := p
    simp [Value.keysAbove, ih]

theorem sortedEnt_append_mid {xs ys : List (Value × Value)} {k v : Value}
    (h : Value.sortedEnt (xs ++ (k, v) :: ys) = true) :
    ∀ q ∈ xs, Value.cmp q.1 k = .lt := by
  induction xs with
  | nil => intro q hq; simp at hq
  | cons p xs ih =>
    obtain ⟨k0, v0⟩ := p
    simp only [List.cons_append, Value.sortedEnt, Bool.and_eq_true] at h
    intro q hq
    rcases List.mem_cons.mp hq with rfl | hq
    · exact (keysAbove_iff k0 _).mp h.1 (k, v) (by simp)
    · exact ih h.2 q hq

theorem sortedEnt_of_append {xs ys : List (Value × Value)}
    (h : Value.sortedEnt (xs ++ ys) = true) : Value.sortedEnt ys = true := by
  induction xs with
  | nil => exact h
  | cons p xs ih =>
    obtain ⟨k0, v0⟩ := p
    simp only [List.cons_append, Value.sortedEnt, Bool.and_eq_true] at h
    exact ih h.2

theorem WFentries_mem : ∀ {m : List (Value × Value)},
    Value.WFentries m = true → ∀ p ∈ m, Value.WFkey p.1 = true ∧ Value.WF p.2 = true := by
  intro m
  induction m with
  | nil => intro _ p hp; simp at hp
  | cons q r ih =>
    obtain ⟨k, v⟩ := q
    intro h p hp
    simp only [Value.WFentries, Bool.and_eq_true] at h
    rcases List.mem_cons.mp hp with rfl | hp
    · exact ⟨h.1.1, h.1.2⟩
    · exact ih h.2 p hp

theorem WFlist_mem : ∀ {l : List Value},
    Value.WFlist l = true → ∀ v ∈ l, Value.WF v = true := by
  intro l
  induction l with
  | nil => intro _ v hv; simp at hv
  | cons x r ih =>
    intro h v hv
    simp only [Value.WFlist, Bool.and_eq_true] at h
    rcases List.mem_cons.mp hv with rfl | hv
    · exact h.1
    · exact ih h.2 v hv

/-- Inserting a key greater than every present key appends. -/
theorem btreeInsert_append : ∀ (m : List (Value × Value)) (k v : Value),
    (∀ q ∈ m, Value.cmp k q.1 = .gt) → btreeInsert m k v = m ++ [(k, v)] := by
  intro m
  induction m with
  | nil => intro k v _; rfl
  | cons q r ih =>
    obtain ⟨k1, v1⟩ := q
    intro k v h
    have h1 : Value.cmp k k1 = .gt := h (k1, v1) (by simp)
    simp only [btreeInsert, h1]
    rw [ih k v (fun q hq => h q (by simp [hq]))]
    simp

theorem btreeInsert_WFentries : ∀ {m : List (Value × Value)} {k v : Value},
    Value.WFentries m = true → Value.WFkey k = true → Value.WF v = true →
      Value.WFentries (btreeInsert m k v) = true := by
  intro m
  induction m with
  | nil =>
    intro k v _ hk hv
    simp [btreeInsert, Value.WFentries, hk, hv]
  | cons q r ih =>
    obtain ⟨k1, v1⟩ := q
    intro k v hm hk hv
    simp only [Value.WFentries, Bool.and_eq_true] at hm
    cases hc : Value.cmp k k1
    · simp only [btreeInsert, hc, Value.WFentries, Bool.and_eq_true]
      exact ⟨⟨hk, hv⟩, ⟨hm.1.1, hm.1.2⟩, hm.2⟩
    · simp only [btreeInsert, hc, Value.WFentries, Bool.and_eq_true]
      exact ⟨⟨hm.1.1, hv⟩, hm.2⟩
    · simp only [btreeInsert, hc, Value.WFentries, Bool.and_eq_true]
      exact ⟨⟨hm.1.1, hm.1.2⟩, ih hm.2 hk hv⟩

theorem btreeInsert_keys : ∀ {m : List (Value × Value)} {k v : Value},
    ∀ p ∈ btreeInsert m k v, p.1 = k ∨ ∃ q ∈ m, p.1 = q.1 := by
  intro m
  induction m with
  | nil =>
    intro k v p hp
    simp [btreeInsert] at hp
    simp [hp]
  | cons q r ih =>
    obtain ⟨k1, v1⟩ := q
    intro k v p hp
    cases hc : Value.cmp k k1 <;> simp only [btreeInsert, hc] at hp
    · rcases List.mem_cons.mp hp with rfl | hp
      · simp
      · rcases List.mem_cons.mp hp with rfl | hp
        · exact Or.inr ⟨(k1, v1), by simp⟩
        · exact Or.inr ⟨p, by simp [hp]⟩
    · rcases List.mem_cons.mp hp with rfl | hp
      · exact Or.inr ⟨(k1, v1), by simp⟩
      · exact Or.inr ⟨p, by simp [hp]⟩
    · rcases List.mem_cons.mp hp with rfl | hp
      · exact Or.inr ⟨(k1, v1), by simp⟩
      · rcases ih p hp with h | ⟨q, hq, he⟩
        · exact Or.inl h
        · exact Or.inr ⟨q, by simp [hq], he⟩

theorem btreeInsert_sorted : ∀ {m : List (Value × Value)} {k v : Value},
    Value.WFentries m = true → Value.sortedEnt m = true → Value.WFkey k = true →
      Value.sortedEnt (btreeInsert m k v) = true := by
  intro m
  induction m with
  | nil => intro k v _ _ _; rfl
  | cons q r ih =>
    obtain ⟨k1, v1⟩ := q
    intro k v hm hs hk
    simp only [Value.WFentries, Bool.and_eq_true] at hm
    simp only [Value.sortedEnt, Bool.and_eq_true] at hs
    cases hc : Value.cmp k k1 <;> simp only [btreeInsert, hc]
    · simp only [Value.sortedEnt, Bool.and_eq_true]
      refine ⟨(keysAbove_iff k _).mpr ?_, hs.1, hs.2⟩
      intro p hp
      rcases List.mem_cons.mp hp with rfl | hp
      · exact hc
      · exact key_cmp_trans hk hm.1.1 (WFentries_mem hm.2 p hp).1 hc
          ((keysAbove_iff k1 _).mp hs.1 p hp)
    · simp only [Value.sortedEnt, Bool.and_eq_true]
      exact ⟨hs.1, hs.2⟩
    · simp only [Value.sortedEnt, Bool.and_eq_true]
      refine ⟨(keysAbove_iff k1 _).mpr ?_, ih hm.2 hs.2 hk⟩
      intro p hp
      rcases btreeInsert_keys p hp with rfl | ⟨q, hq, he⟩
      · have h5 := key_cmp_swap hk hm.1.1
        rw [hc] at h5
        exact h5
      · rw [he]
        exact (keysAbove_iff k1 _).mp hs.1 q hq

end Bencedit

namespace Bencedit

/-! ## The decoder invariant behind `load`'s output shape

Clauses `w1`–`w5` say every container cell and every filled stack slot
holds well-formed (or still-by-reference) data; the `b` clauses track
the string/integer buffers and the shape of the return-state stack;
`sync` records that the byte cursor and the loop counter agree outside
`RootValInt`. -/

/-- States in which `buf_int` is empty (all value-dispatch and flush
states). -/
def inGSet : State → Bool
  | .root | .dictKey | .dictVal | .dictValStr | .dictValDict | .dictValList
  | .dictFlush | .listVal | .listValStr | .listValDict | .listValList
  | .listFlush => true
  | _ => false

/-- States that `load` ever pushes onto the return-state stack. -/
def isMarker : State → Bool
  | .rootValInt | .rootValStr | .rootValDict | .rootValList
  | .dictValStr | .dictValInt | .dictValDict | .dictValList
  | .listValStr | .listValInt | .listValDict | .listValList
  | .dictKey | .str => true
  | _ => false

structure InvW (cfg : Cfg) : Prop where
  w1 : ∀ cell ∈ cfg.dictHeap, Value.WFentries cell = true ∧ Value.sortedEnt cell = true
  w2 : ∀ cell ∈ cfg.listHeap, Value.WFlist cell = true
  w3 : ∀ sl ∈ cfg.keyStack, ∀ k, sl = some k → Value.WFkey k = true
  w4 : ∀ sl ∈ cfg.valStack, ∀ v, sl = some v → v.is_ref = true ∨ Value.WF v = true
  w5 : ∀ sl ∈ cfg.itemStack, ∀ v, sl = some v → v.is_ref = true ∨ Value.WF v = true
  b1 : cfg.state ≠ .strRem → cfg.bufStr.length < 2 ^ 64
  b1r : cfg.state = .strRem → cfg.bufStr.length + cfg.bufStrRem < 2 ^ 64
  b2 : cfg.state = .str → cfg.bufInt ≠ [] → cfg.bufStr = [] ∧ cfg.bufStrRem = 0
  b3 : inGSet cfg.state = true → cfg.bufInt = []
  b4 : cfg.state = .strRem → cfg.bufInt = []
  b5 : State.str ∈ cfg.nextState → cfg.state = .int ∧ cfg.bufStr = [] ∧
        cfg.bufStrRem = 0 ∧ ∃ pre, cfg.nextState = pre ++ [State.str] ∧ State.str ∉ pre
  b6 : cfg.state = .int → ∃ pre s, cfg.nextState = pre ++ [s] ∧
        (s = State.dictValInt ∨ s = State.listValInt ∨ s = State.rootValInt ∨ s = State.str)
  b7 : ∀ s ∈ cfg.nextState, isMarker s = true
  sync : cfg.state ≠ .rootValInt → cfg.itPos = cfg.pos

theorem parseU64_lt {l : List UInt8} {n : Nat} (h : parseU64 l = some n) : n < 2 ^ 64 := by
  unfold parseU64 at h
  split at h
  · next hc =>
    cases h
    exact hc.2.2
  · cases h

theorem parseI64_range {l : List UInt8} {v : Int} (h : parseI64 l = some v) :
    -(2 ^ 63) ≤ v ∧ v < 2 ^ 63 := by
  cases l with
  | nil => cases h
  | cons c rest =>
    simp only [parseI64] at h
    split at h
    · split at h
      · next hc =>
        cases h
        constructor <;> omega
      · cases h
    · split at h
      · next hc =>
        cases h
        constructor <;> omega
      · cases h

theorem parseI64_WF {l : List UInt8} {v : Int} (h : parseI64 l = some v) :
    Value.WF (.int v) = true := by
  have := parseI64_range h
  simp [Value.WF]
  omega

theorem str_or_bytes_WF {b : List UInt8} (h : b.length < 2 ^ 64) :
    Value.WF (str_or_bytes b) = true := by
  unfold str_or_bytes
  split
  · next hv => simp [Value.WF, hv, h]; omega
  · next hv => simp [Value.WF, hv, h]; omega

theorem WFlist_append_single : ∀ {l : List Value} {v : Value},
    Value.WFlist l = true → Value.WF v = true → Value.WFlist (l ++ [v]) = true := by
  intro l
  induction l with
  | nil => intro v _ hv; simp [Value.WFlist, hv]
  | cons x r ih =>
    intro v hl hv
    simp only [Value.WFlist, Bool.and_eq_true] at hl
    simp only [List.cons_append, Value.WFlist, Bool.and_eq_true]
    exact ⟨hl.1, ih hl.2 hv⟩

theorem unrefIn_WF {dh : List (List (Value × Value))} {lh : List (List Value)}
    {v0 val : Value}
    (hv : v0.is_ref = true ∨ Value.WF v0 = true)
    (h1 : ∀ cell ∈ dh, Value.WFentries cell = true ∧ Value.sortedEnt cell = true)
    (h2 : ∀ cell ∈ lh, Value.WFlist cell = true)
    (h : unrefIn dh lh v0 = some val) : Value.WF val = true := by
  cases v0 with
  | dictRef n =>
    simp only [unrefIn, Option.map_eq_some'] at h
    obtain ⟨cell, hc, rfl⟩ := h
    have hm := h1 cell (List.getElem?_mem (by simpa [List.get?_eq_getElem?] using hc))
    simp [Value.WF, hm.1, hm.2]
  | listRef n =>
    simp only [unrefIn, Option.map_eq_some'] at h
    obtain ⟨cell, hc, rfl⟩ := h
    have hm := h2 cell (List.getElem?_mem (by simpa [List.get?_eq_getElem?] using hc))
    simp [Value.WF, hm]
  | int n => cases h; rcases hv with hv | hv; cases hv; exact hv
  | str s => cases h; rcases hv with hv | hv; cases hv; exact hv
  | bytes b => cases h; rcases hv with hv | hv; cases hv; exact hv
  | dict m => cases h; rcases hv with hv | hv; cases hv; exact hv
  | list l => cases h; rcases hv with hv | hv; cases hv; exact hv

theorem append_singleton_inj {α : Type} {p1 p2 : List α} {x1 x2 : α}
    (h : p1 ++ [x1] = p2 ++ [x2]) : p1 = p2 ∧ x1 = x2 := by
  have hl : p1.length = p2.length := by
    have := congrArg List.length h
    simp at this
    omega
  obtain ⟨h1, h2⟩ := List.append_inj h hl
  exact ⟨h1, by injection h2⟩

theorem forall_mem_append_single {α : Type} {P : α → Prop} {l : List α} {x : α}
    (h : ∀ a ∈ l, P a) (hx : P x) : ∀ a ∈ l ++ [x], P a := by
  intro a ha
  rcases List.mem_append.mp ha with h1 | h1
  · exact h a h1
  · rw [List.mem_singleton.mp h1]
    exact hx

theorem forall_mem_of_vpop {α : Type} {P : α → Prop} {l r : List α} {x : α}
    (hp : vpop l = some (r, x)) (h : ∀ a ∈ l, P a) : ∀ a ∈ r, P a := by
  have he := vpop_eq hp
  intro a ha
  exact h a (by rw [he]; exact List.mem_append_left _ ha)

theorem elem_of_vpop {α : Type} {l r : List α} {x : α}
    (hp : vpop l = some (r, x)) : x ∈ l := by
  rw [vpop_eq hp]
  simp

theorem forall_mem_set {α : Type} {P : α → Prop} {l : List α} {i : Nat} {x : α}
    (h : ∀ a ∈ l, P a) (hx : P x) : ∀ a ∈ l.set i x, P a := fun a ha =>
  (List.mem_or_eq_of_mem_set ha).elim (h a) (fun he => he ▸ hx)

theorem vset_eq {α : Type} {l l' : List α} {i : Int} {x : α}
    (hs : vset l i x = some l') : l' = l.set i.toNat x := by
  unfold vset at hs
  split at hs
  · cases hs; rfl
  · cases hs

theorem forall_mem_of_vset {α : Type} {P : α → Prop} {l l' : List α} {i : Int} {x : α}
    (hs : vset l i x = some l') (h : ∀ a ∈ l, P a) (hx : P x) : ∀ a ∈ l', P a := by
  rw [vset_eq hs]
  exact forall_mem_set h hx

theorem forall_mem_dropLast {α : Type} {P : α → Prop} {l : List α}
    (h : ∀ a ∈ l, P a) : ∀ a ∈ l.dropLast, P a := fun a ha =>
  h a (List.dropLast_subset _ ha)

theorem mem_of_vget {α : Type} {l : List α} {i : Int} {x : α}
    (h : vget l i = some x) : x ∈ l := by
  unfold vget at h
  split at h
  · exact List.getElem?_mem (by simpa [List.get?_eq_getElem?] using h)
  · cases h

theorem str_or_bytes_WFkey {b : List UInt8} (hne : b ≠ []) (h : b.length < 2 ^ 64) :
    Value.WFkey (str_or_bytes b) = true := by
  unfold str_or_bytes
  split
  · next hv => simp [Value.WFkey, hv, h, List.isEmpty_iff, hne]; omega
  · next hv => simp [Value.WFkey, hv, h, List.isEmpty_iff, hne]; omega

theorem not_mem_of_vpop {α : Type} [DecidableEq α] {l r : List α} {x y : α}
    (h7 : vpop l = some (r, x)) (hy : y ∉ l) : y ∉ r := fun h =>
  hy (by rw [vpop_eq h7]; exact List.mem_append_left _ h)

end Bencedit

namespace Bencedit

/-- One loop iteration preserves the decoder invariant. -/
theorem step_invW {input : List UInt8} {cfg c : Cfg}
    (hp : cfg.pos < input.length) (hs : step input cfg = .ok c)
    (hI : InvW cfg) : InvW c := by
  obtain ⟨pos, itPos, st, ns, bstr, brem, bint, ks, vs, its, dst, lst, dh, lh, di, li⟩ := cfg
  replace hp : pos < input.length := hp
  cases st <;> simp only [step] at hs
  case root =>
    cases hc : input.get? itPos <;> simp only [hc] at hs
    · cases hs
    split at hs
    · -- dict root
      cases hs
      refine ⟨?_, hI.w2, ?_, ?_, hI.w5, ?_, ?_, ?_, ?_, ?_, ?_, ?_, ?_, ?_⟩
      · exact forall_mem_append_single hI.w1 ⟨rfl, rfl⟩
      · exact forall_mem_append_single hI.w3 (fun k hk => by cases hk)
      · exact forall_mem_append_single hI.w4 (fun v hv => by cases hv)
      · intro _; exact hI.b1 (by simp)
      · intro h; exact absurd h (by simp)
      · intro h; exact absurd h (by simp)
      · intro _; exact hI.b3 rfl
      · intro h; exact absurd h (by simp)
      · intro hmem
        simp only [vpush] at hmem
        rcases List.mem_append.mp hmem with h | h
        · exact absurd (hI.b5 h).1 (by simp)
        · simp at h
      · intro h; exact absurd h (by simp)
      · intro s hsm
        simp only [vpush] at hsm
        rcases List.mem_append.mp hsm with h | h
        · exact hI.b7 s h
        · rw [List.mem_singleton.mp h]; rfl
      · intro _
        show itPos + 1 = pos + 1
        have h9 : itPos = pos := hI.sync (by simp)
        omega
    split at hs
    · -- list root
      cases hs
      refine ⟨hI.w1, ?_, hI.w3, hI.w4, ?_, ?_, ?_, ?_, ?_, ?_, ?_, ?_, ?_, ?_⟩
      · exact forall_mem_append_single hI.w2 rfl
      · exact forall_mem_append_single hI.w5 (fun v hv => by cases hv)
      · intro _; exact hI.b1 (by simp)
      · intro h; exact absurd h (by simp)
      · intro h; exact absurd h (by simp)
      · intro _; exact hI.b3 rfl
      · intro h; exact absurd h (by simp)
      · intro hmem
        simp only [vpush] at hmem
        rcases List.mem_append.mp hmem with h | h
        · exact absurd (hI.b5 h).1 (by simp)
        · simp at h
      · intro h; exact absurd h (by simp)
      · intro s hsm
        simp only [vpush] at hsm
        rcases List.mem_append.mp hsm with h | h
        · exact hI.b7 s h
        · rw [List.mem_singleton.mp h]; rfl
      · intro _
        show itPos + 1 = pos + 1
        have h9 : itPos = pos := hI.sync (by simp)
        omega
    split at hs
    · -- int root
      cases hs
      refine ⟨hI.w1, hI.w2, hI.w3, hI.w4, hI.w5, ?_, ?_, ?_, ?_, ?_, ?_, ?_, ?_, ?_⟩
      · intro _; exact hI.b1 (by simp)
      · intro h; exact absurd h (by simp)
      · intro h; exact absurd h (by simp)
      · intro h; exact absurd h (by simp [inGSet])
      · intro h; exact absurd h (by simp)
      · intro hmem
        simp only [vpush] at hmem
        rcases List.mem_append.mp hmem with h | h
        · exact absurd (hI.b5 h).1 (by simp)
        · simp at h
      · intro _
        exact ⟨ns, .rootValInt, rfl, Or.inr (Or.inr (Or.inl rfl))⟩
      · intro s hsm
        simp only [vpush] at hsm
        rcases List.mem_append.mp hsm with h | h
        · exact hI.b7 s h
        · rw [List.mem_singleton.mp h]; rfl
      · intro _
        show itPos + 1 = pos + 1
        have h9 : itPos = pos := hI.sync (by simp)
        omega
    split at hs
    · cases hs
    · -- string root
      cases hs
      refine ⟨hI.w1, hI.w2, hI.w3, hI.w4, hI.w5, ?_, ?_, ?_, ?_, ?_, ?_, ?_, ?_, ?_⟩
      · intro _; exact hI.b1 (by simp)
      · intro h; exact absurd h (by simp)
      · intro _ hne; exact absurd (hI.b3 rfl) hne
      · intro h; exact absurd h (by simp [inGSet])
      · intro h; exact absurd h (by simp)
      · intro hmem
        simp only [vpush] at hmem
        rcases List.mem_append.mp hmem with h | h
        · exact absurd (hI.b5 h).1 (by simp)
        · simp at h
      · intro h; exact absurd h (by simp)
      · intro s hsm
        simp only [vpush] at hsm
        rcases List.mem_append.mp hsm with h | h
        · exact hI.b7 s h
        · rw [List.mem_singleton.mp h]; rfl
      · intro _; exact hI.sync (by simp)
  case rootValInt =>
    cases hs
    refine ⟨hI.w1, hI.w2, hI.w3, hI.w4, hI.w5, ?_, ?_, ?_, ?_, ?_, ?_, ?_, ?_, ?_⟩
    · intro _; exact hI.b1 (by simp)
    · intro h; exact absurd h (by simp)
    · intro h; exact absurd h (by simp)
    · intro h; exact absurd h (by simp [inGSet])
    · intro h; exact absurd h (by simp)
    · intro hmem; exact absurd (hI.b5 hmem).1 (by simp)
    · intro h; exact absurd h (by simp)
    · exact hI.b7
    · intro h; exact absurd rfl h
  case dictKey =>
    cases hc : input.get? itPos <;> simp only [hc] at hs
    · cases hs
    split at hs
    · -- closing e: pop
      cases h7 : vpop ns with
      | none => simp only [h7] at hs; cases hs
      | some p =>
        obtain ⟨ns', s⟩ := p
        simp only [h7] at hs
        cases hs
        have hms := hI.b7 s (elem_of_vpop h7)
        have hsne : s ≠ State.strRem := fun he => absurd (he ▸ hms) (by decide)
        have hsni : s ≠ State.int := fun he => absurd (he ▸ hms) (by decide)
        have hsstr : s = State.str → State.str ∈ ns := fun he => by
          have hmm := elem_of_vpop h7
          rwa [he] at hmm
        refine ⟨hI.w1, hI.w2, hI.w3, hI.w4, hI.w5, ?_, ?_, ?_, ?_, ?_, ?_, ?_, ?_, ?_⟩
        · intro _; exact hI.b1 (by simp)
        · intro h
          exact absurd h hsne
        · intro h hne
          exact absurd (hI.b5 (hsstr h)).1 (by simp)
        · intro _; exact hI.b3 rfl
        · intro _; exact hI.b3 rfl
        · intro hmem
          replace hmem : State.str ∈ ns' := hmem
          have hmem0 : State.str ∈ ns := by
            rw [vpop_eq h7]
            exact List.mem_append_left _ hmem
          exact absurd (hI.b5 hmem0).1 (by simp)
        · intro h
          exact absurd h hsni
        · exact forall_mem_of_vpop h7 hI.b7
        · intro _
          show itPos + 1 = pos + 1
          have h9 : itPos = pos := hI.sync (by simp)
          omega
    split at hs
    · -- empty key buffer: to Str
      cases hs
      refine ⟨hI.w1, hI.w2, hI.w3, hI.w4, hI.w5, ?_, ?_, ?_, ?_, ?_, ?_, ?_, ?_, ?_⟩
      · intro _; exact hI.b1 (by simp)
      · intro h; exact absurd h (by simp)
      · intro _ hne; exact absurd (hI.b3 rfl) hne
      · intro h; exact absurd h (by simp [inGSet])
      · intro h; exact absurd h (by simp)
      · intro hmem
        simp only [vpush] at hmem
        rcases List.mem_append.mp hmem with h | h
        · exact absurd (hI.b5 h).1 (by simp)
        · simp at h
      · intro h; exact absurd h (by simp)
      · intro s hsm
        simp only [vpush] at hsm
        rcases List.mem_append.mp hsm with h | h
        · exact hI.b7 s h
        · rw [List.mem_singleton.mp h]; rfl
      · intro _; exact hI.sync (by simp)
    · -- install key
      next hbs =>
      cases hv : vset ks di (some (str_or_bytes bstr)) <;> simp only [hv] at hs
      · cases hs
      · cases hs
        refine ⟨hI.w1, hI.w2, ?_, hI.w4, hI.w5, ?_, ?_, ?_, ?_, ?_, ?_, ?_, ?_, ?_⟩
        · refine forall_mem_of_vset hv hI.w3 (fun k hk => ?_)
          cases hk
          exact str_or_bytes_WFkey (by intro h; exact hbs (by simp [h]))
            (hI.b1 (by simp))
        · intro _; simp
        · intro h; exact absurd h (by simp)
        · intro h; exact absurd h (by simp)
        · intro _; exact hI.b3 rfl
        · intro h; exact absurd h (by simp)
        · intro hmem; exact absurd (hI.b5 hmem).1 (by simp)
        · intro h; exact absurd h (by simp)
        · exact hI.b7
        · intro _; exact hI.sync (by simp)
  case dictVal =>
    cases hc : input.get? itPos <;> simp only [hc] at hs
    · cases hs
    split at hs
    · -- dict child
      cases hv : vset vs di (some (Value.dictRef dh.length)) <;> simp only [hv] at hs
      · cases hs
      · cases hs
        refine ⟨?_, hI.w2, ?_, ?_, hI.w5, ?_, ?_, ?_, ?_, ?_, ?_, ?_, ?_, ?_⟩
        · exact forall_mem_append_single hI.w1 ⟨rfl, rfl⟩
        · exact forall_mem_append_single hI.w3 (fun k hk => by cases hk)
        · refine forall_mem_append_single
            (forall_mem_of_vset hv hI.w4 (fun v hv2 => by cases hv2; exact Or.inl rfl))
            (fun v hv2 => by cases hv2)
        · intro _; exact hI.b1 (by simp)
        · intro h; exact absurd h (by simp)
        · intro h; exact absurd h (by simp)
        · intro _; exact hI.b3 rfl
        · intro h; exact absurd h (by simp)
        · intro hmem
          simp only [vpush] at hmem
          rcases List.mem_append.mp hmem with h | h
          · exact absurd (hI.b5 h).1 (by simp)
          · simp at h
        · intro h; exact absurd h (by simp)
        · intro s hsm
          simp only [vpush] at hsm
          rcases List.mem_append.mp hsm with h | h
          · exact hI.b7 s h
          · rw [List.mem_singleton.mp h]; rfl
        · intro _
          show itPos + 1 = pos + 1
          have h9 : itPos = pos := hI.sync (by simp)
          omega
    split at hs
    · -- list child
      cases hv : vset vs di (some (Value.listRef lh.length)) <;> simp only [hv] at hs
      · cases hs
      · cases hs
        refine ⟨hI.w1, ?_, hI.w3, ?_, ?_, ?_, ?_, ?_, ?_, ?_, ?_, ?_, ?_, ?_⟩
        · exact forall_mem_append_single hI.w2 rfl
        · exact forall_mem_of_vset hv hI.w4 (fun v hv2 => by cases hv2; exact Or.inl rfl)
        · exact forall_mem_append_single hI.w5 (fun v hv2 => by cases hv2)
        · intro _; exact hI.b1 (by simp)
        · intro h; exact absurd h (by simp)
        · intro h; exact absurd h (by simp)
        · intro _; exact hI.b3 rfl
        · intro h; exact absurd h (by simp)
        · intro hmem
          simp only [vpush] at hmem
          rcases List.mem_append.mp hmem with h | h
          · exact absurd (hI.b5 h).1 (by simp)
          · simp at h
        · intro h; exact absurd h (by simp)
        · intro s hsm
          simp only [vpush] at hsm
          rcases List.mem_append.mp hsm with h | h
          · exact hI.b7 s h
          · rw [List.mem_singleton.mp h]; rfl
        · intro _
          show itPos + 1 = pos + 1
          have h9 : itPos = pos := hI.sync (by simp)
          omega
    split at hs
    · -- int child
      cases hs
      refine ⟨hI.w1, hI.w2, hI.w3, hI.w4, hI.w5, ?_, ?_, ?_, ?_, ?_, ?_, ?_, ?_, ?_⟩
      · intro _; exact hI.b1 (by simp)
      · intro h; exact absurd h (by simp)
      · intro h; exact absurd h (by simp)
      · intro h; exact absurd h (by simp [inGSet])
      · intro h; exact absurd h (by simp)
      · intro hmem
        simp only [vpush] at hmem
        rcases List.mem_append.mp hmem with h | h
        · exact absurd (hI.b5 h).1 (by simp)
        · simp at h
      · intro _
        exact ⟨ns, .dictValInt, rfl, Or.inl rfl⟩
      · intro s hsm
        simp only [vpush] at hsm
        rcases List.mem_append.mp hsm with h | h
        · exact hI.b7 s h
        · rw [List.mem_singleton.mp h]; rfl
      · intro _
        show itPos + 1 = pos + 1
        have h9 : itPos = pos := hI.sync (by simp)
        omega
    split at hs
    · cases hs
    · -- string child
      cases hs
      refine ⟨hI.w1, hI.w2, hI.w3, hI.w4, hI.w5, ?_, ?_, ?_, ?_, ?_, ?_, ?_, ?_, ?_⟩
      · intro _; exact hI.b1 (by simp)
      · intro h; exact absurd h (by simp)
      · intro _ hne; exact absurd (hI.b3 rfl) hne
      · intro h; exact absurd h (by simp [inGSet])
      · intro h; exact absurd h (by simp)
      · intro hmem
        simp only [vpush] at hmem
        rcases List.mem_append.mp hmem with h | h
        · exact absurd (hI.b5 h).1 (by simp)
        · simp at h
      · intro h; exact absurd h (by simp)
      · intro s hsm
        simp only [vpush] at hsm
        rcases List.mem_append.mp hsm with h | h
        · exact hI.b7 s h
        · rw [List.mem_singleton.mp h]; rfl
      · intro _; exact hI.sync (by simp)
  case dictValStr =>
    cases hv : vset vs di (some (str_or_bytes bstr)) <;> simp only [hv] at hs
    · cases hs
    · cases hs
      refine ⟨hI.w1, hI.w2, hI.w3, ?_, hI.w5, ?_, ?_, ?_, ?_, ?_, ?_, ?_, ?_, ?_⟩
      · exact forall_mem_of_vset hv hI.w4
          (fun v hv2 => by cases hv2; exact Or.inr (str_or_bytes_WF (hI.b1 (by simp))))
      · intro _; simp
      · intro h; exact absurd h (by simp)
      · intro h; exact absurd h (by simp)
      · intro _; exact hI.b3 rfl
      · intro h; exact absurd h (by simp)
      · intro hmem; exact absurd (hI.b5 hmem).1 (by simp)
      · intro h; exact absurd h (by simp)
      · exact hI.b7
      · intro _; exact hI.sync (by simp)
  case dictValInt =>
    cases hc : input.get? itPos <;> simp only [hc] at hs
    · cases hs
    split at hs
    · cases hs
    cases hpi : parseI64 bint with
    | none => simp only [hpi] at hs; cases hs
    | some v =>
      simp only [hpi] at hs
      cases hv : vset vs di (some (Value.int v)) <;> simp only [hv] at hs
      · cases hs
      · cases hs
        refine ⟨hI.w1, hI.w2, hI.w3, ?_, hI.w5, ?_, ?_, ?_, ?_, ?_, ?_, ?_, ?_, ?_⟩
        · exact forall_mem_of_vset hv hI.w4
            (fun v2 hv2 => by cases hv2; exact Or.inr (parseI64_WF hpi))
        · intro _; exact hI.b1 (by simp)
        · intro h; exact absurd h (by simp)
        · intro h; exact absurd h (by simp)
        · intro _; rfl
        · intro h; exact absurd h (by simp)
        · intro hmem; exact absurd (hI.b5 hmem).1 (by simp)
        · intro h; exact absurd h (by simp)
        · exact hI.b7
        · intro _
          show itPos + 1 = pos + 1
          have h9 : itPos = pos := hI.sync (by simp)
          omega
  case dictValDict =>
    cases hv : vpop dst with
    | none => simp only [hv] at hs; cases hs
    | some p =>
      obtain ⟨ds, d⟩ := p
      simp only [hv] at hs
      cases hv2 : vset vs di (some (Value.dictRef d)) <;> simp only [hv2] at hs
      · cases hs
      case some vs2 =>
      cases hv3 : vpop ks with
      | none => simp only [hv3] at hs; cases hs
      | some p2 =>
        obtain ⟨ks', k2⟩ := p2
        simp only [hv3] at hs
        cases hv4 : vpop vs2 with
        | none => simp only [hv4] at hs; cases hs
        | some p3 =>
          obtain ⟨vs', v2⟩ := p3
          simp only [hv4] at hs
          cases hs
          refine ⟨hI.w1, hI.w2, ?_, ?_, hI.w5, ?_, ?_, ?_, ?_, ?_, ?_, ?_, ?_, ?_⟩
          · exact forall_mem_of_vpop hv3 hI.w3
          · exact forall_mem_of_vpop hv4
              (forall_mem_of_vset hv2 hI.w4 (fun v hv5 => by cases hv5; exact Or.inl rfl))
          · intro _; exact hI.b1 (by simp)
          · intro h; exact absurd h (by simp)
          · intro h; exact absurd h (by simp)
          · intro _; exact hI.b3 rfl
          · intro h; exact absurd h (by simp)
          · intro hmem; exact absurd (hI.b5 hmem).1 (by simp)
          · intro h; exact absurd h (by simp)
          · exact hI.b7
          · intro _; exact hI.sync (by simp)
  case dictValList =>
    cases hv : vpop lst with
    | none => simp only [hv] at hs; cases hs
    | some p =>
      obtain ⟨ls, l⟩ := p
      simp only [hv] at hs
      cases hv2 : vset vs di (some (Value.listRef l)) <;> simp only [hv2] at hs
      · cases hs
      cases hv3 : vpop its with
      | none => simp only [hv3] at hs; cases hs
      | some p2 =>
        obtain ⟨its', i2⟩ := p2
        simp only [hv3] at hs
        cases hs
        refine ⟨hI.w1, hI.w2, hI.w3, ?_, ?_, ?_, ?_, ?_, ?_, ?_, ?_, ?_, ?_, ?_⟩
        · exact forall_mem_of_vset hv2 hI.w4 (fun v hv5 => by cases hv5; exact Or.inl rfl)
        · exact forall_mem_of_vpop hv3 hI.w5
        · intro _; exact hI.b1 (by simp)
        · intro h; exact absurd h (by simp)
        · intro h; exact absurd h (by simp)
        · intro _; exact hI.b3 rfl
        · intro h; exact absurd h (by simp)
        · intro hmem; exact absurd (hI.b5 hmem).1 (by simp)
        · intro h; exact absurd h (by simp)
        · exact hI.b7
        · intro _; exact hI.sync (by simp)
  case dictFlush =>
    cases h1 : vget ks di <;> simp only [h1] at hs
    · cases hs
    case some o =>
    cases o
    · cases hs
    case some key =>
    cases h2 : vget vs di <;> simp only [h2] at hs
    · cases hs
    case some o2 =>
    cases o2
    · cases hs
    case some v0 =>
    cases h3 : unrefIn dh lh v0 <;> simp only [h3] at hs
    · cases hs
    case some val =>
    cases h4 : vget dst di <;> simp only [h4] at hs
    · cases hs
    case some cellIdx =>
    cases h5 : dh.get? cellIdx <;> simp only [h5] at hs
    · cases hs
    case some cell =>
    cases h6 : input.get? itPos <;> simp only [h6] at hs
    · cases hs
    have hkey : Value.WFkey key = true := hI.w3 _ (mem_of_vget h1) key rfl
    have hv0 := hI.w4 _ (mem_of_vget h2) v0 rfl
    have hval : Value.WF val = true := unrefIn_WF hv0 hI.w1 hI.w2 h3
    have hcell := hI.w1 cell (List.getElem?_mem (by simpa [List.get?_eq_getElem?] using h5))
    have hw1 : ∀ cell2 ∈ dh.set cellIdx (btreeInsert cell key val),
        Value.WFentries cell2 = true ∧ Value.sortedEnt cell2 = true :=
      forall_mem_set hI.w1
        ⟨btreeInsert_WFentries hcell.1 hkey hval,
         btreeInsert_sorted hcell.1 hcell.2 hkey⟩
    split at hs
    · -- closing e: insert then pop
      cases h7 : vpop ns with
      | none => simp only [h7] at hs; cases hs
      | some p =>
        obtain ⟨ns', s⟩ := p
        simp only [h7] at hs
        cases hs
        have hms := hI.b7 s (elem_of_vpop h7)
        have hsne : s ≠ State.strRem := fun he => absurd (he ▸ hms) (by decide)
        have hsni : s ≠ State.int := fun he => absurd (he ▸ hms) (by decide)
        have hsstr : s = State.str → State.str ∈ ns := fun he => by
          have hmm := elem_of_vpop h7
          rwa [he] at hmm
        refine ⟨hw1, hI.w2, hI.w3, hI.w4, hI.w5, ?_, ?_, ?_, ?_, ?_, ?_, ?_, ?_, ?_⟩
        · intro _; exact hI.b1 (by simp)
        · intro h
          exact absurd h hsne
        · intro h hne
          exact absurd (hI.b5 (hsstr h)).1 (by simp)
        · intro _; exact hI.b3 rfl
        · intro _; exact hI.b3 rfl
        · intro hmem
          replace hmem : State.str ∈ ns' := hmem
          have hmem0 : State.str ∈ ns := by
            rw [vpop_eq h7]
            exact List.mem_append_left _ hmem
          exact absurd (hI.b5 hmem0).1 (by simp)
        · intro h
          exact absurd h hsni
        · exact forall_mem_of_vpop h7 hI.b7
        · intro _
          show itPos + 1 = pos + 1
          have h9 : itPos = pos := hI.sync (by simp)
          omega
    · -- more entries: insert, back to DictKey
      cases hs
      refine ⟨hw1, hI.w2, hI.w3, hI.w4, hI.w5, ?_, ?_, ?_, ?_, ?_, ?_, ?_, ?_, ?_⟩
      · intro _; exact hI.b1 (by simp)
      · intro h; exact absurd h (by simp)
      · intro h; exact absurd h (by simp)
      · intro _; exact hI.b3 rfl
      · intro h; exact absurd h (by simp)
      · intro hmem; exact absurd (hI.b5 hmem).1 (by simp)
      · intro h; exact absurd h (by simp)
      · exact hI.b7
      · intro _; exact hI.sync (by simp)
  case listVal =>
    cases hc : input.get? itPos <;> simp only [hc] at hs
    · cases hs
    split at hs
    · -- closing e: pop
      cases h7 : vpop ns with
      | none => simp only [h7] at hs; cases hs
      | some p =>
        obtain ⟨ns', s⟩ := p
        simp only [h7] at hs
        cases hs
        have hms := hI.b7 s (elem_of_vpop h7)
        have hsne : s ≠ State.strRem := fun he => absurd (he ▸ hms) (by decide)
        have hsni : s ≠ State.int := fun he => absurd (he ▸ hms) (by decide)
        have hsstr : s = State.str → State.str ∈ ns := fun he => by
          have hmm := elem_of_vpop h7
          rwa [he] at hmm
        refine ⟨hI.w1, hI.w2, hI.w3, hI.w4, hI.w5, ?_, ?_, ?_, ?_, ?_, ?_, ?_, ?_, ?_⟩
        · intro _; exact hI.b1 (by simp)
        · intro h
          exact absurd h hsne
        · intro h hne
          exact absurd (hI.b5 (hsstr h)).1 (by simp)
        · intro _; exact hI.b3 rfl
        · intro _; exact hI.b3 rfl
        · intro hmem
          replace hmem : State.str ∈ ns' := hmem
          have hmem0 : State.str ∈ ns := by
            rw [vpop_eq h7]
            exact List.mem_append_left _ hmem
          exact absurd (hI.b5 hmem0).1 (by simp)
        · intro h
          exact absurd h hsni
        · exact forall_mem_of_vpop h7 hI.b7
        · intro _
          show itPos + 1 = pos + 1
          have h9 : itPos = pos := hI.sync (by simp)
          omega
    split at hs
    · -- dict item
      cases hv : vset its li (some (Value.dictRef dh.length)) <;> simp only [hv] at hs
      · cases hs
      · cases hs
        refine ⟨?_, hI.w2, ?_, ?_, ?_, ?_, ?_, ?_, ?_, ?_, ?_, ?_, ?_, ?_⟩
        · exact forall_mem_append_single hI.w1 ⟨rfl, rfl⟩
        · exact forall_mem_append_single hI.w3 (fun k hk => by cases hk)
        · exact forall_mem_append_single hI.w4 (fun v hv2 => by cases hv2)
        · exact forall_mem_of_vset hv hI.w5 (fun v hv2 => by cases hv2; exact Or.inl rfl)
        · intro _; exact hI.b1 (by simp)
        · intro h; exact absurd h (by simp)
        · intro h; exact absurd h (by simp)
        · intro _; exact hI.b3 rfl
        · intro h; exact absurd h (by simp)
        · intro hmem
          simp only [vpush] at hmem
          rcases List.mem_append.mp hmem with h | h
          · exact absurd (hI.b5 h).1 (by simp)
          · simp at h
        · intro h; exact absurd h (by simp)
        · intro s hsm
          simp only [vpush] at hsm
          rcases List.mem_append.mp hsm with h | h
          · exact hI.b7 s h
          · rw [List.mem_singleton.mp h]; rfl
        · intro _
          show itPos + 1 = pos + 1
          have h9 : itPos = pos := hI.sync (by simp)
          omega
    split at hs
    · -- list item (state stays ListVal)
      cases hv : vset its li (some (Value.listRef lh.length)) <;> simp only [hv] at hs
      · cases hs
      · cases hs
        refine ⟨hI.w1, ?_, hI.w3, hI.w4, ?_, ?_, ?_, ?_, ?_, ?_, ?_, ?_, ?_, ?_⟩
        · exact forall_mem_append_single hI.w2 rfl
        · refine forall_mem_append_single
            (forall_mem_of_vset hv hI.w5 (fun v hv2 => by cases hv2; exact Or.inl rfl))
            (fun v hv2 => by cases hv2)
        · intro _; exact hI.b1 (by simp)
        · intro h; exact absurd h (by simp)
        · intro h; exact absurd h (by simp)
        · intro _; exact hI.b3 rfl
        · intro h; exact absurd h (by simp)
        · intro hmem
          simp only [vpush] at hmem
          rcases List.mem_append.mp hmem with h | h
          · exact absurd (hI.b5 h).1 (by simp)
          · simp at h
        · intro h; exact absurd h (by simp)
        · intro s hsm
          simp only [vpush] at hsm
          rcases List.mem_append.mp hsm with h | h
          · exact hI.b7 s h
          · rw [List.mem_singleton.mp h]; rfl
        · intro _
          show itPos + 1 = pos + 1
          have h9 : itPos = pos := hI.sync (by simp)
          omega
    split at hs
    · -- int item
      cases hs
      refine ⟨hI.w1, hI.w2, hI.w3, hI.w4, hI.w5, ?_, ?_, ?_, ?_, ?_, ?_, ?_, ?_, ?_⟩
      · intro _; exact hI.b1 (by simp)
      · intro h; exact absurd h (by simp)
      · intro h; exact absurd h (by simp)
      · intro h; exact absurd h (by simp [inGSet])
      · intro h; exact absurd h (by simp)
      · intro hmem
        simp only [vpush] at hmem
        rcases List.mem_append.mp hmem with h | h
        · exact absurd (hI.b5 h).1 (by simp)
        · simp at h
      · intro _
        exact ⟨ns, .listValInt, rfl, Or.inr (Or.inl rfl)⟩
      · intro s hsm
        simp only [vpush] at hsm
        rcases List.mem_append.mp hsm with h | h
        · exact hI.b7 s h
        · rw [List.mem_singleton.mp h]; rfl
      · intro _
        show itPos + 1 = pos + 1
        have h9 : itPos = pos := hI.sync (by simp)
        omega
    split at hs
    · cases hs
    · -- string item
      cases hs
      refine ⟨hI.w1, hI.w2, hI.w3, hI.w4, hI.w5, ?_, ?_, ?_, ?_, ?_, ?_, ?_, ?_, ?_⟩
      · intro _; exact hI.b1 (by simp)
      · intro h; exact absurd h (by simp)
      · intro _ hne; exact absurd (hI.b3 rfl) hne
      · intro h; exact absurd h (by simp [inGSet])
      · intro h; exact absurd h (by simp)
      · intro hmem
        simp only [vpush] at hmem
        rcases List.mem_append.mp hmem with h | h
        · exact absurd (hI.b5 h).1 (by simp)
        · simp at h
      · intro h; exact absurd h (by simp)
      · intro s hsm
        simp only [vpush] at hsm
        rcases List.mem_append.mp hsm with h | h
        · exact hI.b7 s h
        · rw [List.mem_singleton.mp h]; rfl
      · intro _; exact hI.sync (by simp)
  case listValStr =>
    cases hv : vset its li (some (str_or_bytes bstr)) <;> simp only [hv] at hs
    · cases hs
    · cases hs
      refine ⟨hI.w1, hI.w2, hI.w3, hI.w4, ?_, ?_, ?_, ?_, ?_, ?_, ?_, ?_, ?_, ?_⟩
      · exact forall_mem_of_vset hv hI.w5
          (fun v hv2 => by cases hv2; exact Or.inr (str_or_bytes_WF (hI.b1 (by simp))))
      · intro _; simp
      · intro h; exact absurd h (by simp)
      · intro h; exact absurd h (by simp)
      · intro _; exact hI.b3 rfl
      · intro h; exact absurd h (by simp)
      · intro hmem; exact absurd (hI.b5 hmem).1 (by simp)
      · intro h; exact absurd h (by simp)
      · exact hI.b7
      · intro _; exact hI.sync (by simp)
  case listValInt =>
    cases hc : input.get? itPos <;> simp only [hc] at hs
    · cases hs
    split at hs
    · cases hs
    cases hpi : parseI64 bint with
    | none => simp only [hpi] at hs; cases hs
    | some v =>
      simp only [hpi] at hs
      cases hv : vset its li (some (Value.int v)) <;> simp only [hv] at hs
      · cases hs
      · cases hs
        refine ⟨hI.w1, hI.w2, hI.w3, hI.w4, ?_, ?_, ?_, ?_, ?_, ?_, ?_, ?_, ?_, ?_⟩
        · exact forall_mem_of_vset hv hI.w5
            (fun v2 hv2 => by cases hv2; exact Or.inr (parseI64_WF hpi))
        · intro _; exact hI.b1 (by simp)
        · intro h; exact absurd h (by simp)
        · intro h; exact absurd h (by simp)
        · intro _; rfl
        · intro h; exact absurd h (by simp)
        · intro hmem; exact absurd (hI.b5 hmem).1 (by simp)
        · intro h; exact absurd h (by simp)
        · exact hI.b7
        · intro _
          show itPos + 1 = pos + 1
          have h9 : itPos = pos := hI.sync (by simp)
          omega
  case listValDict =>
    cases hv : vpop dst with
    | none => simp only [hv] at hs; cases hs
    | some p =>
      obtain ⟨ds, d⟩ := p
      simp only [hv] at hs
      cases h5 : dh.get? d <;> simp only [h5] at hs
      · cases hs
      case some cell =>
      cases hv2 : vset its li (some (Value.dict cell)) <;> simp only [hv2] at hs
      · cases hs
      cases hs
      have hcell := hI.w1 cell (List.getElem?_mem (by simpa [List.get?_eq_getElem?] using h5))
      refine ⟨hI.w1, hI.w2, ?_, ?_, ?_, ?_, ?_, ?_, ?_, ?_, ?_, ?_, ?_, ?_⟩
      · exact forall_mem_dropLast hI.w3
      · exact forall_mem_dropLast hI.w4
      · exact forall_mem_of_vset hv2 hI.w5
          (fun v hv5 => by cases hv5; exact Or.inr (by simp [Value.WF, hcell.1, hcell.2]))
      · intro _; exact hI.b1 (by simp)
      · intro h; exact absurd h (by simp)
      · intro h; exact absurd h (by simp)
      · intro _; exact hI.b3 rfl
      · intro h; exact absurd h (by simp)
      · intro hmem; exact absurd (hI.b5 hmem).1 (by simp)
      · intro h; exact absurd h (by simp)
      · exact hI.b7
      · intro _; exact hI.sync (by simp)
  case listValList =>
    cases hv : vpop lst with
    | none => simp only [hv] at hs; cases hs
    | some p =>
      obtain ⟨ls, l⟩ := p
      simp only [hv] at hs
      cases h5 : lh.get? l <;> simp only [h5] at hs
      · cases hs
      case some cell =>
      cases hv2 : vset its li (some (Value.list cell)) <;> simp only [hv2] at hs
      · cases hs
      cases hs
      have hcell := hI.w2 cell (List.getElem?_mem (by simpa [List.get?_eq_getElem?] using h5))
      refine ⟨hI.w1, hI.w2, hI.w3, hI.w4, ?_, ?_, ?_, ?_, ?_, ?_, ?_, ?_, ?_, ?_⟩
      · exact forall_mem_dropLast
          (forall_mem_of_vset hv2 hI.w5
            (fun v hv5 => by cases hv5; exact Or.inr (by simp [Value.WF, hcell])))
      · intro _; exact hI.b1 (by simp)
      · intro h; exact absurd h (by simp)
      · intro h; exact absurd h (by simp)
      · intro _; exact hI.b3 rfl
      · intro h; exact absurd h (by simp)
      · intro hmem; exact absurd (hI.b5 hmem).1 (by simp)
      · intro h; exact absurd h (by simp)
      · exact hI.b7
      · intro _; exact hI.sync (by simp)
  case listFlush =>
    cases h1 : vget its li <;> simp only [h1] at hs
    · cases hs
    case some o =>
    cases o
    · cases hs
    case some v0 =>
    cases h3 : unrefIn dh lh v0 <;> simp only [h3] at hs
    · cases hs
    case some val =>
    cases h4 : vget lst li <;> simp only [h4] at hs
    · cases hs
    case some cellIdx =>
    cases h5 : lh.get? cellIdx <;> simp only [h5] at hs
    · cases hs
    case some cell =>
    cases h6 : input.get? itPos <;> simp only [h6] at hs
    · cases hs
    have hv0 := hI.w5 _ (mem_of_vget h1) v0 rfl
    have hval : Value.WF val = true := unrefIn_WF hv0 hI.w1 hI.w2 h3
    have hcell := hI.w2 cell (List.getElem?_mem (by simpa [List.get?_eq_getElem?] using h5))
    have hw2 : ∀ cell2 ∈ lh.set cellIdx (cell ++ [val]), Value.WFlist cell2 = true :=
      forall_mem_set hI.w2 (WFlist_append_single hcell hval)
    split at hs
    · -- closing e: append then pop
      cases h7 : vpop ns with
      | none => simp only [h7] at hs; cases hs
      | some p =>
        obtain ⟨ns', s⟩ := p
        simp only [h7] at hs
        cases hs
        have hms := hI.b7 s (elem_of_vpop h7)
        have hsne : s ≠ State.strRem := fun he => absurd (he ▸ hms) (by decide)
        have hsni : s ≠ State.int := fun he => absurd (he ▸ hms) (by decide)
        have hsstr : s = State.str → State.str ∈ ns := fun he => by
          have hmm := elem_of_vpop h7
          rwa [he] at hmm
        refine ⟨hI.w1, hw2, hI.w3, hI.w4, hI.w5, ?_, ?_, ?_, ?_, ?_, ?_, ?_, ?_, ?_⟩
        · intro _; exact hI.b1 (by simp)
        · intro h
          exact absurd h hsne
        · intro h hne
          exact absurd (hI.b5 (hsstr h)).1 (by simp)
        · intro _; exact hI.b3 rfl
        · intro _; exact hI.b3 rfl
        · intro hmem
          replace hmem : State.str ∈ ns' := hmem
          have hmem0 : State.str ∈ ns := by
            rw [vpop_eq h7]
            exact List.mem_append_left _ hmem
          exact absurd (hI.b5 hmem0).1 (by simp)
        · intro h
          exact absurd h hsni
        · exact forall_mem_of_vpop h7 hI.b7
        · intro _
          show itPos + 1 = pos + 1
          have h9 : itPos = pos := hI.sync (by simp)
          omega
    · -- more items: append, back to ListVal
      cases hs
      refine ⟨hI.w1, hw2, hI.w3, hI.w4, hI.w5, ?_, ?_, ?_, ?_, ?_, ?_, ?_, ?_, ?_⟩
      · intro _; exact hI.b1 (by simp)
      · intro h; exact absurd h (by simp)
      · intro h; exact absurd h (by simp)
      · intro _; exact hI.b3 rfl
      · intro h; exact absurd h (by simp)
      · intro hmem; exact absurd (hI.b5 hmem).1 (by simp)
      · intro h; exact absurd h (by simp)
      · exact hI.b7
      · intro _; exact hI.sync (by simp)
  case str =>
    split at hs
    · -- clear buffers, read length via Int
      cases hs
      refine ⟨hI.w1, hI.w2, hI.w3, hI.w4, hI.w5, ?_, ?_, ?_, ?_, ?_, ?_, ?_, ?_, ?_⟩
      · intro _; simp
      · intro h; exact absurd h (by simp)
      · intro h; exact absurd h (by simp)
      · intro h; exact absurd h (by simp [inGSet])
      · intro h; exact absurd h (by simp)
      · intro _
        exact ⟨rfl, rfl, rfl, ns, rfl, fun hc => absurd (hI.b5 hc).1 (by simp)⟩
      · intro _
        exact ⟨ns, .str, rfl, Or.inr (Or.inr (Or.inr rfl))⟩
      · intro s hsm
        simp only [vpush] at hsm
        rcases List.mem_append.mp hsm with h | h
        · exact hI.b7 s h
        · rw [List.mem_singleton.mp h]; rfl
      · intro _; exact hI.sync (by simp)
    · next hbe =>
      have hbne : bint ≠ [] := by
        intro h
        exact hbe (by simp [h])
      have hb2 : bstr = [] ∧ brem = 0 := hI.b2 rfl hbne
      cases hc : input.get? itPos <;> simp only [hc] at hs
      · cases hs
      split at hs
      · cases hs
      cases hpu : parseU64 bint <;> simp only [hpu] at hs
      · cases hs
      case some size =>
      have hsize := parseU64_lt hpu
      split at hs
      · -- remainder path
        next hcond =>
        cases hs
        refine ⟨hI.w1, hI.w2, hI.w3, hI.w4, hI.w5, ?_, ?_, ?_, ?_, ?_, ?_, ?_, ?_, ?_⟩
        · intro h; exact absurd rfl h
        · intro _
          have h9 : itPos = pos := hI.sync (by simp)
          have hb1 : bstr = [] := hb2.1
          simp only [hb1, List.nil_append, List.length_drop]
          omega
        · intro h; exact absurd h (by simp)
        · intro h; exact absurd h (by simp [inGSet])
        · intro _; rfl
        · intro hmem; exact absurd (hI.b5 hmem).1 (by simp)
        · intro h; exact absurd h (by simp)
        · exact hI.b7
        · intro _
          show input.length = pos + 1 + (input.length - (pos + 1))
          omega
      · -- whole string available: pop
        next hcond =>
        cases h7 : vpop ns with
        | none => simp only [h7] at hs; cases hs
        | some p =>
          obtain ⟨ns', s⟩ := p
          simp only [h7] at hs
          cases hs
          have hms := hI.b7 s (elem_of_vpop h7)
          have hsne : s ≠ State.strRem := fun he => absurd (he ▸ hms) (by decide)
          have hsni : s ≠ State.int := fun he => absurd (he ▸ hms) (by decide)
          refine ⟨hI.w1, hI.w2, hI.w3, hI.w4, hI.w5, ?_, ?_, ?_, ?_, ?_, ?_, ?_, ?_, ?_⟩
          · intro _
            have hb1 : bstr = [] := hb2.1
            simp only [hb1, List.nil_append, List.length_take, List.length_drop]
            omega
          · intro h
            exact absurd h hsne
          · intro _ hne; exact absurd rfl hne
          · intro _; rfl
          · intro _; rfl
          · intro hmem
            replace hmem : State.str ∈ ns' := hmem
            have hmem0 : State.str ∈ ns := by
              rw [vpop_eq h7]
              exact List.mem_append_left _ hmem
            exact absurd (hI.b5 hmem0).1 (by simp)
          · intro h
            exact absurd h hsni
          · exact forall_mem_of_vpop h7 hI.b7
          · intro _
            show itPos + 1 + size = pos + 1 + size
            have h9 : itPos = pos := hI.sync (by simp)
            omega
  case strRem =>
    split at hs
    · -- still missing bytes
      next hcond =>
      cases hs
      refine ⟨hI.w1, hI.w2, hI.w3, hI.w4, hI.w5, ?_, ?_, ?_, ?_, ?_, ?_, ?_, ?_, ?_⟩
      · intro h; exact absurd rfl h
      · intro _
        have h9 : itPos = pos := hI.sync (by simp)
        have h0 : bstr.length + brem < 2 ^ 64 := hI.b1r rfl
        simp only [List.length_append, List.length_drop]
        omega
      · intro h; exact absurd h (by simp)
      · intro h; exact absurd h (by simp [inGSet])
      · intro _; exact hI.b4 rfl
      · intro hmem; exact absurd (hI.b5 hmem).1 (by simp)
      · intro h; exact absurd h (by simp)
      · exact hI.b7
      · intro _
        show input.length = pos + (input.length - pos)
        omega
    · -- finished: pop
      next hcond =>
      cases h7 : vpop ns with
      | none => simp only [h7] at hs; cases hs
      | some p =>
        obtain ⟨ns', s⟩ := p
        simp only [h7] at hs
        cases hs
        have hms := hI.b7 s (elem_of_vpop h7)
        have hsne : s ≠ State.strRem := fun he => absurd (he ▸ hms) (by decide)
        have hsni : s ≠ State.int := fun he => absurd (he ▸ hms) (by decide)
        have hsstr : s = State.str → State.str ∈ ns := fun he => by
          have hmm := elem_of_vpop h7
          rwa [he] at hmm
        refine ⟨hI.w1, hI.w2, hI.w3, hI.w4, hI.w5, ?_, ?_, ?_, ?_, ?_, ?_, ?_, ?_, ?_⟩
        · intro _
          have h0 : bstr.length + brem < 2 ^ 64 := hI.b1r rfl
          simp only [List.length_append, List.length_take, List.length_drop]
          omega
        · intro h
          exact absurd h hsne
        · intro h hne
          exact absurd (hI.b5 (hsstr h)).1 (by simp)
        · intro _; exact hI.b4 rfl
        · intro _; exact hI.b4 rfl
        · intro hmem
          replace hmem : State.str ∈ ns' := hmem
          have hmem0 : State.str ∈ ns := by
            rw [vpop_eq h7]
            exact List.mem_append_left _ hmem
          exact absurd (hI.b5 hmem0).1 (by simp)
        · intro h
          exact absurd h hsni
        · exact forall_mem_of_vpop h7 hI.b7
        · intro _
          show itPos + brem = pos + brem
          have h9 : itPos = pos := hI.sync (by simp)
          omega
  case int =>
    cases hc : input.get? itPos <;> simp only [hc] at hs
    · cases hs
    split at hs
    · split at hs
      · cases hs
      · -- append digit / minus
        cases hs
        refine ⟨hI.w1, hI.w2, hI.w3, hI.w4, hI.w5, ?_, ?_, ?_, ?_, ?_, ?_, ?_, ?_, ?_⟩
        · intro _; exact hI.b1 (by simp)
        · intro h; exact absurd h (by simp)
        · intro h; exact absurd h (by simp)
        · intro h; exact absurd h (by simp [inGSet])
        · intro h; exact absurd h (by simp)
        · intro hmem
          obtain ⟨-, h2', h3', pre, hp5, hn5⟩ := hI.b5 hmem
          exact ⟨rfl, h2', h3', pre, hp5, hn5⟩
        · intro _; exact hI.b6 rfl
        · exact hI.b7
        · intro _
          show itPos + 1 = pos + 1
          have h9 : itPos = pos := hI.sync (by simp)
          omega
    · split at hs
      · cases hs
      split at hs
      · cases hs
      cases h7 : vpop ns with
      | none => simp only [h7] at hs; cases hs
      | some p =>
        obtain ⟨ns', s⟩ := p
        simp only [h7] at hs
        cases hs
        have hms := hI.b7 s (elem_of_vpop h7)
        have hsne : s ≠ State.strRem := fun he => absurd (he ▸ hms) (by decide)
        have hsni : s ≠ State.int := fun he => absurd (he ▸ hms) (by decide)
        have hsstr : s = State.str → State.str ∈ ns := fun he => by
          have hmm := elem_of_vpop h7
          rwa [he] at hmm
        refine ⟨hI.w1, hI.w2, hI.w3, hI.w4, hI.w5, ?_, ?_, ?_, ?_, ?_, ?_, ?_, ?_, ?_⟩
        · intro _; exact hI.b1 (by simp)
        · intro h
          exact absurd h hsne
        · intro h hne
          exact ⟨(hI.b5 (hsstr h)).2.1, (hI.b5 (hsstr h)).2.2.1⟩
        · intro hgs
          replace hgs : inGSet s = true := hgs
          obtain ⟨pre, s6, hns, hs6⟩ := hI.b6 rfl
          have hd := append_singleton_inj ((vpop_eq h7).symm.trans hns)
          rcases hs6 with h | h | h | h <;> rw [hd.2, h] at hgs <;>
            exact absurd hgs (by decide)
        · intro h
          exact absurd h hsne
        · intro hmem
          replace hmem : State.str ∈ ns' := hmem
          have hmem0 : State.str ∈ ns := by
            rw [vpop_eq h7]
            exact List.mem_append_left _ hmem
          obtain ⟨-, -, -, pre5, hpre, hnot⟩ := hI.b5 hmem0
          have hd := append_singleton_inj ((vpop_eq h7).symm.trans hpre)
          rw [hd.1] at hmem
          exact absurd hmem hnot
        · intro h
          exact absurd h hsni
        · exact forall_mem_of_vpop h7 hI.b7
        · intro _; exact hI.sync (by simp)
  case dict => cases hs
  case done => cases hs
  case rootValStr => cases hs
  case rootValDict => cases hs
  case rootValList => cases hs

end Bencedit

namespace Bencedit

/-- Finalisation from an invariant configuration only returns
well-formed values. -/
theorem finalize_wf {input : List UInt8} {v : Value}
    {pos itPos : Nat} {st : State} {ns : List State} {bstr : List UInt8} {brem : Nat}
    {bint : List UInt8} {ks vs its : List (Option Value)} {dst lst : List Nat}
    {dh : List (List (Value × Value))} {lh : List (List Value)} {di li : Int}
    (hI : InvW (Cfg.mk pos itPos st ns bstr brem bint ks vs its dst lst dh lh di li))
    (h : finalize input (Cfg.mk pos itPos st ns bstr brem bint ks vs its dst lst dh lh di li)
      = .ok v) :
    Value.WF v = true := by
  unfold finalize at h
  split at h
  · cases h
  cases st <;> simp only [] at h
  case rootValInt =>
    cases hc : input.get? itPos <;> simp only [hc] at h
    · cases h
    split at h
    · cases h
    cases hpi : parseI64 bint <;> simp only [hpi] at h
    · cases h
    · cases h
      exact parseI64_WF hpi
  case rootValStr =>
    cases h
    exact str_or_bytes_WF (hI.b1 (by simp))
  case rootValDict =>
    cases hv : vpop dst with
    | none => simp only [hv] at h; cases h
    | some p =>
      obtain ⟨ds, d⟩ := p
      simp only [hv] at h
      cases hg : dh.get? d <;> simp only [hg] at h
      · cases h
      · cases h
        next cell =>
        have hc := hI.w1 cell
          (List.getElem?_mem (by simpa [List.get?_eq_getElem?] using hg))
        simp [Value.WF, hc.1, hc.2]
  case rootValList =>
    cases hv : vpop lst with
    | none => simp only [hv] at h; cases h
    | some p =>
      obtain ⟨ls, l⟩ := p
      simp only [hv] at h
      cases hg : lh.get? l <;> simp only [hg] at h
      · cases h
      · cases h
        next cell =>
        have hc := hI.w2 cell
          (List.getElem?_mem (by simpa [List.get?_eq_getElem?] using hg))
        simp [Value.WF, hc]
  all_goals cases h

/-- A run from an invariant configuration only returns well-formed
values. -/
theorem run_wf {input : List UInt8} {cfg : Cfg} {v : Value}
    (h : run input cfg = .ok v) (hI : InvW cfg) : Value.WF v = true := by
  by_cases hp : cfg.pos < input.length
  · cases hs : step input cfg with
    | ok c =>
      rw [run_eq_step hp hs] at h
      exact run_wf h (step_invW hp hs hI)
    | error e =>
      rw [run_eq_halt hp hs] at h
      cases e <;> simp [haltOut] at h
  · rw [run_eq_finalize hp] at h
    obtain ⟨pos, itPos, st, ns, bstr, brem, bint, ks, vs, its, dst, lst, dh, lh, di, li⟩ := cfg
    exact finalize_wf hI h
termination_by mu input cfg
decreasing_by exact step_mu_lt hp hs

theorem invW_init : InvW initCfg := by
  refine ⟨?_, ?_, ?_, ?_, ?_, ?_, ?_, ?_, ?_, ?_, ?_, ?_, ?_, ?_⟩ <;>
    simp [initCfg, inGSet]

/-- Every value a successful `load` returns is well-formed. -/
theorem load_wf {input : List UInt8} {v : Value} (h : load input = .ok v) :
    Value.WF v = true := by
  unfold load at h
  split at h
  · cases h
  · exact run_wf h invW_init

/-- **C9**.  No node of a successfully decoded tree is a
`DictRef`/`ListRef`: every still-building container reference is
resolved to an owned `Dict`/`List` (at `DictFlush`/`ListFlush` via
`unref`, or by the owned clones in `ListValDict`/`ListValList` and the
final root extraction) before `load` returns. -/
theorem C9_no_refs_in_result : ∀ (input : List UInt8) (v : Value),
    load input = .ok v → Value.noRefs v = true :=
  fun _ _ h => Value.WF_noRefs _ (load_wf h)

/-- **C9** (witness): the tree decoded from `d3:fooi0ee` is free of
reference nodes. -/
theorem C9_witness : Value.noRefs (.dict [(.str (bytesOf "foo"), .int 0)]) = true :=
  C9_no_refs_in_result (bytesOf "d3:fooi0ee") (.dict [(.str (bytesOf "foo"), .int 0)])
    (load_eval (by decide) (Eq.refl (runF (bytesOf "d3:fooi0ee") 30 initCfg)))

end Bencedit

namespace Bencedit

/-! ## Machine runs over encoded fragments -/

/-- `State::Int` consumes a digit run (reachability form). -/
theorem steps_int_digits {input : List UInt8} :
    ∀ (ds : List UInt8) (pos : Nat) (ns : List State) (bstr : List UInt8) (brem : Nat)
      (bint : List UInt8) (ks vs its : List (Option Value)) (dst lst : List Nat)
      (dh : List (List (Value × Value))) (lh : List (List Value)) (di li : Int),
      (∀ c ∈ ds, isDigit c = true) →
      input.drop pos = ds ++ input.drop (pos + ds.length) →
      Steps input (Cfg.mk pos pos .int ns bstr brem bint ks vs its dst lst dh lh di li)
        (Cfg.mk (pos + ds.length) (pos + ds.length) .int ns bstr brem
          (bint ++ ds) ks vs its dst lst dh lh di li) := by
  intro ds
  induction ds with
  | nil =>
    intro pos ns bstr brem bint ks vs its dst lst dh lh di li _ _
    simp only [List.length_nil, Nat.add_zero, List.append_nil]
    exact Steps.refl _
  | cons d ds ih =>
    intro pos ns bstr brem bint ks vs its dst lst dh lh di li hdig hdrop
    have hd : isDigit d = true := hdig d (by simp)
    have hdrop1 : input.drop (pos + 1) = ds ++ input.drop ((pos + 1) + ds.length) := by
      have h1 : input.drop (pos + 1) = (input.drop pos).drop 1 := by
        rw [List.drop_drop]
      have h2 : pos + (d :: ds).length = pos + 1 + ds.length := by
        simp
        omega
      rw [h1, hdrop, h2]
      rfl
    have hget : input[pos]? = some d := by
      exact get?_of_drop_cons (by simpa using hdrop)
    have hlt : pos < input.length := by
      exact lt_length_of_drop_cons (by simpa using hdrop)
    have hne := isDigit_ne_tok hd
    have hstep : step input
        (Cfg.mk pos pos .int ns bstr brem bint ks vs its dst lst dh lh di li) =
        .ok (Cfg.mk (pos + 1) (pos + 1) .int ns bstr brem (bint ++ [d])
          ks vs its dst lst dh lh di li) := by
      simp [step, hget, hd, hne.2.2.2.2.2]
    have htail := ih (pos + 1) ns bstr brem (bint ++ [d])
      ks vs its dst lst dh lh di li (fun c hc => hdig c (by simp [hc])) hdrop1
    have h1 : pos + 1 + ds.length = pos + (d :: ds).length := by
      simp
      omega
    have h2 : (bint ++ [d]) ++ ds = bint ++ d :: ds := by
      simp
    rw [h1, h2] at htail
    exact Steps.head hlt hstep htail

/-- From `Str` with empty buffers, a length prefix, `':'` and the full
body present, the machine collects the body and pops to the marker. -/
theorem steps_str {input : List UInt8} {p : Nat} {sb : List UInt8} {ns : List State}
    {sctx : State} {rest : List UInt8}
    (ks vs its : List (Option Value)) (dst lst : List Nat)
    (dh : List (List (Value × Value))) (lh : List (List Value)) (di li : Int)
    (hlen : sb.length < 2 ^ 64)
    (hdrop : input.drop p = decNat sb.length ++ colonTok :: (sb ++ rest)) :
    Steps input (Cfg.mk p p .str (ns ++ [sctx]) [] 0 [] ks vs its dst lst dh lh di li)
      (Cfg.mk (p + (decNat sb.length).length + 1 + sb.length)
        (p + (decNat sb.length).length + 1 + sb.length) sctx ns sb 0 []
        ks vs its dst lst dh lh di li) := by
  have hddrop2 : input.drop (p + (decNat sb.length).length) = colonTok :: (sb ++ rest) :=
    drop_shift hdrop
  have hget1 : input[p + (decNat sb.length).length]? = some colonTok :=
    get?_of_drop_cons hddrop2
  have hlt2 : p + (decNat sb.length).length < input.length :=
    lt_length_of_drop_cons hddrop2
  have hdl1 : 0 < (decNat sb.length).length := List.length_pos.mpr (decNat_ne_nil _)
  have hp1 : p < input.length := by omega
  have hs1 : step input
      (Cfg.mk p p .str (ns ++ [sctx]) [] 0 [] ks vs its dst lst dh lh di li) =
      .ok (Cfg.mk p p .int ((ns ++ [sctx]) ++ [.str]) [] 0 []
        ks vs its dst lst dh lh di li) := by
    simp [step, vpush]
  have hdigAll : ∀ c ∈ decNat sb.length, isDigit c = true := by
    have h := decNat_all_digits sb.length
    simpa [allDigits, List.all_eq_true] using h
  have hdrop0 : input.drop p =
      decNat sb.length ++ input.drop (p + (decNat sb.length).length) := by
    rw [hddrop2, hdrop]
  have hs2 := steps_int_digits (decNat sb.length) p ((ns ++ [sctx]) ++ [.str]) [] 0 []
    ks vs its dst lst dh lh di li hdigAll hdrop0
  have hne0 : ¬ (([] ++ decNat sb.length : List UInt8).length = 0) := by
    simp only [List.nil_append]
    omega
  have h20 : sb.length < 10 ^ 20 := lt_trans hlen (by norm_num)
  have hdl20 := decNat_length_le (by norm_num) h20
  have hbig : ¬ (([] ++ decNat sb.length : List UInt8).length > maxIntBuf) := by
    simp only [List.nil_append, maxIntBuf]
    omega
  have hdigc : ¬ (isDigit colonTok = true ∨ colonTok = minusTok) := by decide
  have hs3 : step input
      (Cfg.mk (p + (decNat sb.length).length) (p + (decNat sb.length).length) .int
        ((ns ++ [sctx]) ++ [.str]) [] 0 ([] ++ decNat sb.length)
        ks vs its dst lst dh lh di li) =
      .ok (Cfg.mk (p + (decNat sb.length).length) (p + (decNat sb.length).length) .str
        (ns ++ [sctx]) [] 0 ([] ++ decNat sb.length)
        ks vs its dst lst dh lh di li) := by
    simp only [step, List.get?_eq_getElem?, hget1, if_neg hdigc, if_neg hne0,
      if_neg hbig, vpop_append_singleton]
  have hdrop3 : input.drop (p + (decNat sb.length).length + 1) = sb ++ rest := by
    have h := drop_shift (show input.drop (p + (decNat sb.length).length) =
      [colonTok] ++ (sb ++ rest) from hddrop2)
    simpa using h
  have hlen2 := length_ge_of_drop
    (show input.drop (p + (decNat sb.length).length) = [colonTok] ++ (sb ++ rest)
      from hddrop2) (le_of_lt hlt2)
  simp only [List.length_append, List.length_cons, List.length_nil] at hlen2
  have hnotover :
      ¬ (p + (decNat sb.length).length + 1 + sb.length > input.length) := by
    omega
  have hpu : parseU64 ([] ++ decNat sb.length) = some sb.length := by
    rw [List.nil_append]
    exact parseU64_decNat hlen
  have htake : ([] : List UInt8) ++
      (input.drop (p + (decNat sb.length).length + 1)).take sb.length = sb := by
    rw [List.nil_append, hdrop3, List.take_left]
  have hs4 : step input
      (Cfg.mk (p + (decNat sb.length).length) (p + (decNat sb.length).length) .str
        (ns ++ [sctx]) [] 0 ([] ++ decNat sb.length)
        ks vs its dst lst dh lh di li) =
      .ok (Cfg.mk (p + (decNat sb.length).length + 1 + sb.length)
        (p + (decNat sb.length).length + 1 + sb.length) sctx ns sb 0 []
        ks vs its dst lst dh lh di li) := by
    simp only [step, List.get?_eq_getElem?, hget1, if_neg hne0, hpu,
      if_neg hnotover, vpop_append_singleton, htake]
    simp
  exact Steps.head hp1 hs1 (hs2.trans (Steps.head hlt2 hs3 (Steps.single hlt2 hs4)))

end Bencedit

namespace Bencedit

/-! ## Shape of encoded values -/

theorem WFkey_elim {k : Value} (h : Value.WFkey k = true) :
    ∃ kb : List UInt8, kb ≠ [] ∧ kb.length < 2 ^ 64 ∧ str_or_bytes kb = k ∧
      Value.enc k = decNat kb.length ++ colonTok :: kb := by
  cases k with
  | str s =>
    simp only [Value.WFkey, Bool.and_eq_true, Bool.not_eq_true', List.isEmpty_eq_false,
      decide_eq_true_eq] at h
    exact ⟨s, h.1.1, h.2, by simp [str_or_bytes, h.1.2], rfl⟩
  | bytes b =>
    simp only [Value.WFkey, Bool.and_eq_true, Bool.not_eq_true', List.isEmpty_eq_false,
      decide_eq_true_eq] at h
    exact ⟨b, h.1.1, h.2, by simp [str_or_bytes, h.1.2], rfl⟩
  | int n => simp [Value.WFkey] at h
  | dict m => simp [Value.WFkey] at h
  | list l => simp [Value.WFkey] at h
  | dictRef n => simp [Value.WFkey] at h
  | listRef n => simp [Value.WFkey] at h

theorem enc_head_ne {v : Value} (h : Value.WF v = true) :
    ∃ c cs, Value.enc v = c :: cs ∧ c ≠ eTok ∧ c ≠ colonTok := by
  cases v with
  | int n => exact ⟨iTok, _, rfl, by decide, by decide⟩
  | str s =>
    obtain ⟨c, cs, hcs⟩ : ∃ c cs, decNat s.length = c :: cs := by
      cases hx : decNat s.length with
      | nil => exact absurd hx (decNat_ne_nil _)
      | cons c cs => exact ⟨c, cs, rfl⟩
    have hd : isDigit c = true :=
      head_digit_of_allDigits (hcs ▸ decNat_all_digits s.length)
    have hne := isDigit_ne_tok hd
    exact ⟨c, cs ++ colonTok :: s, by simp [Value.enc, hcs], hne.2.2.2.1, hne.2.2.2.2.1⟩
  | bytes b =>
    obtain ⟨c, cs, hcs⟩ : ∃ c cs, decNat b.length = c :: cs := by
      cases hx : decNat b.length with
      | nil => exact absurd hx (decNat_ne_nil _)
      | cons c cs => exact ⟨c, cs, rfl⟩
    have hd : isDigit c = true :=
      head_digit_of_allDigits (hcs ▸ decNat_all_digits b.length)
    have hne := isDigit_ne_tok hd
    exact ⟨c, cs ++ colonTok :: b, by simp [Value.enc, hcs], hne.2.2.2.1, hne.2.2.2.2.1⟩
  | dict m => exact ⟨dTok, _, rfl, by decide, by decide⟩
  | list l => exact ⟨lTok, _, rfl, by decide, by decide⟩
  | dictRef n => simp [Value.WF] at h
  | listRef n => simp [Value.WF] at h

theorem WFentries_append_single : ∀ {m : List (Value × Value)} {k v : Value},
    Value.WFentries m = true → Value.WFkey k = true → Value.WF v = true →
      Value.WFentries (m ++ [(k, v)]) = true := by
  intro m
  induction m with
  | nil => intro k v _ hk hv; simp [Value.WFentries, hk, hv]
  | cons q r ih =>
    obtain ⟨k0, v0⟩ := q
    intro k v hm hk hv
    simp only [Value.WFentries, Bool.and_eq_true] at hm
    simp only [List.cons_append, Value.WFentries, Bool.and_eq_true]
    exact ⟨hm.1, ih hm.2 hk hv⟩

/-! ## Parsing contracts

Each contract describes the machine's complete traversal of one
encoded fragment, with the value slot, the heaps and the cursor after
the fragment made explicit.  `VDc`/`VLc` cover one value in dict-value
and list-item position; `DBc`/`LBc` cover a dict body (up to and
including its closing `e`) and a list body. -/

def VDc (v : Value) : Prop :=
  ∀ (input : List UInt8) (p : Nat) (ns : List State)
    (ks : List (Option Value)) (VS : List (Option Value)) (u0 : Option Value)
    (its : List (Option Value)) (dst lst : List Nat)
    (dh : List (List (Value × Value))) (lh : List (List Value)) (li : Int)
    (rest : List UInt8),
    Value.WF v = true →
    input.drop p = Value.enc v ++ rest →
    rest ≠ [] →
    ks.length = VS.length + 1 →
    dst.length = VS.length + 1 →
    li + 1 = (its.length : Int) →
    lst.length = its.length →
    ∃ w tD tL,
      Steps input
        (Cfg.mk p p .dictVal ns [] 0 [] ks (VS ++ [u0]) its dst lst dh lh
          (VS.length : Int) li)
        (Cfg.mk (p + (Value.enc v).length) (p + (Value.enc v).length) .dictFlush ns
          [] 0 [] ks (VS ++ [some w]) its dst lst (dh ++ tD) (lh ++ tL)
          (VS.length : Int) li) ∧
      unrefIn (dh ++ tD) (lh ++ tL) w = some v

def VLc (v : Value) : Prop :=
  ∀ (input : List UInt8) (p : Nat) (ns : List State)
    (ks vs : List (Option Value)) (IS : List (Option Value)) (i0 : Option Value)
    (dst lst : List Nat)
    (dh : List (List (Value × Value))) (lh : List (List Value)) (di : Int)
    (rest : List UInt8),
    Value.WF v = true →
    input.drop p = Value.enc v ++ rest →
    rest ≠ [] →
    ks.length = vs.length →
    dst.length = vs.length →
    di + 1 = (ks.length : Int) →
    lst.length = IS.length + 1 →
    ∃ w tD tL,
      Steps input
        (Cfg.mk p p .listVal ns [] 0 [] ks vs (IS ++ [i0]) dst lst dh lh di
          (IS.length : Int))
        (Cfg.mk (p + (Value.enc v).length) (p + (Value.enc v).length) .listFlush ns
          [] 0 [] ks vs (IS ++ [some w]) dst lst (dh ++ tD) (lh ++ tL) di
          (IS.length : Int)) ∧
      unrefIn (dh ++ tD) (lh ++ tL) w = some v

def DBc (m : List (Value × Value)) : Prop :=
  ∀ (input : List UInt8) (p : Nat) (NS : List State) (sctx : State)
    (KS : List (Option Value)) (k0 : Option Value)
    (VS : List (Option Value)) (u0 : Option Value)
    (DS : List Nat) (d : Nat) (its : List (Option Value)) (lst : List Nat)
    (dh : List (List (Value × Value))) (lh : List (List Value)) (li : Int)
    (acc : List (Value × Value)) (rest : List UInt8),
    Value.WFentries m = true →
    Value.WFentries acc = true →
    Value.sortedEnt (acc ++ m) = true →
    input.drop p = Value.encEntries m ++ eTok :: rest →
    KS.length = VS.length →
    DS.length = VS.length →
    li + 1 = (its.length : Int) →
    lst.length = its.length →
    d < dh.length →
    dh.get? d = some acc →
    ∃ k1 u1 tD tL,
      Steps input
        (Cfg.mk p p .dictKey (NS ++ [sctx]) [] 0 [] (KS ++ [k0]) (VS ++ [u0]) its
          (DS ++ [d]) lst dh lh (KS.length : Int) li)
        (Cfg.mk (p + (Value.encEntries m).length + 1)
          (p + (Value.encEntries m).length + 1) sctx NS [] 0 []
          (KS ++ [k1]) (VS ++ [u1]) its (DS ++ [d]) lst
          ((dh.set d (acc ++ m)) ++ tD) (lh ++ tL) (KS.length : Int) li)

def LBc (items : List Value) : Prop :=
  ∀ (input : List UInt8) (p : Nat) (NS : List State) (sctx : State)
    (ks vs : List (Option Value)) (IS : List (Option Value)) (i0 : Option Value)
    (LS : List Nat) (lcell : Nat) (dst : List Nat)
    (dh : List (List (Value × Value))) (lh : List (List Value)) (di : Int)
    (acc : List Value) (rest : List UInt8),
    Value.WFlist items = true →
    input.drop p = Value.encList items ++ eTok :: rest →
    ks.length = vs.length →
    dst.length = vs.length →
    di + 1 = (ks.length : Int) →
    LS.length = IS.length →
    lcell < lh.length →
    lh.get? lcell = some acc →
    ∃ i1 tD tL,
      Steps input
        (Cfg.mk p p .listVal (NS ++ [sctx]) [] 0 [] ks vs (IS ++ [i0]) dst
          (LS ++ [lcell]) dh lh di (IS.length : Int))
        (Cfg.mk (p + (Value.encList items).length + 1)
          (p + (Value.encList items).length + 1) sctx NS [] 0 [] ks vs (IS ++ [i1]) dst
          (LS ++ [lcell]) (dh ++ tD) ((lh.set lcell (acc ++ items)) ++ tL)
          di (IS.length : Int))

end Bencedit

namespace Bencedit

theorem parse_DB_nil : DBc [] := by
  intro input p NS sctx KS k0 VS u0 DS d its lst dh lh li acc rest
  intro _ _ _ hdrop hKS hDS hli _ hd hcell
  simp only [Value.encEntries, List.nil_append] at hdrop
  have hget : input[p]? = some eTok := get?_of_drop_cons hdrop
  have hlt : p < input.length := lt_length_of_drop_cons hdrop
  have hs1 : step input
      (Cfg.mk p p .dictKey (NS ++ [sctx]) [] 0 [] (KS ++ [k0]) (VS ++ [u0]) its
        (DS ++ [d]) lst dh lh (KS.length : Int) li) =
      .ok (Cfg.mk (p + 1) (p + 1) sctx NS [] 0 [] (KS ++ [k0]) (VS ++ [u0]) its
        (DS ++ [d]) lst dh lh (KS.length : Int) li) := by
    simp only [step, List.get?_eq_getElem?, hget, vpop_append_singleton]
    simp
  refine ⟨k0, u0, [], [], ?_⟩
  have hcell2 : dh[d]? = some acc := by simpa [List.get?_eq_getElem?] using hcell
  have heq : dh.set d acc = dh := set_eq_self_of_get? dh d acc hcell2
  simp only [Value.encEntries, List.length_nil, Nat.add_zero, List.append_nil, heq]
  exact Steps.single hlt hs1

theorem parse_LB_nil : LBc [] := by
  intro input p NS sctx ks vs IS i0 LS lcell dst dh lh di acc rest
  intro _ hdrop hks hdst hdi _ hl hcell
  simp only [Value.encList, List.nil_append] at hdrop
  have hget : input[p]? = some eTok := get?_of_drop_cons hdrop
  have hlt : p < input.length := lt_length_of_drop_cons hdrop
  have hs1 : step input
      (Cfg.mk p p .listVal (NS ++ [sctx]) [] 0 [] ks vs (IS ++ [i0]) dst
        (LS ++ [lcell]) dh lh di (IS.length : Int)) =
      .ok (Cfg.mk (p + 1) (p + 1) sctx NS [] 0 [] ks vs (IS ++ [i0]) dst
        (LS ++ [lcell]) dh lh di (IS.length : Int)) := by
    simp only [step, List.get?_eq_getElem?, hget, vpop_append_singleton]
    simp
  refine ⟨i0, [], [], ?_⟩
  have hcell2 : lh[lcell]? = some acc := by simpa [List.get?_eq_getElem?] using hcell
  have heq : lh.set lcell acc = lh := set_eq_self_of_get? lh lcell acc hcell2
  simp only [Value.encList, List.length_nil, Nat.add_zero, List.append_nil, heq]
  exact Steps.single hlt hs1

end Bencedit

namespace Bencedit

/-- `State::Int` consumes the rendered integer body (optional minus
then digits), accumulating it in `buf_int`. -/
theorem steps_int_body {input : List UInt8} {p : Nat} {m : Int} {ns : List State}
    (bstr : List UInt8) (brem : Nat) (ks vs its : List (Option Value))
    (dst lst : List Nat) (dh : List (List (Value × Value))) (lh : List (List Value))
    (di li : Int) (rest : List UInt8)
    (hdrop : input.drop p = decInt m ++ rest) :
    Steps input (Cfg.mk p p .int ns bstr brem [] ks vs its dst lst dh lh di li)
      (Cfg.mk (p + (decInt m).length) (p + (decInt m).length) .int ns bstr brem
        (decInt m) ks vs its dst lst dh lh di li) := by
  have hdigAll : ∀ c ∈ decNat m.natAbs, isDigit c = true := by
    have h := decNat_all_digits m.natAbs
    simpa [allDigits, List.all_eq_true] using h
  by_cases hm : m < 0
  · have hdec : decInt m = minusTok :: decNat m.natAbs := by
      rw [decInt, if_pos hm]
    rw [hdec] at hdrop
    have hget : input[p]? = some minusTok := get?_of_drop_cons (by simpa using hdrop)
    have hlt : p < input.length := lt_length_of_drop_cons (by simpa using hdrop)
    have hs1 : step input
        (Cfg.mk p p .int ns bstr brem [] ks vs its dst lst dh lh di li) =
        .ok (Cfg.mk (p + 1) (p + 1) .int ns bstr brem [minusTok]
          ks vs its dst lst dh lh di li) := by
      simp [step, hget]
    have hdrop1 : input.drop (p + 1) =
        decNat m.natAbs ++ input.drop (p + 1 + (decNat m.natAbs).length) := by
      have h2 := drop_shift (show input.drop p =
        [minusTok] ++ (decNat m.natAbs ++ rest) from by simpa using hdrop)
      simp only [List.length_cons, List.length_nil] at h2
      have h3 := drop_shift (show input.drop (p + 1) =
        decNat m.natAbs ++ rest from h2)
      rw [h2, h3]
    have htail := steps_int_digits (decNat m.natAbs) (p + 1) ns bstr brem [minusTok]
      ks vs its dst lst dh lh di li hdigAll hdrop1
    have h1 : p + 1 + (decNat m.natAbs).length = p + (decInt m).length := by
      rw [hdec]
      simp
      omega
    have h2 : ([minusTok] : List UInt8) ++ decNat m.natAbs = decInt m := by
      rw [hdec]
      rfl
    rw [h1, h2] at htail
    exact Steps.head hlt hs1 htail
  · have hdec : decInt m = decNat m.natAbs := by
      rw [decInt, if_neg hm]
    rw [hdec] at hdrop ⊢
    have hdrop1 : input.drop p =
        decNat m.natAbs ++ input.drop (p + (decNat m.natAbs).length) := by
      have h3 := drop_shift hdrop
      rw [hdrop, h3]
    have htail := steps_int_digits (decNat m.natAbs) p ns bstr brem []
      ks vs its dst lst dh lh di li hdigAll hdrop1
    simpa using htail

end Bencedit

namespace Bencedit

/-- In dict-value position an encoded integer is consumed: dispatch on
`i`, the digit run, the `e` terminator, then `DictValInt` installs the
parsed value in the slot. -/
theorem parse_VD_int (m : Int) : VDc (.int m) := by
  intro input p ns ks VS u0 its dst lst dh lh li rest hWF hdrop _ hks hdst hli _
  simp only [Value.WF, Bool.and_eq_true, decide_eq_true_eq] at hWF
  have hdrop' : input.drop p = iTok :: (decInt m ++ (eTok :: rest)) := by
    simpa [Value.enc] using hdrop
  have hget0 : input[p]? = some iTok := get?_of_drop_cons hdrop'
  have hlt0 : p < input.length := lt_length_of_drop_cons hdrop'
  have hs1 : step input
      (Cfg.mk p p .dictVal ns [] 0 [] ks (VS ++ [u0]) its dst lst dh lh
        (VS.length : Int) li) =
      .ok (Cfg.mk (p + 1) (p + 1) .int (ns ++ [.dictValInt]) [] 0 [] ks (VS ++ [u0])
        its dst lst dh lh (VS.length : Int) li) := by
    simp [step, hget0, iTok, dTok, lTok, eTok, colonTok, vpush]
  have hdrop1 : input.drop (p + 1) = decInt m ++ (eTok :: rest) := by
    have h := drop_shift (show input.drop p = [iTok] ++ (decInt m ++ (eTok :: rest))
      from by simpa using hdrop')
    simpa using h
  have hs2 := @steps_int_body input (p + 1) m (ns ++ [State.dictValInt]) [] 0
    ks (VS ++ [u0]) its dst lst dh lh (VS.length : Int) li (eTok :: rest) hdrop1
  have hdrop2 : input.drop (p + 1 + (decInt m).length) = eTok :: rest :=
    drop_shift hdrop1
  have hget2 : input[p + 1 + (decInt m).length]? = some eTok := get?_of_drop_cons hdrop2
  have hlt2 : p + 1 + (decInt m).length < input.length := lt_length_of_drop_cons hdrop2
  have hne : decInt m ≠ [] := decInt_ne_nil m
  have hlen20 := decInt_length_le hWF.1 hWF.2
  have hcond1 : ¬ (isDigit eTok = true ∨ eTok = minusTok) := by decide
  have hcond2 : ¬ ((decInt m).length = 0) := by
    have := List.length_pos.mpr hne
    omega
  have hcond3 : ¬ ((decInt m).length > maxIntBuf) := by
    simp only [maxIntBuf]
    omega
  have hs3 : step input
      (Cfg.mk (p + 1 + (decInt m).length) (p + 1 + (decInt m).length) .int
        (ns ++ [.dictValInt]) [] 0 (decInt m) ks (VS ++ [u0]) its dst lst dh lh
        (VS.length : Int) li) =
      .ok (Cfg.mk (p + 1 + (decInt m).length) (p + 1 + (decInt m).length) .dictValInt
        ns [] 0 (decInt m) ks (VS ++ [u0]) its dst lst dh lh (VS.length : Int) li) := by
    simp only [step, List.get?_eq_getElem?, hget2, if_neg hcond1, if_neg hcond2,
      if_neg hcond3, vpop_append_singleton]
  have hpu : parseI64 (decInt m) = some m := parseI64_decInt hWF.1 hWF.2
  have hvset := vset_last VS u0 (some (Value.int m)) (VS.length : Int) rfl
  have hs4 : step input
      (Cfg.mk (p + 1 + (decInt m).length) (p + 1 + (decInt m).length) .dictValInt
        ns [] 0 (decInt m) ks (VS ++ [u0]) its dst lst dh lh (VS.length : Int) li) =
      .ok (Cfg.mk (p + 1 + (decInt m).length + 1) (p + 1 + (decInt m).length + 1)
        .dictFlush ns [] 0 [] ks (VS ++ [some (.int m)]) its dst lst dh lh
        (VS.length : Int) li) := by
    simp only [step, List.get?_eq_getElem?, hget2, hpu, hvset]
    simp
  refine ⟨.int m, [], [], ?_, rfl⟩
  have hpos : p + (Value.enc (Value.int m)).length = p + 1 + (decInt m).length + 1 := by
    simp only [Value.enc, List.length_cons, List.length_append, List.length_nil]
    omega
  rw [hpos, List.append_nil, List.append_nil]
  exact Steps.head hlt0 hs1 (hs2.trans (Steps.head hlt2 hs3 (Steps.single hlt2 hs4)))

end Bencedit

namespace Bencedit

theorem lt_length_of_drop_ne_nil {α : Type} {l : List α} {n : Nat}
    (h : l.drop n ≠ []) : n < l.length := by
  by_contra hn
  exact h (List.drop_eq_nil_of_le (by omega))

/-- In dict-value position an encoded string body (text or binary) is
consumed: the digit head routes to `Str`, the body is collected, and
`DictValStr` installs `str_or_bytes` of the buffer in the slot. -/
theorem parse_VD_strlike {v : Value} (sb : List UInt8) (hlen : sb.length < 2 ^ 64)
    (hsov : str_or_bytes sb = v)
    (henc : Value.enc v = decNat sb.length ++ colonTok :: sb) : VDc v := by
  intro input p ns ks VS u0 its dst lst dh lh li rest hWF hdrop hrne hks hdst hli hlst
  rw [henc] at hdrop
  have hdrop' : input.drop p = decNat sb.length ++ colonTok :: (sb ++ rest) := by
    simpa [List.append_assoc] using hdrop
  obtain ⟨c, cs, hcs⟩ : ∃ c cs, decNat sb.length = c :: cs := by
    cases hx : decNat sb.length with
    | nil => exact absurd hx (decNat_ne_nil _)
    | cons c cs => exact ⟨c, cs, rfl⟩
  have hd : isDigit c = true :=
    head_digit_of_allDigits (hcs ▸ decNat_all_digits sb.length)
  have hne := isDigit_ne_tok hd
  have hdc : input.drop p = c :: (cs ++ colonTok :: (sb ++ rest)) := by
    rw [hdrop', hcs]
    rfl
  have hget0 : input[p]? = some c := get?_of_drop_cons hdc
  have hlt0 : p < input.length := lt_length_of_drop_cons hdc
  have hs1 : step input
      (Cfg.mk p p .dictVal ns [] 0 [] ks (VS ++ [u0]) its dst lst dh lh
        (VS.length : Int) li) =
      .ok (Cfg.mk p p .str (ns ++ [.dictValStr]) [] 0 [] ks (VS ++ [u0]) its dst lst
        dh lh (VS.length : Int) li) := by
    simp [step, hget0, hne.1, hne.2.1, hne.2.2.1, hne.2.2.2.1, hne.2.2.2.2.1, vpush]
  have hs2 := @steps_str input p sb ns State.dictValStr rest ks (VS ++ [u0]) its
    dst lst dh lh (VS.length : Int) li hlen hdrop'
  have h1 := drop_shift hdrop
  have h2 : p + (decNat sb.length ++ colonTok :: sb).length < input.length :=
    lt_length_of_drop_ne_nil (by rw [h1]; exact hrne)
  simp only [List.length_append, List.length_cons] at h2
  have hltP : p + (decNat sb.length).length + 1 + sb.length < input.length := by
    omega
  have hvset := vset_last VS u0 (some (str_or_bytes sb)) (VS.length : Int) rfl
  have hs3 : step input
      (Cfg.mk (p + (decNat sb.length).length + 1 + sb.length)
        (p + (decNat sb.length).length + 1 + sb.length) .dictValStr ns sb 0 [] ks
        (VS ++ [u0]) its dst lst dh lh (VS.length : Int) li) =
      .ok (Cfg.mk (p + (decNat sb.length).length + 1 + sb.length)
        (p + (decNat sb.length).length + 1 + sb.length) .dictFlush ns [] 0 [] ks
        (VS ++ [some v]) its dst lst dh lh (VS.length : Int) li) := by
    rw [hsov] at hvset
    simp [step, hsov, hvset]
  have hunref : unrefIn (dh ++ []) (lh ++ []) v = some v := by
    rw [← hsov]
    simp only [str_or_bytes]
    split <;> rfl
  have hpos : p + (Value.enc v).length =
      p + (decNat sb.length).length + 1 + sb.length := by
    rw [henc]
    simp only [List.length_append, List.length_cons]
    omega
  refine ⟨v, [], [], ?_, hunref⟩
  rw [hpos, List.append_nil, List.append_nil]
  exact Steps.head hlt0 hs1 (hs2.trans (Steps.single hltP hs3))

/-- Text-string instance of the dict-value contract. -/
theorem parse_VD_str (s : List UInt8) : VDc (.str s) := by
  intro input p ns ks VS u0 its dst lst dh lh li rest hWF hdrop hrne hks hdst hli hlst
  have hw := hWF
  simp only [Value.WF, Bool.and_eq_true, decide_eq_true_eq] at hw
  exact @parse_VD_strlike (.str s) s hw.2 (by simp [str_or_bytes, hw.1]) rfl input p ns ks VS u0
    its dst lst dh lh li rest hWF hdrop hrne hks hdst hli hlst

/-- Binary-string instance of the dict-value contract. -/
theorem parse_VD_bytes (b : List UInt8) : VDc (.bytes b) := by
  intro input p ns ks VS u0 its dst lst dh lh li rest hWF hdrop hrne hks hdst hli hlst
  have hw := hWF
  simp only [Value.WF, Bool.and_eq_true, Bool.not_eq_true', decide_eq_true_eq] at hw
  exact @parse_VD_strlike (.bytes b) b hw.2 (by simp [str_or_bytes, hw.1]) rfl input p ns ks VS u0
    its dst lst dh lh li rest hWF hdrop hrne hks hdst hli hlst

end Bencedit

namespace Bencedit

/-- In dict-value position an encoded child dict is consumed: the `d`
dispatch installs a `DictRef`, pushes a fresh cell and stack slots, the
dict-body contract fills the cell, and `DictValDict` pops back. -/
theorem parse_VD_dict {n : Nat} (hDB : ∀ m', esize m' ≤ n → DBc m')
    (m : List (Value × Value)) (hm : esize m ≤ n) : VDc (.dict m) := by
  intro input p ns ks VS u0 its dst lst dh lh li rest hWF hdrop hrne hks hdst hli hlst
  simp only [Value.WF, Bool.and_eq_true] at hWF
  have hdrop' : input.drop p = dTok :: (Value.encEntries m ++ (eTok :: rest)) := by
    simpa [Value.enc, List.append_assoc] using hdrop
  have hget0 : input[p]? = some dTok := get?_of_drop_cons hdrop'
  have hlt0 : p < input.length := lt_length_of_drop_cons hdrop'
  have hvset := vset_last VS u0 (some (Value.dictRef dh.length)) (VS.length : Int) rfl
  have hs1 : step input
      (Cfg.mk p p .dictVal ns [] 0 [] ks (VS ++ [u0]) its dst lst dh lh
        (VS.length : Int) li) =
      .ok (Cfg.mk (p + 1) (p + 1) .dictKey (ns ++ [.dictValDict]) [] 0 []
        (ks ++ [none]) ((VS ++ [some (Value.dictRef dh.length)]) ++ [none]) its
        (dst ++ [dh.length]) lst (dh ++ [[]]) lh ((VS.length : Int) + 1) li) := by
    simp [step, hget0, hvset, vpush]
  have hdrop1 : input.drop (p + 1) = Value.encEntries m ++ eTok :: rest := by
    have h := drop_shift (show input.drop p =
      [dTok] ++ (Value.encEntries m ++ (eTok :: rest)) from by simpa using hdrop')
    simpa using h
  have hcell : (dh ++ [[]]).get? dh.length = some [] := by
    simpa [List.get?_eq_getElem?] using getElem?_append_length dh [] []
  have hDBi := hDB m hm input (p + 1) ns .dictValDict ks none
    (VS ++ [some (Value.dictRef dh.length)]) none dst dh.length its lst
    (dh ++ [[]]) lh li [] rest hWF.1 rfl (by simpa using hWF.2) hdrop1
    (by simpa using hks) (by simpa using hdst) hli hlst (by simp) hcell
  obtain ⟨k1, u1, tD, tL, hDBs⟩ := hDBi
  have hcast : (ks.length : Int) = (VS.length : Int) + 1 := by omega
  rw [hcast] at hDBs
  have hheap : (dh ++ [[]]).set dh.length ([] ++ m) = dh ++ [m] := by
    rw [List.nil_append]
    exact set_length_append dh [] [] m
  rw [hheap] at hDBs
  have hplen : (Value.enc (Value.dict m)).length = (Value.encEntries m).length + 2 := by
    simp [Value.enc]
  have h1 := drop_shift hdrop
  have hltP2 : p + 1 + (Value.encEntries m).length + 1 < input.length := by
    have h2 : p + (Value.enc (Value.dict m)).length < input.length :=
      lt_length_of_drop_ne_nil (by rw [h1]; exact hrne)
    omega
  have hvset2 := vset_last (VS ++ [some (Value.dictRef dh.length)]) u1
    (some (Value.dictRef dh.length)) ((VS.length : Int) + 1) (by simp)
  simp only [List.append_assoc, List.cons_append, List.nil_append] at hvset2
  have hvpop3 : vpop (VS ++ [some (Value.dictRef dh.length),
      some (Value.dictRef dh.length)]) =
      some (VS ++ [some (Value.dictRef dh.length)], some (Value.dictRef dh.length)) := by
    simpa using vpop_append_singleton (VS ++ [some (Value.dictRef dh.length)])
      (some (Value.dictRef dh.length))
  have hs3 : step input
      (Cfg.mk (p + 1 + (Value.encEntries m).length + 1)
        (p + 1 + (Value.encEntries m).length + 1) .dictValDict ns [] 0 []
        (ks ++ [k1]) ((VS ++ [some (Value.dictRef dh.length)]) ++ [u1]) its
        (dst ++ [dh.length]) lst ((dh ++ [m]) ++ tD) (lh ++ tL)
        ((VS.length : Int) + 1) li) =
      .ok (Cfg.mk (p + 1 + (Value.encEntries m).length + 1)
        (p + 1 + (Value.encEntries m).length + 1) .dictFlush ns [] 0 [] ks
        (VS ++ [some (Value.dictRef dh.length)]) its dst lst ((dh ++ [m]) ++ tD)
        (lh ++ tL) (VS.length : Int) li) := by
    simp [step, vpop_append_singleton, hvset2, hvpop3]
  have hunref : unrefIn (dh ++ m :: tD) (lh ++ tL) (Value.dictRef dh.length) =
      some (Value.dict m) := by
    have hg : (dh ++ m :: tD).get? dh.length = some m := by
      simpa [List.get?_eq_getElem?] using getElem?_append_length dh m tD
    show ((dh ++ m :: tD).get? dh.length).map Value.dict = some (Value.dict m)
    rw [hg]
    rfl
  refine ⟨Value.dictRef dh.length, m :: tD, tL, ?_, hunref⟩
  have hpos : p + (Value.enc (Value.dict m)).length =
      p + 1 + (Value.encEntries m).length + 1 := by
    omega
  rw [hpos]
  have hassoc : (dh ++ [m]) ++ tD = dh ++ m :: tD := by
    simp
  rw [← hassoc]
  exact Steps.head hlt0 hs1 (hDBs.trans (Steps.single hltP2 hs3))

end Bencedit

namespace Bencedit

/-- In dict-value position an encoded child list is consumed: the `l`
dispatch installs a `ListRef`, pushes a fresh cell and an item slot, the
list-body contract fills the cell, and `DictValList` pops back. -/
theorem parse_VD_list {n : Nat} (hLB : ∀ l', lsize l' ≤ n → LBc l')
    (l : List Value) (hl : lsize l ≤ n) : VDc (.list l) := by
  intro input p ns ks VS u0 its dst lst dh lh li rest hWF hdrop hrne hks hdst hli hlst
  simp only [Value.WF] at hWF
  have hdrop' : input.drop p = lTok :: (Value.encList l ++ (eTok :: rest)) := by
    simpa [Value.enc, List.append_assoc] using hdrop
  have hget0 : input[p]? = some lTok := get?_of_drop_cons hdrop'
  have hlt0 : p < input.length := lt_length_of_drop_cons hdrop'
  have hvset := vset_last VS u0 (some (Value.listRef lh.length)) (VS.length : Int) rfl
  have hs1 : step input
      (Cfg.mk p p .dictVal ns [] 0 [] ks (VS ++ [u0]) its dst lst dh lh
        (VS.length : Int) li) =
      .ok (Cfg.mk (p + 1) (p + 1) .listVal (ns ++ [.dictValList]) [] 0 []
        ks (VS ++ [some (Value.listRef lh.length)]) (its ++ [none]) dst
        (lst ++ [lh.length]) dh (lh ++ [[]]) (VS.length : Int) (li + 1)) := by
    simp [step, hget0, hvset, vpush, lTok, dTok, iTok, eTok, colonTok]
  have hdrop1 : input.drop (p + 1) = Value.encList l ++ eTok :: rest := by
    have h := drop_shift (show input.drop p =
      [lTok] ++ (Value.encList l ++ (eTok :: rest)) from by simpa using hdrop')
    simpa using h
  have hcell : (lh ++ [[]]).get? lh.length = some [] := by
    simpa [List.get?_eq_getElem?] using getElem?_append_length lh [] []
  have hLBi := hLB l hl input (p + 1) ns .dictValList ks
    (VS ++ [some (Value.listRef lh.length)]) its none lst lh.length dst
    dh (lh ++ [[]]) (VS.length : Int) [] rest hWF hdrop1
    (by simpa using hks) (by simpa using hdst) (by omega) hlst (by simp) hcell
  obtain ⟨i1, tD, tL, hLBs⟩ := hLBi
  rw [← hli] at hLBs
  have hheap : (lh ++ [[]]).set lh.length ([] ++ l) = lh ++ [l] := by
    rw [List.nil_append]
    exact set_length_append lh [] [] l
  rw [hheap] at hLBs
  have hplen : (Value.enc (Value.list l)).length = (Value.encList l).length + 2 := by
    simp [Value.enc]
  have h1 := drop_shift hdrop
  have hltP2 : p + 1 + (Value.encList l).length + 1 < input.length := by
    have h2 : p + (Value.enc (Value.list l)).length < input.length :=
      lt_length_of_drop_ne_nil (by rw [h1]; exact hrne)
    omega
  have hvset2 := vset_last VS (some (Value.listRef lh.length))
    (some (Value.listRef lh.length)) (VS.length : Int) rfl
  have hs3 : step input
      (Cfg.mk (p + 1 + (Value.encList l).length + 1)
        (p + 1 + (Value.encList l).length + 1) .dictValList ns [] 0 []
        ks (VS ++ [some (Value.listRef lh.length)]) (its ++ [i1]) dst
        (lst ++ [lh.length]) (dh ++ tD) ((lh ++ [l]) ++ tL)
        (VS.length : Int) (li + 1)) =
      .ok (Cfg.mk (p + 1 + (Value.encList l).length + 1)
        (p + 1 + (Value.encList l).length + 1) .dictFlush ns [] 0 [] ks
        (VS ++ [some (Value.listRef lh.length)]) its dst lst (dh ++ tD)
        ((lh ++ [l]) ++ tL) (VS.length : Int) li) := by
    simp [step, vpop_append_singleton, hvset2]
  have hunref : unrefIn (dh ++ tD) (lh ++ l :: tL) (Value.listRef lh.length) =
      some (Value.list l) := by
    have hg : (lh ++ l :: tL).get? lh.length = some l := by
      simpa [List.get?_eq_getElem?] using getElem?_append_length lh l tL
    show ((lh ++ l :: tL).get? lh.length).map Value.list = some (Value.list l)
    rw [hg]
    rfl
  refine ⟨Value.listRef lh.length, tD, l :: tL, ?_, hunref⟩
  have hpos : p + (Value.enc (Value.list l)).length =
      p + 1 + (Value.encList l).length + 1 := by
    omega
  rw [hpos]
  have hassoc : (lh ++ [l]) ++ tL = lh ++ l :: tL := by
    simp
  rw [← hassoc]
  exact Steps.head hlt0 hs1 (hLBs.trans (Steps.single hltP2 hs3))

end Bencedit

namespace Bencedit

/-- In list-item position an encoded integer is consumed into the item
slot via `ListValInt`. -/
theorem parse_VL_int (m : Int) : VLc (.int m) := by
  intro input p ns ks vs IS i0 dst lst dh lh di rest hWF hdrop hrne hks hdst hdi hlst
  simp only [Value.WF, Bool.and_eq_true, decide_eq_true_eq] at hWF
  have hdrop' : input.drop p = iTok :: (decInt m ++ (eTok :: rest)) := by
    simpa [Value.enc] using hdrop
  have hget0 : input[p]? = some iTok := get?_of_drop_cons hdrop'
  have hlt0 : p < input.length := lt_length_of_drop_cons hdrop'
  have hs1 : step input
      (Cfg.mk p p .listVal ns [] 0 [] ks vs (IS ++ [i0]) dst lst dh lh di
        (IS.length : Int)) =
      .ok (Cfg.mk (p + 1) (p + 1) .int (ns ++ [.listValInt]) [] 0 [] ks vs
        (IS ++ [i0]) dst lst dh lh di (IS.length : Int)) := by
    simp [step, hget0, iTok, dTok, lTok, eTok, colonTok, vpush]
  have hdrop1 : input.drop (p + 1) = decInt m ++ (eTok :: rest) := by
    have h := drop_shift (show input.drop p = [iTok] ++ (decInt m ++ (eTok :: rest))
      from by simpa using hdrop')
    simpa using h
  have hs2 := @steps_int_body input (p + 1) m (ns ++ [State.listValInt]) [] 0
    ks vs (IS ++ [i0]) dst lst dh lh di (IS.length : Int) (eTok :: rest) hdrop1
  have hdrop2 : input.drop (p + 1 + (decInt m).length) = eTok :: rest :=
    drop_shift hdrop1
  have hget2 : input[p + 1 + (decInt m).length]? = some eTok := get?_of_drop_cons hdrop2
  have hlt2 : p + 1 + (decInt m).length < input.length := lt_length_of_drop_cons hdrop2
  have hne : decInt m ≠ [] := decInt_ne_nil m
  have hlen20 := decInt_length_le hWF.1 hWF.2
  have hcond1 : ¬ (isDigit eTok = true ∨ eTok = minusTok) := by decide
  have hcond2 : ¬ ((decInt m).length = 0) := by
    have := List.length_pos.mpr hne
    omega
  have hcond3 : ¬ ((decInt m).length > maxIntBuf) := by
    simp only [maxIntBuf]
    omega
  have hs3 : step input
      (Cfg.mk (p + 1 + (decInt m).length) (p + 1 + (decInt m).length) .int
        (ns ++ [.listValInt]) [] 0 (decInt m) ks vs (IS ++ [i0]) dst lst dh lh
        di (IS.length : Int)) =
      .ok (Cfg.mk (p + 1 + (decInt m).length) (p + 1 + (decInt m).length) .listValInt
        ns [] 0 (decInt m) ks vs (IS ++ [i0]) dst lst dh lh di (IS.length : Int)) := by
    simp only [step, List.get?_eq_getElem?, hget2, if_neg hcond1, if_neg hcond2,
      if_neg hcond3, vpop_append_singleton]
  have hpu : parseI64 (decInt m) = some m := parseI64_decInt hWF.1 hWF.2
  have hvset := vset_last IS i0 (some (Value.int m)) (IS.length : Int) rfl
  have hs4 : step input
      (Cfg.mk (p + 1 + (decInt m).length) (p + 1 + (decInt m).length) .listValInt
        ns [] 0 (decInt m) ks vs (IS ++ [i0]) dst lst dh lh di (IS.length : Int)) =
      .ok (Cfg.mk (p + 1 + (decInt m).length + 1) (p + 1 + (decInt m).length + 1)
        .listFlush ns [] 0 [] ks vs (IS ++ [some (.int m)]) dst lst dh lh di
        (IS.length : Int)) := by
    simp only [step, List.get?_eq_getElem?, hget2, hpu, hvset]
    simp
  refine ⟨.int m, [], [], ?_, rfl⟩
  have hpos : p + (Value.enc (Value.int m)).length = p + 1 + (decInt m).length + 1 := by
    simp only [Value.enc, List.length_cons, List.length_append, List.length_nil]
    omega
  rw [hpos, List.append_nil, List.append_nil]
  exact Steps.head hlt0 hs1 (hs2.trans (Steps.head hlt2 hs3 (Steps.single hlt2 hs4)))

/-- In list-item position an encoded string body (text or binary) is
consumed and installed via `ListValStr`. -/
theorem parse_VL_strlike {v : Value} (sb : List UInt8) (hlen : sb.length < 2 ^ 64)
    (hsov : str_or_bytes sb = v)
    (henc : Value.enc v = decNat sb.length ++ colonTok :: sb) : VLc v := by
  intro input p ns ks vs IS i0 dst lst dh lh di rest hWF hdrop hrne hks hdst hdi hlst
  rw [henc] at hdrop
  have hdrop' : input.drop p = decNat sb.length ++ colonTok :: (sb ++ rest) := by
    simpa [List.append_assoc] using hdrop
  obtain ⟨c, cs, hcs⟩ : ∃ c cs, decNat sb.length = c :: cs := by
    cases hx : decNat sb.length with
    | nil => exact absurd hx (decNat_ne_nil _)
    | cons c cs => exact ⟨c, cs, rfl⟩
  have hd : isDigit c = true :=
    head_digit_of_allDigits (hcs ▸ decNat_all_digits sb.length)
  have hne := isDigit_ne_tok hd
  have hdc : input.drop p = c :: (cs ++ colonTok :: (sb ++ rest)) := by
    rw [hdrop', hcs]
    rfl
  have hget0 : input[p]? = some c := get?_of_drop_cons hdc
  have hlt0 : p < input.length := lt_length_of_drop_cons hdc
  have hs1 : step input
      (Cfg.mk p p .listVal ns [] 0 [] ks vs (IS ++ [i0]) dst lst dh lh di
        (IS.length : Int)) =
      .ok (Cfg.mk p p .str (ns ++ [.listValStr]) [] 0 [] ks vs (IS ++ [i0]) dst lst
        dh lh di (IS.length : Int)) := by
    simp [step, hget0, hne.1, hne.2.1, hne.2.2.1, hne.2.2.2.1, hne.2.2.2.2.1, vpush]
  have hs2 := @steps_str input p sb ns State.listValStr rest ks vs (IS ++ [i0])
    dst lst dh lh di (IS.length : Int) hlen hdrop'
  have h1 := drop_shift hdrop
  have h2 : p + (decNat sb.length ++ colonTok :: sb).length < input.length :=
    lt_length_of_drop_ne_nil (by rw [h1]; exact hrne)
  simp only [List.length_append, List.length_cons] at h2
  have hltP : p + (decNat sb.length).length + 1 + sb.length < input.length := by
    omega
  have hvset := vset_last IS i0 (some (str_or_bytes sb)) (IS.length : Int) rfl
  have hs3 : step input
      (Cfg.mk (p + (decNat sb.length).length + 1 + sb.length)
        (p + (decNat sb.length).length + 1 + sb.length) .listValStr ns sb 0 [] ks
        vs (IS ++ [i0]) dst lst dh lh di (IS.length : Int)) =
      .ok (Cfg.mk (p + (decNat sb.length).length + 1 + sb.length)
        (p + (decNat sb.length).length + 1 + sb.length) .listFlush ns [] 0 [] ks
        vs (IS ++ [some v]) dst lst dh lh di (IS.length : Int)) := by
    rw [hsov] at hvset
    simp [step, hsov, hvset]
  have hunref : unrefIn (dh ++ []) (lh ++ []) v = some v := by
    rw [← hsov]
    simp only [str_or_bytes]
    split <;> rfl
  have hpos : p + (Value.enc v).length =
      p + (decNat sb.length).length + 1 + sb.length := by
    rw [henc]
    simp only [List.length_append, List.length_cons]
    omega
  refine ⟨v, [], [], ?_, hunref⟩
  rw [hpos, List.append_nil, List.append_nil]
  exact Steps.head hlt0 hs1 (hs2.trans (Steps.single hltP hs3))

/-- Text-string instance of the list-item contract. -/
theorem parse_VL_str (s : List UInt8) : VLc (.str s) := by
  intro input p ns ks vs IS i0 dst lst dh lh di rest hWF hdrop hrne hks hdst hdi hlst
  have hw := hWF
  simp only [Value.WF, Bool.and_eq_true, decide_eq_true_eq] at hw
  exact @parse_VL_strlike (.str s) s hw.2 (by simp [str_or_bytes, hw.1]) rfl input p
    ns ks vs IS i0 dst lst dh lh di rest hWF hdrop hrne hks hdst hdi hlst

/-- Binary-string instance of the list-item contract. -/
theorem parse_VL_bytes (b : List UInt8) : VLc (.bytes b) := by
  intro input p ns ks vs IS i0 dst lst dh lh di rest hWF hdrop hrne hks hdst hdi hlst
  have hw := hWF
  simp only [Value.WF, Bool.and_eq_true, Bool.not_eq_true', decide_eq_true_eq] at hw
  exact @parse_VL_strlike (.bytes b) b hw.2 (by simp [str_or_bytes, hw.1]) rfl input p
    ns ks vs IS i0 dst lst dh lh di rest hWF hdrop hrne hks hdst hdi hlst

end Bencedit

namespace Bencedit

/-- In list-item position an encoded child dict is consumed: the `d`
dispatch installs a `DictRef` in the item slot, the dict-body contract
fills the fresh cell, and `ListValDict` stores the owned dict. -/
theorem parse_VL_dict {n : Nat} (hDB : ∀ m', esize m' ≤ n → DBc m')
    (m : List (Value × Value)) (hm : esize m ≤ n) : VLc (.dict m) := by
  intro input p ns ks vs IS i0 dst lst dh lh di rest hWF hdrop hrne hks hdst hdi hlst
  simp only [Value.WF, Bool.and_eq_true] at hWF
  have hdrop' : input.drop p = dTok :: (Value.encEntries m ++ (eTok :: rest)) := by
    simpa [Value.enc, List.append_assoc] using hdrop
  have hget0 : input[p]? = some dTok := get?_of_drop_cons hdrop'
  have hlt0 : p < input.length := lt_length_of_drop_cons hdrop'
  have hvset := vset_last IS i0 (some (Value.dictRef dh.length)) (IS.length : Int) rfl
  have hs1 : step input
      (Cfg.mk p p .listVal ns [] 0 [] ks vs (IS ++ [i0]) dst lst dh lh di
        (IS.length : Int)) =
      .ok (Cfg.mk (p + 1) (p + 1) .dictKey (ns ++ [.listValDict]) [] 0 []
        (ks ++ [none]) (vs ++ [none]) (IS ++ [some (Value.dictRef dh.length)])
        (dst ++ [dh.length]) lst (dh ++ [[]]) lh (di + 1) (IS.length : Int)) := by
    simp [step, hget0, hvset, vpush, dTok, eTok]
  have hdrop1 : input.drop (p + 1) = Value.encEntries m ++ eTok :: rest := by
    have h := drop_shift (show input.drop p =
      [dTok] ++ (Value.encEntries m ++ (eTok :: rest)) from by simpa using hdrop')
    simpa using h
  have hcell : (dh ++ [[]]).get? dh.length = some [] := by
    simpa [List.get?_eq_getElem?] using getElem?_append_length dh [] []
  have hDBi := hDB m hm input (p + 1) ns .listValDict ks none vs none dst dh.length
    (IS ++ [some (Value.dictRef dh.length)]) lst (dh ++ [[]]) lh (IS.length : Int)
    [] rest hWF.1 rfl (by simpa using hWF.2) hdrop1 hks hdst (by simp)
    (by simpa using hlst) (by simp) hcell
  obtain ⟨k1, u1, tD, tL, hDBs⟩ := hDBi
  rw [← hdi] at hDBs
  have hheap : (dh ++ [[]]).set dh.length ([] ++ m) = dh ++ [m] := by
    rw [List.nil_append]
    exact set_length_append dh [] [] m
  rw [hheap] at hDBs
  rw [show dh ++ [m] ++ tD = dh ++ m :: tD from by simp] at hDBs
  have hplen : (Value.enc (Value.dict m)).length = (Value.encEntries m).length + 2 := by
    simp [Value.enc]
  have h1 := drop_shift hdrop
  have hltP2 : p + 1 + (Value.encEntries m).length + 1 < input.length := by
    have h2 : p + (Value.enc (Value.dict m)).length < input.length :=
      lt_length_of_drop_ne_nil (by rw [h1]; exact hrne)
    omega
  have hgm : (dh ++ m :: tD)[dh.length]? = some m := getElem?_append_length dh m tD
  have hvset2 := vset_last IS (some (Value.dictRef dh.length))
    (some (Value.dict m)) (IS.length : Int) rfl
  have hs3 : step input
      (Cfg.mk (p + 1 + (Value.encEntries m).length + 1)
        (p + 1 + (Value.encEntries m).length + 1) .listValDict ns [] 0 []
        (ks ++ [k1]) (vs ++ [u1]) (IS ++ [some (Value.dictRef dh.length)])
        (dst ++ [dh.length]) lst (dh ++ m :: tD) (lh ++ tL) (di + 1)
        (IS.length : Int)) =
      .ok (Cfg.mk (p + 1 + (Value.encEntries m).length + 1)
        (p + 1 + (Value.encEntries m).length + 1) .listFlush ns [] 0 [] ks vs
        (IS ++ [some (Value.dict m)]) dst lst (dh ++ m :: tD) (lh ++ tL) di
        (IS.length : Int)) := by
    simp [step, vpop_append_singleton, hgm, hvset2, List.dropLast_concat]
  refine ⟨Value.dict m, m :: tD, tL, ?_, rfl⟩
  have hpos : p + (Value.enc (Value.dict m)).length =
      p + 1 + (Value.encEntries m).length + 1 := by
    omega
  rw [hpos]
  exact Steps.head hlt0 hs1 (hDBs.trans (Steps.single hltP2 hs3))

/-- In list-item position an encoded child list is consumed: the `l`
dispatch installs a `ListRef` in the item slot and pushes a fresh child
slot, the list-body contract fills the cell, and `ListValList` pops the
child slot, leaving the reference in place. -/
theorem parse_VL_list {n : Nat} (hLB : ∀ l', lsize l' ≤ n → LBc l')
    (l : List Value) (hl : lsize l ≤ n) : VLc (.list l) := by
  intro input p ns ks vs IS i0 dst lst dh lh di rest hWF hdrop hrne hks hdst hdi hlst
  simp only [Value.WF] at hWF
  have hdrop' : input.drop p = lTok :: (Value.encList l ++ (eTok :: rest)) := by
    simpa [Value.enc, List.append_assoc] using hdrop
  have hget0 : input[p]? = some lTok := get?_of_drop_cons hdrop'
  have hlt0 : p < input.length := lt_length_of_drop_cons hdrop'
  have hvset := vset_last IS i0 (some (Value.listRef lh.length)) (IS.length : Int) rfl
  have hs1 : step input
      (Cfg.mk p p .listVal ns [] 0 [] ks vs (IS ++ [i0]) dst lst dh lh di
        (IS.length : Int)) =
      .ok (Cfg.mk (p + 1) (p + 1) .listVal (ns ++ [.listValList]) [] 0 [] ks vs
        ((IS ++ [some (Value.listRef lh.length)]) ++ [none]) dst
        (lst ++ [lh.length]) dh (lh ++ [[]]) di ((IS.length : Int) + 1)) := by
    simp [step, hget0, hvset, vpush, lTok, dTok, eTok]
  have hdrop1 : input.drop (p + 1) = Value.encList l ++ eTok :: rest := by
    have h := drop_shift (show input.drop p =
      [lTok] ++ (Value.encList l ++ (eTok :: rest)) from by simpa using hdrop')
    simpa using h
  have hcell : (lh ++ [[]]).get? lh.length = some [] := by
    simpa [List.get?_eq_getElem?] using getElem?_append_length lh [] []
  have hLBi := hLB l hl input (p + 1) ns .listValList ks vs
    (IS ++ [some (Value.listRef lh.length)]) none lst lh.length dst dh
    (lh ++ [[]]) di [] rest hWF hdrop1 hks hdst hdi (by simpa using hlst)
    (by simp) hcell
  obtain ⟨i1, tD, tL, hLBs⟩ := hLBi
  rw [show ((IS ++ [some (Value.listRef lh.length)]).length : Int) =
    (IS.length : Int) + 1 from by simp] at hLBs
  have hheap : (lh ++ [[]]).set lh.length ([] ++ l) = lh ++ [l] := by
    rw [List.nil_append]
    exact set_length_append lh [] [] l
  rw [hheap] at hLBs
  rw [show lh ++ [l] ++ tL = lh ++ l :: tL from by simp] at hLBs
  have hplen : (Value.enc (Value.list l)).length = (Value.encList l).length + 2 := by
    simp [Value.enc]
  have h1 := drop_shift hdrop
  have hltP2 : p + 1 + (Value.encList l).length + 1 < input.length := by
    have h2 : p + (Value.enc (Value.list l)).length < input.length :=
      lt_length_of_drop_ne_nil (by rw [h1]; exact hrne)
    omega
  have hgm : (lh ++ l :: tL)[lh.length]? = some l := getElem?_append_length lh l tL
  have hvset2 := vset_last (IS ++ [some (Value.listRef lh.length)]) i1
    (some (Value.list l)) ((IS.length : Int) + 1) (by simp)
  simp only [List.append_assoc, List.cons_append, List.nil_append] at hvset2
  have hdl : (IS ++ [some (Value.listRef lh.length), some (Value.list l)]).dropLast =
      IS ++ [some (Value.listRef lh.length)] := by
    simp
  have hs3' : step input
      (Cfg.mk (p + 1 + (Value.encList l).length + 1)
        (p + 1 + (Value.encList l).length + 1) .listValList ns [] 0 [] ks vs
        ((IS ++ [some (Value.listRef lh.length)]) ++ [i1]) dst
        (lst ++ [lh.length]) (dh ++ tD) (lh ++ l :: tL) di
        ((IS.length : Int) + 1)) =
      .ok (Cfg.mk (p + 1 + (Value.encList l).length + 1)
        (p + 1 + (Value.encList l).length + 1) .listFlush ns [] 0 [] ks vs
        (IS ++ [some (Value.listRef lh.length)]) dst lst (dh ++ tD)
        (lh ++ l :: tL) di (IS.length : Int)) := by
    simp [step, vpop_append_singleton, hgm, hvset2, hdl]
  have hunref : unrefIn (dh ++ tD) (lh ++ l :: tL) (Value.listRef lh.length) =
      some (Value.list l) := by
    have hg : (lh ++ l :: tL).get? lh.length = some l := by
      simpa [List.get?_eq_getElem?] using getElem?_append_length lh l tL
    show ((lh ++ l :: tL).get? lh.length).map Value.list = some (Value.list l)
    rw [hg]
    rfl
  refine ⟨Value.listRef lh.length, tD, l :: tL, ?_, hunref⟩
  have hpos : p + (Value.enc (Value.list l)).length =
      p + 1 + (Value.encList l).length + 1 := by
    omega
  rw [hpos]
  exact Steps.head hlt0 hs1 (hLBs.trans (Steps.single hltP2 hs3'))

end Bencedit

namespace Bencedit

/-- Inductive step for dict bodies: one `(key, value)` entry is parsed
(key string, value fragment, `DictFlush` insertion) and the remainder
is handled by the smaller-body contract. -/
theorem parse_DB_of {n : Nat} (hVD : ∀ v, vsize v ≤ n → VDc v)
    (hDBn : ∀ m', esize m' ≤ n → DBc m') :
    ∀ m, esize m ≤ n + 1 → DBc m := by
  intro m hsz
  cases m with
  | nil => exact parse_DB_nil
  | cons q0 m' =>
    obtain ⟨k, v⟩ := q0
    intro input p NS sctx KS k0 VS u0 DS d its lst dh lh li acc rest
    intro hm hacc hsort hdrop hKS hDS hli hlst hd hcell
    have hszv : vsize v ≤ n := by
      have h1 := vsize_pos k
      simp only [esize] at hsz
      omega
    have hszm : esize m' ≤ n := by
      have h1 := vsize_pos k
      have h2 := vsize_pos v
      simp only [esize] at hsz
      omega
    simp only [Value.WFentries, Bool.and_eq_true] at hm
    obtain ⟨⟨hk, hv⟩, hm'⟩ := hm
    obtain ⟨kb, hkbne, hkblen, hkbsov, hkenc⟩ := WFkey_elim hk
    have hdropP : input.drop p = Value.enc k ++ (Value.enc v ++
        (Value.encEntries m' ++ (eTok :: rest))) := by
      simpa [Value.encEntries, List.append_assoc] using hdrop
    have hcast : (KS.length : Int) = (VS.length : Int) := by omega
    rw [hcast]
    have hdropK : input.drop p = decNat kb.length ++ colonTok :: (kb ++
        (Value.enc v ++ (Value.encEntries m' ++ (eTok :: rest)))) := by
      rw [hdropP, hkenc]
      simp [List.append_assoc]
    obtain ⟨c, cs, hcs⟩ : ∃ c cs, decNat kb.length = c :: cs := by
      cases hx : decNat kb.length with
      | nil => exact absurd hx (decNat_ne_nil _)
      | cons c cs => exact ⟨c, cs, rfl⟩
    have hd0 : isDigit c = true :=
      head_digit_of_allDigits (hcs ▸ decNat_all_digits kb.length)
    have hne := isDigit_ne_tok hd0
    have hdc : input.drop p = c :: (cs ++ colonTok :: (kb ++
        (Value.enc v ++ (Value.encEntries m' ++ (eTok :: rest))))) := by
      rw [hdropK, hcs]
      rfl
    have hget0 : input[p]? = some c := get?_of_drop_cons hdc
    have hlt0 : p < input.length := lt_length_of_drop_cons hdc
    have hs1 : step input
        (Cfg.mk p p .dictKey (NS ++ [sctx]) [] 0 [] (KS ++ [k0]) (VS ++ [u0]) its
          (DS ++ [d]) lst dh lh (VS.length : Int) li) =
        .ok (Cfg.mk p p .str ((NS ++ [sctx]) ++ [.dictKey]) [] 0 [] (KS ++ [k0])
          (VS ++ [u0]) its (DS ++ [d]) lst dh lh (VS.length : Int) li) := by
      simp [step, hget0, hne.2.2.2.1, vpush]
    have hs2 := @steps_str input p kb (NS ++ [sctx]) State.dictKey
      (Value.enc v ++ (Value.encEntries m' ++ (eTok :: rest))) (KS ++ [k0])
      (VS ++ [u0]) its (DS ++ [d]) lst dh lh (VS.length : Int) li hkblen hdropK
    have hq : p + (Value.enc k).length =
        p + (decNat kb.length).length + 1 + kb.length := by
      rw [hkenc]
      simp only [List.length_append, List.length_cons]
      omega
    rw [← hq] at hs2
    have hdropq : input.drop (p + (Value.enc k).length) =
        Value.enc v ++ (Value.encEntries m' ++ (eTok :: rest)) := drop_shift hdropP
    obtain ⟨c2, cs2, hc2, hc2e, _⟩ := enc_head_ne hv
    have hdq : input.drop (p + (Value.enc k).length) =
        c2 :: (cs2 ++ (Value.encEntries m' ++ (eTok :: rest))) := by
      rw [hdropq, hc2]
      rfl
    have hgetq : input[p + (Value.enc k).length]? = some c2 := get?_of_drop_cons hdq
    have hltq : p + (Value.enc k).length < input.length := lt_length_of_drop_cons hdq
    have hkbne' : ¬ (kb.length = 0) := by
      have := List.length_pos.mpr hkbne
      omega
    have hvsetk := vset_last KS k0 (some (str_or_bytes kb)) (VS.length : Int)
      (by omega)
    rw [hkbsov] at hvsetk
    have hs3 : step input
        (Cfg.mk (p + (Value.enc k).length) (p + (Value.enc k).length) .dictKey
          (NS ++ [sctx]) kb 0 [] (KS ++ [k0]) (VS ++ [u0]) its (DS ++ [d]) lst dh lh
          (VS.length : Int) li) =
        .ok (Cfg.mk (p + (Value.enc k).length) (p + (Value.enc k).length) .dictVal
          (NS ++ [sctx]) [] 0 [] (KS ++ [some k]) (VS ++ [u0]) its (DS ++ [d]) lst
          dh lh (VS.length : Int) li) := by
      simp [step, hgetq, hc2e, hkbne', hkbsov, hvsetk]
    have hVDc := hVD v hszv input (p + (Value.enc k).length) (NS ++ [sctx])
      (KS ++ [some k]) VS u0 its (DS ++ [d]) lst dh lh li
      (Value.encEntries m' ++ (eTok :: rest)) hv hdropq (by simp)
      (by simp [hKS]) (by simp [hDS]) hli hlst
    obtain ⟨w, tD1, tL1, hVDs, hunref1⟩ := hVDc
    have hdropr : input.drop (p + (Value.enc k).length + (Value.enc v).length) =
        Value.encEntries m' ++ (eTok :: rest) := drop_shift hdropq
    have hgk : vget (KS ++ [some k]) (VS.length : Int) = some (some k) :=
      vget_last_of_eq KS (some k) _ (by omega)
    have hgv : vget (VS ++ [some w]) (VS.length : Int) = some (some w) :=
      vget_last VS (some w)
    have hgd : vget (DS ++ [d]) (VS.length : Int) = some d :=
      vget_last_of_eq DS d _ (by omega)
    have hcellr : (dh ++ tD1)[d]? = some acc := by
      rw [getElem?_append_left_of_lt dh tD1 d hd]
      simpa [List.get?_eq_getElem?] using hcell
    have hgt : ∀ q2 ∈ acc, Value.cmp k q2.1 = .gt := by
      intro q2 hq2
      have hlt := sortedEnt_append_mid hsort q2 hq2
      have hkq := (WFentries_mem hacc q2 hq2).1
      rw [key_cmp_swap hkq hk, hlt]
      rfl
    have hbt : btreeInsert acc k v = acc ++ [(k, v)] := btreeInsert_append acc k v hgt
    have hset1 : (dh ++ tD1).set d (btreeInsert acc k v) =
        dh.set d (acc ++ [(k, v)]) ++ tD1 := by
      rw [hbt]
      exact set_append_left_of_lt dh tD1 d _ hd
    cases m' with
    | nil =>
      have hdre : input.drop (p + (Value.enc k).length + (Value.enc v).length) =
          eTok :: rest := by
        simpa [Value.encEntries] using hdropr
      have hgete : input[p + (Value.enc k).length + (Value.enc v).length]? =
          some eTok := get?_of_drop_cons hdre
      have hlte : p + (Value.enc k).length + (Value.enc v).length < input.length :=
        lt_length_of_drop_cons hdre
      have hs5 : step input
          (Cfg.mk (p + (Value.enc k).length + (Value.enc v).length)
            (p + (Value.enc k).length + (Value.enc v).length) .dictFlush
            (NS ++ [sctx]) [] 0 [] (KS ++ [some k]) (VS ++ [some w]) its (DS ++ [d])
            lst (dh ++ tD1) (lh ++ tL1) (VS.length : Int) li) =
          .ok (Cfg.mk (p + (Value.enc k).length + (Value.enc v).length + 1)
            (p + (Value.enc k).length + (Value.enc v).length + 1) sctx NS [] 0 []
            (KS ++ [some k]) (VS ++ [some w]) its (DS ++ [d]) lst
            (dh.set d (acc ++ [(k, v)]) ++ tD1) (lh ++ tL1)
            (VS.length : Int) li) := by
        simp [step, hgk, hgv, hunref1, hgd, hcellr, hgete, hset1,
          vpop_append_singleton]
      refine ⟨some k, some w, tD1, tL1, ?_⟩
      have hposf : p + (Value.encEntries ((k, v) :: [])).length + 1 =
          p + (Value.enc k).length + (Value.enc v).length + 1 := by
        simp only [Value.encEntries, List.append_nil, List.length_append]
        omega
      rw [hposf]
      exact Steps.head hlt0 hs1 (hs2.trans (Steps.head hltq hs3
        (hVDs.trans (Steps.single hlte hs5))))
    | cons q2 m'' =>
      obtain ⟨k2, v2⟩ := q2
      simp only [Value.WFentries, Bool.and_eq_true] at hm'
      obtain ⟨⟨hk2, hv2⟩, hm''⟩ := hm'
      obtain ⟨kb2, hkb2ne, hkb2len, hkb2sov, hk2enc⟩ := WFkey_elim hk2
      obtain ⟨c3, cs3, hcs3⟩ : ∃ c3 cs3, decNat kb2.length = c3 :: cs3 := by
        cases hx : decNat kb2.length with
        | nil => exact absurd hx (decNat_ne_nil _)
        | cons c3 cs3 => exact ⟨c3, cs3, rfl⟩
      have hd3 : isDigit c3 = true :=
        head_digit_of_allDigits (hcs3 ▸ decNat_all_digits kb2.length)
      have hne3 := isDigit_ne_tok hd3
      have hdc3 : input.drop (p + (Value.enc k).length + (Value.enc v).length) =
          c3 :: (cs3 ++ colonTok :: kb2 ++
            (Value.enc v2 ++ (Value.encEntries m'' ++ (eTok :: rest)))) := by
        rw [hdropr]
        simp [Value.encEntries, hk2enc, hcs3, List.append_assoc]
      have hget3 : input[p + (Value.enc k).length + (Value.enc v).length]? =
          some c3 := get?_of_drop_cons hdc3
      have hlt3 : p + (Value.enc k).length + (Value.enc v).length < input.length :=
        lt_length_of_drop_cons hdc3
      have hs5 : step input
          (Cfg.mk (p + (Value.enc k).length + (Value.enc v).length)
            (p + (Value.enc k).length + (Value.enc v).length) .dictFlush
            (NS ++ [sctx]) [] 0 [] (KS ++ [some k]) (VS ++ [some w]) its (DS ++ [d])
            lst (dh ++ tD1) (lh ++ tL1) (VS.length : Int) li) =
          .ok (Cfg.mk (p + (Value.enc k).length + (Value.enc v).length)
            (p + (Value.enc k).length + (Value.enc v).length) .dictKey
            (NS ++ [sctx]) [] 0 [] (KS ++ [some k]) (VS ++ [some w]) its (DS ++ [d])
            lst (dh.set d (acc ++ [(k, v)]) ++ tD1) (lh ++ tL1)
            (VS.length : Int) li) := by
        simp [step, hgk, hgv, hunref1, hgd, hcellr, hget3, hne3.2.2.2.1, hset1]
      have hd' : d < (dh.set d (acc ++ [(k, v)]) ++ tD1).length := by
        simp
        omega
      have hcell' : (dh.set d (acc ++ [(k, v)]) ++ tD1).get? d =
          some (acc ++ [(k, v)]) := by
        rw [List.get?_eq_getElem?]
        rw [getElem?_append_left_of_lt (dh.set d (acc ++ [(k, v)])) tD1 d
          (by simpa using hd)]
        rw [List.getElem?_set_self]
        exact hd
      have hsort' : Value.sortedEnt ((acc ++ [(k, v)]) ++ ((k2, v2) :: m'')) =
          true := by
        rw [List.append_assoc, List.singleton_append]
        exact hsort
      have hDBc2 := hDBn ((k2, v2) :: m'') hszm input
        (p + (Value.enc k).length + (Value.enc v).length) NS sctx KS (some k) VS
        (some w) DS d its lst (dh.set d (acc ++ [(k, v)]) ++ tD1) (lh ++ tL1) li
        (acc ++ [(k, v)]) rest
        (by simp [Value.WFentries, hk2, hv2, hm''])
        (WFentries_append_single hacc hk hv) hsort' hdropr hKS hDS hli hlst
        hd' hcell'
      obtain ⟨k1', u1', tD2, tL2, hDBs2⟩ := hDBc2
      rw [hcast] at hDBs2
      have hheap2 : ((dh.set d (acc ++ [(k, v)]) ++ tD1).set d
            ((acc ++ [(k, v)]) ++ ((k2, v2) :: m''))) ++ tD2 =
          (dh.set d (acc ++ (k, v) :: (k2, v2) :: m'')) ++ (tD1 ++ tD2) := by
        rw [set_append_left_of_lt _ _ _ _ (by simpa using hd), List.set_set]
        simp [List.append_assoc]
      refine ⟨k1', u1', tD1 ++ tD2, tL1 ++ tL2, ?_⟩
      have hposf : p + (Value.encEntries ((k, v) :: (k2, v2) :: m'')).length + 1 =
          p + (Value.enc k).length + (Value.enc v).length +
            (Value.encEntries ((k2, v2) :: m'')).length + 1 := by
        rw [show Value.encEntries ((k, v) :: (k2, v2) :: m'') =
          Value.enc k ++ (Value.enc v ++ Value.encEntries ((k2, v2) :: m''))
          from rfl]
        simp only [List.length_append]
        omega
      rw [hposf, ← hheap2,
        show lh ++ (tL1 ++ tL2) = (lh ++ tL1) ++ tL2
          from (List.append_assoc lh tL1 tL2).symm]
      exact Steps.head hlt0 hs1 (hs2.trans (Steps.head hltq hs3
        (hVDs.trans (Steps.head hlt3 hs5 hDBs2))))

end Bencedit

namespace Bencedit

/-- Inductive step for list bodies: one item is parsed and appended by
`ListFlush`, and the remainder is handled by the smaller-body
contract. -/
theorem parse_LB_of {n : Nat} (hVL : ∀ v, vsize v ≤ n → VLc v)
    (hLBn : ∀ l', lsize l' ≤ n → LBc l') :
    ∀ l, lsize l ≤ n + 1 → LBc l := by
  intro l hsz
  cases l with
  | nil => exact parse_LB_nil
  | cons v l2 =>
    intro input p NS sctx ks vs IS i0 LS lcell dst dh lh di acc rest
    intro hWFl hdrop hks hdst hdi hlst hl hcell
    have hszv : vsize v ≤ n := by
      simp only [lsize] at hsz
      omega
    have hszl : lsize l2 ≤ n := by
      have h1 := vsize_pos v
      simp only [lsize] at hsz
      omega
    simp only [Value.WFlist, Bool.and_eq_true] at hWFl
    obtain ⟨hv, hl2⟩ := hWFl
    have hdropP : input.drop p = Value.enc v ++
        (Value.encList l2 ++ (eTok :: rest)) := by
      simpa [Value.encList, List.append_assoc] using hdrop
    have hVLc := hVL v hszv input p (NS ++ [sctx]) ks vs IS i0 dst (LS ++ [lcell])
      dh lh di (Value.encList l2 ++ (eTok :: rest)) hv hdropP (by simp) hks hdst
      hdi (by simp [hlst])
    obtain ⟨w, tD1, tL1, hVLs, hunref1⟩ := hVLc
    have hdropr : input.drop (p + (Value.enc v).length) =
        Value.encList l2 ++ (eTok :: rest) := drop_shift hdropP
    have hgi : vget (IS ++ [some w]) (IS.length : Int) = some (some w) :=
      vget_last IS (some w)
    have hgl : vget (LS ++ [lcell]) (IS.length : Int) = some lcell :=
      vget_last_of_eq LS lcell _ (by omega)
    have hcellr : (lh ++ tL1)[lcell]? = some acc := by
      rw [getElem?_append_left_of_lt lh tL1 lcell hl]
      simpa [List.get?_eq_getElem?] using hcell
    have hset1 : (lh ++ tL1).set lcell (acc ++ [v]) =
        lh.set lcell (acc ++ [v]) ++ tL1 :=
      set_append_left_of_lt lh tL1 lcell _ hl
    cases l2 with
    | nil =>
      have hdre : input.drop (p + (Value.enc v).length) = eTok :: rest := by
        simpa [Value.encList] using hdropr
      have hgete : input[p + (Value.enc v).length]? = some eTok :=
        get?_of_drop_cons hdre
      have hlte : p + (Value.enc v).length < input.length :=
        lt_length_of_drop_cons hdre
      have hs5 : step input
          (Cfg.mk (p + (Value.enc v).length) (p + (Value.enc v).length) .listFlush
            (NS ++ [sctx]) [] 0 [] ks vs (IS ++ [some w]) dst (LS ++ [lcell])
            (dh ++ tD1) (lh ++ tL1) di (IS.length : Int)) =
          .ok (Cfg.mk (p + (Value.enc v).length + 1) (p + (Value.enc v).length + 1)
            sctx NS [] 0 [] ks vs (IS ++ [some w]) dst (LS ++ [lcell]) (dh ++ tD1)
            (lh.set lcell (acc ++ [v]) ++ tL1) di (IS.length : Int)) := by
        simp [step, hgi, hunref1, hgl, hcellr, hgete, hset1, vpop_append_singleton]
      refine ⟨some w, tD1, tL1, ?_⟩
      have hposf : p + (Value.encList (v :: [])).length + 1 =
          p + (Value.enc v).length + 1 := by
        simp only [Value.encList, List.append_nil, List.length_append]
      rw [hposf]
      exact hVLs.trans (Steps.single hlte hs5)
    | cons v2 l3 =>
      simp only [Value.WFlist, Bool.and_eq_true] at hl2
      obtain ⟨hv2, hl3⟩ := hl2
      obtain ⟨c3, cs3, hc3, hc3e, _⟩ := enc_head_ne hv2
      have hdc3 : input.drop (p + (Value.enc v).length) =
          c3 :: (cs3 ++ (Value.encList l3 ++ (eTok :: rest))) := by
        rw [hdropr]
        simp [Value.encList, hc3, List.append_assoc]
      have hget3 : input[p + (Value.enc v).length]? = some c3 :=
        get?_of_drop_cons hdc3
      have hlt3 : p + (Value.enc v).length < input.length :=
        lt_length_of_drop_cons hdc3
      have hs5 : step input
          (Cfg.mk (p + (Value.enc v).length) (p + (Value.enc v).length) .listFlush
            (NS ++ [sctx]) [] 0 [] ks vs (IS ++ [some w]) dst (LS ++ [lcell])
            (dh ++ tD1) (lh ++ tL1) di (IS.length : Int)) =
          .ok (Cfg.mk (p + (Value.enc v).length) (p + (Value.enc v).length)
            .listVal (NS ++ [sctx]) [] 0 [] ks vs (IS ++ [some w]) dst
            (LS ++ [lcell]) (dh ++ tD1) (lh.set lcell (acc ++ [v]) ++ tL1) di
            (IS.length : Int)) := by
        simp [step, hgi, hunref1, hgl, hcellr, hget3, hc3e, hset1]
      have hl' : lcell < (lh.set lcell (acc ++ [v]) ++ tL1).length := by
        simp
        omega
      have hcell' : (lh.set lcell (acc ++ [v]) ++ tL1).get? lcell =
          some (acc ++ [v]) := by
        rw [List.get?_eq_getElem?]
        rw [getElem?_append_left_of_lt (lh.set lcell (acc ++ [v])) tL1 lcell
          (by simpa using hl)]
        rw [List.getElem?_set_self]
        exact hl
      have hLBc2 := hLBn (v2 :: l3) hszl input (p + (Value.enc v).length) NS sctx
        ks vs IS (some w) LS lcell dst (dh ++ tD1)
        (lh.set lcell (acc ++ [v]) ++ tL1) di (acc ++ [v]) rest
        (by simp [Value.WFlist, hv2, hl3]) hdropr hks hdst hdi hlst hl' hcell'
      obtain ⟨i1', tD2, tL2, hLBs2⟩ := hLBc2
      have hheap2 : ((lh.set lcell (acc ++ [v]) ++ tL1).set lcell
            ((acc ++ [v]) ++ (v2 :: l3))) ++ tL2 =
          (lh.set lcell (acc ++ v :: v2 :: l3)) ++ (tL1 ++ tL2) := by
        rw [set_append_left_of_lt _ _ _ _ (by simpa using hl), List.set_set]
        simp [List.append_assoc]
      refine ⟨i1', tD1 ++ tD2, tL1 ++ tL2, ?_⟩
      have hposf : p + (Value.encList (v :: v2 :: l3)).length + 1 =
          p + (Value.enc v).length + (Value.encList (v2 :: l3)).length + 1 := by
        rw [show Value.encList (v :: v2 :: l3) =
          Value.enc v ++ Value.encList (v2 :: l3) from rfl]
        simp only [List.length_append]
        omega
      rw [hposf, ← hheap2,
        show dh ++ (tD1 ++ tD2) = (dh ++ tD1) ++ tD2
          from (List.append_assoc dh tD1 tD2).symm]
      exact hVLs.trans (Steps.head hlt3 hs5 hLBs2)

end Bencedit

namespace Bencedit

/-- All four parsing contracts hold at every size bound. -/
theorem parse_master : ∀ n : Nat,
    (∀ v, vsize v ≤ n → VDc v) ∧ (∀ v, vsize v ≤ n → VLc v) ∧
    (∀ m, esize m ≤ n → DBc m) ∧ (∀ l, lsize l ≤ n → LBc l) := by
  intro n
  induction n with
  | zero =>
    refine ⟨?_, ?_, ?_, ?_⟩
    · intro v hv
      exact absurd hv (by have := vsize_pos v; omega)
    · intro v hv
      exact absurd hv (by have := vsize_pos v; omega)
    · intro m hm
      cases m with
      | nil => exact parse_DB_nil
      | cons q r =>
        obtain ⟨k, v⟩ := q
        exfalso
        have h1 := vsize_pos k
        have h2 := vsize_pos v
        simp only [esize] at hm
        omega
    · intro l hl
      cases l with
      | nil => exact parse_LB_nil
      | cons v r =>
        exfalso
        have h1 := vsize_pos v
        simp only [lsize] at hl
        omega
  | succ n ih =>
    obtain ⟨hVD, hVL, hDB, hLB⟩ := ih
    refine ⟨?_, ?_, parse_DB_of hVD hDB, parse_LB_of hVL hLB⟩
    · intro v hv
      cases v with
      | int m => exact parse_VD_int m
      | str s => exact parse_VD_str s
      | bytes b => exact parse_VD_bytes b
      | dict m => exact parse_VD_dict hDB m (by simp only [vsize] at hv; omega)
      | list l => exact parse_VD_list hLB l (by simp only [vsize] at hv; omega)
      | dictRef k =>
        intro input p ns ks VS u0 its dst lst dh lh li rest hWF
        simp [Value.WF] at hWF
      | listRef k =>
        intro input p ns ks VS u0 its dst lst dh lh li rest hWF
        simp [Value.WF] at hWF
    · intro v hv
      cases v with
      | int m => exact parse_VL_int m
      | str s => exact parse_VL_str s
      | bytes b => exact parse_VL_bytes b
      | dict m => exact parse_VL_dict hDB m (by simp only [vsize] at hv; omega)
      | list l => exact parse_VL_list hLB l (by simp only [vsize] at hv; omega)
      | dictRef k =>
        intro input p ns ks vs IS i0 dst lst dh lh di rest hWF
        simp [Value.WF] at hWF
      | listRef k =>
        intro input p ns ks vs IS i0 dst lst dh lh di rest hWF
        simp [Value.WF] at hWF

end Bencedit

namespace Bencedit

/-- Loading the encoding of a well-formed integer returns it. -/
theorem roundtrip_int {m : Int} (h1 : -(2 ^ 63) ≤ m) (h2 : m < 2 ^ 63) :
    load (Value.enc (Value.int m)) = .ok (Value.int m) := by
  have hlen : (Value.enc (Value.int m)).length = (decInt m).length + 2 := by
    simp [Value.enc]
  have hdl : 1 ≤ (decInt m).length := by
    have := List.length_pos.mpr (decInt_ne_nil m)
    omega
  rw [load, if_neg (by omega)]
  have hinit : initCfg = Cfg.mk 0 0 .root [] [] 0 [] [] [] [] [] [] [] [] (-1) (-1) :=
    rfl
  set input := Value.enc (Value.int m) with hinput
  have hdrop0 : input.drop 0 = iTok :: (decInt m ++ [eTok]) := by
    rw [hinput]
    rfl
  have hget0 : input[0]? = some iTok := get?_of_drop_cons hdrop0
  have hlt0 : 0 < input.length := by omega
  have hs1 : step input (Cfg.mk 0 0 .root [] [] 0 [] [] [] [] [] [] [] [] (-1) (-1)) =
      .ok (Cfg.mk 1 1 .int [.rootValInt] [] 0 [] [] [] [] [] [] [] [] (-1) (-1)) := by
    simp [step, hget0, iTok, dTok, lTok, eTok, colonTok, vpush]
  have hdrop1 : input.drop 1 = decInt m ++ [eTok] := by
    have h := drop_shift (show input.drop 0 = [iTok] ++ (decInt m ++ [eTok])
      from by simpa using hdrop0)
    simpa using h
  have hs2 := @steps_int_body input 1 m [State.rootValInt] [] 0 [] [] [] [] [] [] []
    (-1) (-1) [eTok] hdrop1
  have hdrop2 : input.drop (1 + (decInt m).length) = [eTok] := drop_shift hdrop1
  have hget2 : input[1 + (decInt m).length]? = some eTok := get?_of_drop_cons hdrop2
  have hlt2 : 1 + (decInt m).length < input.length := by omega
  have hcond1 : ¬ (isDigit eTok = true ∨ eTok = minusTok) := by decide
  have hcond2 : ¬ ((decInt m).length = 0) := by omega
  have hlen20 := decInt_length_le h1 h2
  have hcond3 : ¬ ((decInt m).length > maxIntBuf) := by
    simp only [maxIntBuf]
    omega
  have hs3 : step input
      (Cfg.mk (1 + (decInt m).length) (1 + (decInt m).length) .int [.rootValInt]
        [] 0 (decInt m) [] [] [] [] [] [] [] (-1) (-1)) =
      .ok (Cfg.mk (1 + (decInt m).length) (1 + (decInt m).length) .rootValInt []
        [] 0 (decInt m) [] [] [] [] [] [] [] (-1) (-1)) := by
    simp only [step, List.get?_eq_getElem?, hget2, if_neg hcond1, if_neg hcond2,
      if_neg hcond3]
    rfl
  have hs4 : step input
      (Cfg.mk (1 + (decInt m).length) (1 + (decInt m).length) .rootValInt []
        [] 0 (decInt m) [] [] [] [] [] [] [] (-1) (-1)) =
      .ok (Cfg.mk (1 + (decInt m).length + 1) (1 + (decInt m).length) .rootValInt []
        [] 0 (decInt m) [] [] [] [] [] [] [] (-1) (-1)) := by
    simp [step]
  have hsteps : Steps input (Cfg.mk 0 0 .root [] [] 0 [] [] [] [] [] [] [] [] (-1) (-1))
      (Cfg.mk (1 + (decInt m).length + 1) (1 + (decInt m).length) .rootValInt []
        [] 0 (decInt m) [] [] [] [] [] [] [] (-1) (-1)) :=
    Steps.head hlt0 hs1 (hs2.trans (Steps.head hlt2 hs3 (Steps.single hlt2 hs4)))
  rw [hinit, run_eq_of_steps hsteps, run_eq_finalize (by simp; omega)]
  have hpu : parseI64 (decInt m) = some m := parseI64_decInt h1 h2
  simp [finalize, List.get?_eq_getElem?, hget2, hpu]

end Bencedit

namespace Bencedit

/-- Loading the encoding of a string body returns `str_or_bytes` of it. -/
theorem roundtrip_strlike {v : Value} (sb : List UInt8) (hblen : sb.length < 2 ^ 64)
    (hsov : str_or_bytes sb = v)
    (henc : Value.enc v = decNat sb.length ++ colonTok :: sb) :
    load (Value.enc v) = .ok v := by
  have hdl : 1 ≤ (decNat sb.length).length := by
    have := List.length_pos.mpr (decNat_ne_nil sb.length)
    omega
  have hlenenc : (Value.enc v).length =
      (decNat sb.length).length + 1 + sb.length := by
    rw [henc]
    simp only [List.length_append, List.length_cons]
    omega
  rw [load, if_neg (by omega)]
  have hinit : initCfg = Cfg.mk 0 0 .root [] [] 0 [] [] [] [] [] [] [] [] (-1) (-1) :=
    rfl
  set input := Value.enc v with hinput
  have hdrop0 : input.drop 0 = decNat sb.length ++ colonTok :: (sb ++ []) := by
    rw [List.drop_zero, henc, List.append_nil]
  obtain ⟨c, cs, hcs⟩ : ∃ c cs, decNat sb.length = c :: cs := by
    cases hx : decNat sb.length with
    | nil => exact absurd hx (decNat_ne_nil _)
    | cons c cs => exact ⟨c, cs, rfl⟩
  have hd : isDigit c = true :=
    head_digit_of_allDigits (hcs ▸ decNat_all_digits sb.length)
  have hne := isDigit_ne_tok hd
  have hdc : input.drop 0 = c :: (cs ++ colonTok :: (sb ++ [])) := by
    rw [hdrop0, hcs]
    rfl
  have hget0 : input[0]? = some c := get?_of_drop_cons hdc
  have hlt0 : 0 < input.length := lt_length_of_drop_cons hdc
  have hs1 : step input (Cfg.mk 0 0 .root [] [] 0 [] [] [] [] [] [] [] [] (-1) (-1)) =
      .ok (Cfg.mk 0 0 .str [.rootValStr] [] 0 [] [] [] [] [] [] [] [] (-1) (-1)) := by
    simp [step, hget0, hne.1, hne.2.1, hne.2.2.1, hne.2.2.2.1, hne.2.2.2.2.1, vpush]
  have hs2 := @steps_str input 0 sb [] State.rootValStr [] [] [] [] [] [] [] []
    (-1) (-1) hblen hdrop0
  simp only [List.nil_append, Nat.zero_add] at hs2
  have hsteps : Steps input (Cfg.mk 0 0 .root [] [] 0 [] [] [] [] [] [] [] [] (-1) (-1))
      (Cfg.mk ((decNat sb.length).length + 1 + sb.length)
        ((decNat sb.length).length + 1 + sb.length) .rootValStr [] sb 0 []
        [] [] [] [] [] [] [] (-1) (-1)) :=
    Steps.head hlt0 hs1 hs2
  rw [hinit, run_eq_of_steps hsteps, run_eq_finalize (by simp; omega)]
  simp [finalize, hsov]

/-- Loading the encoding of a well-formed dict returns it. -/
theorem roundtrip_dict {m : List (Value × Value)}
    (hWF : Value.WF (Value.dict m) = true) :
    load (Value.enc (Value.dict m)) = .ok (Value.dict m) := by
  simp only [Value.WF, Bool.and_eq_true] at hWF
  have hKD := (parse_master (esize m)).2.2.1 m le_rfl
  have hlenenc : (Value.enc (Value.dict m)).length =
      (Value.encEntries m).length + 2 := by
    simp [Value.enc]
  rw [load, if_neg (by omega)]
  have hinit : initCfg = Cfg.mk 0 0 .root [] [] 0 [] [] [] [] [] [] [] [] (-1) (-1) :=
    rfl
  set input := Value.enc (Value.dict m) with hinput
  have hdrop0 : input.drop 0 = dTok :: (Value.encEntries m ++ [eTok]) := by
    rw [hinput]
    rfl
  have hget0 : input[0]? = some dTok := get?_of_drop_cons hdrop0
  have hlt0 : 0 < input.length := by omega
  have hs1 : step input (Cfg.mk 0 0 .root [] [] 0 [] [] [] [] [] [] [] [] (-1) (-1)) =
      .ok (Cfg.mk 1 1 .dictKey [.rootValDict] [] 0 [] [none] [none] [] [0] []
        [[]] [] 0 (-1)) := by
    simp [step, hget0, dTok, vpush]
  have hdrop1 : input.drop 1 = Value.encEntries m ++ eTok :: [] := by
    have h := drop_shift (show input.drop 0 = [dTok] ++ (Value.encEntries m ++ [eTok])
      from by simpa using hdrop0)
    simpa using h
  have hDBi := hKD input 1 [] .rootValDict [] none [] none [] 0 [] [] [[]] [] (-1)
    [] [] hWF.1 rfl (by simpa using hWF.2) hdrop1 rfl rfl (by simp) rfl (by simp) rfl
  obtain ⟨k1, u1, tD, tL, hDBs⟩ := hDBi
  simp only [List.nil_append, List.length_nil, Nat.cast_zero] at hDBs
  rw [show ([[]] : List (List (Value × Value))).set 0 m = [m] from rfl] at hDBs
  have hsteps := Steps.head hlt0 hs1 hDBs
  rw [hinit, run_eq_of_steps hsteps, run_eq_finalize (by simp; omega)]
  simp [finalize, vpop]

/-- Loading the encoding of a well-formed list returns it. -/
theorem roundtrip_list {l : List Value} (hWF : Value.WF (Value.list l) = true) :
    load (Value.enc (Value.list l)) = .ok (Value.list l) := by
  simp only [Value.WF] at hWF
  have hKL := (parse_master (lsize l)).2.2.2 l le_rfl
  have hlenenc : (Value.enc (Value.list l)).length =
      (Value.encList l).length + 2 := by
    simp [Value.enc]
  rw [load, if_neg (by omega)]
  have hinit : initCfg = Cfg.mk 0 0 .root [] [] 0 [] [] [] [] [] [] [] [] (-1) (-1) :=
    rfl
  set input := Value.enc (Value.list l) with hinput
  have hdrop0 : input.drop 0 = lTok :: (Value.encList l ++ [eTok]) := by
    rw [hinput]
    rfl
  have hget0 : input[0]? = some lTok := get?_of_drop_cons hdrop0
  have hlt0 : 0 < input.length := by omega
  have hs1 : step input (Cfg.mk 0 0 .root [] [] 0 [] [] [] [] [] [] [] [] (-1) (-1)) =
      .ok (Cfg.mk 1 1 .listVal [.rootValList] [] 0 [] [] [] [none] [] [0] []
        [[]] (-1) 0) := by
    simp [step, hget0, lTok, dTok, vpush]
  have hdrop1 : input.drop 1 = Value.encList l ++ eTok :: [] := by
    have h := drop_shift (show input.drop 0 = [lTok] ++ (Value.encList l ++ [eTok])
      from by simpa using hdrop0)
    simpa using h
  have hLBi := hKL input 1 [] .rootValList [] [] [] none [] 0 [] [] [[]] (-1)
    [] [] hWF hdrop1 rfl rfl (by simp) rfl (by simp) rfl
  obtain ⟨i1, tD, tL, hLBs⟩ := hLBi
  simp only [List.nil_append, List.length_nil, Nat.cast_zero] at hLBs
  rw [show ([[]] : List (List Value)).set 0 l = [l] from rfl] at hLBs
  have hsteps := Steps.head hlt0 hs1 hLBs
  rw [hinit, run_eq_of_steps hsteps, run_eq_finalize (by simp; omega)]
  simp [finalize, vpop]

/-- Loading the encoding of any well-formed value returns it. -/
theorem roundtrip_wf {v : Value} (hWF : Value.WF v = true) :
    load (Value.enc v) = .ok v := by
  cases v with
  | int m =>
    simp only [Value.WF, Bool.and_eq_true, decide_eq_true_eq] at hWF
    exact roundtrip_int hWF.1 hWF.2
  | str s =>
    have hw := hWF
    simp only [Value.WF, Bool.and_eq_true, decide_eq_true_eq] at hw
    exact @roundtrip_strlike (.str s) s hw.2 (by simp [str_or_bytes, hw.1]) rfl
  | bytes b =>
    have hw := hWF
    simp only [Value.WF, Bool.and_eq_true, Bool.not_eq_true',
      decide_eq_true_eq] at hw
    exact @roundtrip_strlike (.bytes b) b hw.2 (by simp [str_or_bytes, hw.1]) rfl
  | dict m => exact roundtrip_dict hWF
  | list l => exact roundtrip_list hWF
  | dictRef k => simp [Value.WF] at hWF
  | listRef k => simp [Value.WF] at hWF

end Bencedit

namespace Bencedit

/-- **C1**: round-trip identity — for every `Value` that the decoder
itself produced, decoding the encoder's output for it yields an equal
`Value` (`decode(encode(V)) == V`). -/
theorem C1_roundtrip (input : List UInt8) (v : Value)
    (h : load input = .ok v) : load (Value.enc v) = .ok v :=
  roundtrip_wf (load_wf h)

/-- **C1** (witness): the value decoded from `"i5e"` re-decodes from its
own encoding. -/
theorem C1_witness : load (Value.enc (.int 5)) = .ok (.int 5) :=
  C1_roundtrip (bytesOf "i5e") (.int 5)
    (load_eval (by decide) (Eq.refl (runF (bytesOf "i5e") 10 initCfg)))

end Bencedit

namespace Bencedit

/-! ## Universal characterization of failing selector evaluations -/

/-- Context payload of a `SelectError` (`SelectError::End` carries
none). -/
def ctxOf : SelectError → Option (List Char)
  | .key ctx _ => some ctx
  | .index ctx _ => some ctx
  | .subscriptable ctx => some ctx
  | .indexable ctx => some ctx
  | .primitive ctx => some ctx
  | .synErr ctx _ _ => some ctx
  | .atEnd => none

/-- The key lookup of the `TraverseState::Dict` arm (`find_map` over the
map iterator): the first entry whose key is a `Str` with the given
UTF-8 bytes. -/
def findKey (m : List (Value × Value)) (key : List Char) : Option Value :=
  m.findSome? (fun kv =>
    match kv.1.to_str with
    | some s => if s = utf8 key then some kv.2 else none
    | none => none)

/-- Exact shape of a selector error whose failing accessor starts after
`q` consumed characters of the full selector: container-kind mismatches
and accessor syntax errors carry the consumed prefix plus the
accessor's first character (`full.take (q + 1)`); missing-key,
out-of-range-index and primitive-hit failures carry the prefix through
the whole accessor plus one further character
(`full.take (full.length - rest.length + 1)` for the remaining selector
`rest`, which is nonempty — when the accessor ends the selector the
error is never returned); `SelectError::End` carries no context. -/
def errAt (full : List Char) (q : Nat) (e : SelectError) : Prop :=
  e = .indexable (full.take (q + 1)) ∨
  e = .subscriptable (full.take (q + 1)) ∨
  (∃ msg, e = .synErr (full.take (q + 1)) (q + 1) msg) ∨
  e = .atEnd ∨
  (∃ rest key, parseKeySelector (full.drop q) full = .ok (rest, key) ∧ rest ≠ [] ∧
    (e = .key (full.take (full.length - rest.length + 1)) key ∨
     e = .primitive (full.take (full.length - rest.length + 1)))) ∨
  (∃ rest idx, parseIndexSelector (full.drop q) full = .ok (rest, idx) ∧ rest ≠ [] ∧
    (e = .index (full.take (full.length - rest.length + 1)) idx ∨
     e = .primitive (full.take (full.length - rest.length + 1))))

theorem selCtx_pos {full : List Char} {p : Nat} (h1 : 1 ≤ p) (h2 : p ≤ full.length) :
    selCtx full p = some (full.take p) := by
  have hlen : (full.take p).length = p := by
    rw [List.length_take]
    omega
  have hne : (full.take p).isEmpty = false := by
    cases hx : full.take p with
    | nil => rw [hx] at hlen; simp at hlen; omega
    | cons a t => rfl
  simp [selCtx, sliceTo, h2, hne]

theorem selCtx_none {full : List Char} {p : Nat} (h : full.length < p) :
    selCtx full p = none := by
  unfold selCtx sliceTo
  rw [if_neg (by omega)]

theorem drop_cons_of_lt {full : List Char} {q : Nat} (h : q < full.length) :
    ∃ c crest, full.drop q = c :: crest := by
  cases hd : full.drop q with
  | nil =>
    exfalso
    have hl : (full.drop q).length = full.length - q := by simp
    rw [hd] at hl
    simp at hl
    omega
  | cons c crest => exact ⟨c, crest, rfl⟩

theorem suffix_canon {full rest : List Char} (h : ∃ b, rest = full.drop b) :
    rest = full.drop (full.length - rest.length) := by
  obtain ⟨b, rfl⟩ := h
  by_cases hb : b ≤ full.length
  · congr 1
    rw [List.length_drop]
    omega
  · have hd : full.drop b = [] := List.drop_eq_nil_of_le (by omega)
    rw [hd]
    simp [List.drop_eq_nil_of_le]

end Bencedit

namespace Bencedit

/-- Every error out of `parse_key_selector`'s loop is a syntax error at
the captured position `pos0`. -/
theorem pksLoop_err {full : List Char} {pos0 : Nat} :
    ∀ {rem : List Char} {i : Nat} {cur buf : List Char} {esc : Bool} {e : SelectError},
      pksLoop full pos0 rem i cur buf esc = .err e →
      ∃ ctx msg, selCtx full pos0 = some ctx ∧ e = .synErr ctx pos0 msg := by
  intro rem
  induction rem with
  | nil =>
    intro i cur buf esc e h
    unfold pksLoop at h
    split at h
    · cases hsc : selCtx full pos0 with
      | none => simp only [hsc] at h; cases h
      | some ctx => simp only [hsc] at h; cases h; exact ⟨ctx, _, rfl, rfl⟩
    · cases h
  | cons c rem ih =>
    intro i cur buf esc e h
    unfold pksLoop at h
    split at h
    · split at h
      · cases hsf : sliceFrom cur (i + 1) with
        | none => simp only [hsf] at h; cases h
        | some cur2 => simp only [hsf] at h; exact ih h
      · cases hst : sliceTo cur i with
        | none => simp only [hst] at h; cases h
        | some pre =>
          simp only [hst] at h
          cases hsf : sliceFrom cur i with
          | none => simp only [hsf] at h; cases h
          | some cur2 => simp only [hsf] at h; cases h
    split at h
    · split at h
      · cases hsf : sliceFrom cur (i + 1) with
        | none => simp only [hsf] at h; cases h
        | some cur2 => simp only [hsf] at h; exact ih h
      · cases hst : sliceTo cur i with
        | none => simp only [hst] at h; cases h
        | some pre =>
          simp only [hst] at h
          cases hsf : sliceFrom cur (i + 1) with
          | none => simp only [hsf] at h; cases h
          | some cur2 => simp only [hsf] at h; exact ih h
    split at h
    · cases hsc : selCtx full pos0 with
      | none => simp only [hsc] at h; cases h
      | some ctx => simp only [hsc] at h; cases h; exact ⟨ctx, _, rfl, rfl⟩
    · exact ih h

/-- Every error out of `parse_key_selector` is a syntax error at the
position one past the consumed prefix. -/
theorem parseKeySelector_err {input full : List Char} {e : SelectError}
    (h : parseKeySelector input full = .err e) :
    ∃ ctx msg, selCtx full (full.length - input.length + 1) = some ctx ∧
      e = .synErr ctx (full.length - input.length + 1) msg := by
  unfold parseKeySelector at h
  cases input with
  | nil => cases h
  | cons c0 adl =>
    simp only at h
    split at h
    · cases hsc : selCtx full (full.length - (c0 :: adl).length + 1) with
      | none => simp only [hsc] at h; cases h
      | some ctx => simp only [hsc] at h; cases h; exact ⟨ctx, _, rfl, rfl⟩
    · exact pksLoop_err h

/-- A successful `parse_key_selector` saw a leading dot. -/
theorem parseKeySelector_ok_head {input full rest key : List Char}
    (h : parseKeySelector input full = .ok (rest, key)) :
    ∃ t, input = '.' :: t := by
  unfold parseKeySelector at h
  cases input with
  | nil => cases h
  | cons c0 adl =>
    simp only at h
    split at h
    · split at h <;> cases h
    · next hc => exact ⟨adl, by rw [not_not.mp hc]⟩

/-- The remaining selector returned by `parse_key_selector`'s loop is a
suffix of the full selector. -/
theorem pksLoop_ok_suffix {full : List Char} {pos0 : Nat} :
    ∀ {rem : List Char} {i : Nat} {cur buf : List Char} {esc : Bool}
      {rest key : List Char},
      (∃ a, cur = full.drop a) →
      pksLoop full pos0 rem i cur buf esc = .ok (rest, key) →
      ∃ b, rest = full.drop b := by
  intro rem
  induction rem with
  | nil =>
    intro i cur buf esc rest key hsuf h
    unfold pksLoop at h
    split at h
    · cases hsc : selCtx full pos0 <;> simp only [hsc] at h <;> cases h
    · injection h with h2
      obtain ⟨a, rfl⟩ := hsuf
      unfold finishKey at h2
      split at h2
      · cases h2
        exact ⟨full.length, by rw [List.drop_length]⟩
      · cases h2
        exact ⟨a, rfl⟩
  | cons c rem ih =>
    intro i cur buf esc rest key hsuf h
    unfold pksLoop at h
    split at h
    · split at h
      · cases hsf : sliceFrom cur (i + 1) with
        | none => simp only [hsf] at h; cases h
        | some cur2 =>
          simp only [hsf] at h
          obtain ⟨a, rfl⟩ := hsuf
          refine ih ⟨a + (i + 1), ?_⟩ h
          rw [sliceFrom_eq_some hsf, List.drop_drop]
      · cases hst : sliceTo cur i with
        | none => simp only [hst] at h; cases h
        | some pre =>
          simp only [hst] at h
          cases hsf : sliceFrom cur i with
          | none => simp only [hsf] at h; cases h
          | some cur2 =>
            simp only [hsf] at h
            injection h with h2
            obtain ⟨a, rfl⟩ := hsuf
            unfold finishKey at h2
            split at h2
            · cases h2
              exact ⟨full.length, by rw [List.drop_length]⟩
            · cases h2
              refine ⟨a + i, ?_⟩
              rw [sliceFrom_eq_some hsf, List.drop_drop]
    split at h
    · split at h
      · cases hsf : sliceFrom cur (i + 1) with
        | none => simp only [hsf] at h; cases h
        | some cur2 =>
          simp only [hsf] at h
          obtain ⟨a, rfl⟩ := hsuf
          refine ih ⟨a + (i + 1), ?_⟩ h
          rw [sliceFrom_eq_some hsf, List.drop_drop]
      · cases hst : sliceTo cur i with
        | none => simp only [hst] at h; cases h
        | some pre =>
          simp only [hst] at h
          cases hsf : sliceFrom cur (i + 1) with
          | none => simp only [hsf] at h; cases h
          | some cur2 =>
            simp only [hsf] at h
            obtain ⟨a, rfl⟩ := hsuf
            refine ih ⟨a + (i + 1), ?_⟩ h
            rw [sliceFrom_eq_some hsf, List.drop_drop]
    split at h
    · cases hsc : selCtx full pos0 <;> simp only [hsc] at h <;> cases h
    · exact ih hsuf h

/-- The remaining selector returned by `parse_key_selector` is a suffix
of the full selector. -/
theorem parseKeySelector_ok_suffix {q : Nat} {full rest key : List Char}
    (h : parseKeySelector (full.drop q) full = .ok (rest, key)) :
    ∃ b, rest = full.drop b := by
  unfold parseKeySelector at h
  cases hd : full.drop q with
  | nil => rw [hd] at h; cases h
  | cons c0 adl =>
    rw [hd] at h
    simp only at h
    split at h
    · split at h <;> cases h
    · refine pksLoop_ok_suffix ⟨q + 1, ?_⟩ h
      have : full.drop (q + 1) = (full.drop q).drop 1 := by
        rw [List.drop_drop]
      rw [this, hd]
      rfl

end Bencedit

namespace Bencedit

/-- Every error out of `parse_index_selector`'s loop is `End` or a
syntax error at the captured position `pos0`. -/
theorem pisLoop_err {full : List Char} {pos0 : Nat} :
    ∀ {rem : List Char} {i : Nat} {cur : List Char} {e : SelectError},
      pisLoop full pos0 rem i cur = .err e →
      e = .atEnd ∨
        ∃ ctx msg, selCtx full pos0 = some ctx ∧ e = .synErr ctx pos0 msg := by
  intro rem
  induction rem with
  | nil =>
    intro i cur e h
    unfold pisLoop at h
    cases h
    exact Or.inl rfl
  | cons c rem ih =>
    intro i cur e h
    unfold pisLoop at h
    split at h
    · cases hst : sliceTo cur i with
      | none => simp only [hst] at h; cases h
      | some digits =>
        simp only [hst] at h
        cases hpu : parseUsize digits with
        | none =>
          simp only [hpu] at h
          cases hsc : selCtx full pos0 with
          | none => simp only [hsc] at h; cases h
          | some ctx =>
            simp only [hsc] at h
            cases h
            exact Or.inr ⟨ctx, _, rfl, rfl⟩
        | some idx =>
          simp only [hpu] at h
          cases hsf : sliceFrom cur (i + 1) <;> simp only [hsf] at h <;> cases h
    split at h
    · cases hsc : selCtx full pos0 with
      | none => simp only [hsc] at h; cases h
      | some ctx =>
        simp only [hsc] at h
        cases h
        exact Or.inr ⟨ctx, _, rfl, rfl⟩
    · exact ih h

/-- Every error out of `parse_index_selector` is `End` or a syntax
error at the position one past the consumed prefix. -/
theorem parseIndexSelector_err {input full : List Char} {e : SelectError}
    (h : parseIndexSelector input full = .err e) :
    e = .atEnd ∨
      ∃ ctx msg, selCtx full (full.length - input.length + 1) = some ctx ∧
        e = .synErr ctx (full.length - input.length + 1) msg := by
  unfold parseIndexSelector at h
  cases input with
  | nil => cases h
  | cons c0 adl =>
    simp only at h
    split at h
    · cases hsc : selCtx full (full.length - (c0 :: adl).length + 1) with
      | none => simp only [hsc] at h; cases h
      | some ctx => simp only [hsc] at h; cases h; exact Or.inr ⟨ctx, _, rfl, rfl⟩
    · exact pisLoop_err h

/-- A successful `parse_index_selector` saw a leading bracket. -/
theorem parseIndexSelector_ok_head {input full rest : List Char} {idx : Nat}
    (h : parseIndexSelector input full = .ok (rest, idx)) :
    ∃ t, input = '[' :: t := by
  unfold parseIndexSelector at h
  cases input with
  | nil => cases h
  | cons c0 adl =>
    simp only at h
    split at h
    · split at h <;> cases h
    · next hc => exact ⟨adl, by rw [not_not.mp hc]⟩

/-- The remaining selector returned by `parse_index_selector`'s loop is
a suffix of the full selector. -/
theorem pisLoop_ok_suffix {full : List Char} {pos0 : Nat} :
    ∀ {rem : List Char} {i : Nat} {cur rest : List Char} {idx : Nat},
      (∃ a, cur = full.drop a) →
      pisLoop full pos0 rem i cur = .ok (rest, idx) →
      ∃ b, rest = full.drop b := by
  intro rem
  induction rem with
  | nil => intro i cur rest idx _ h; cases h
  | cons c rem ih =>
    intro i cur rest idx hsuf h
    unfold pisLoop at h
    split at h
    · cases hst : sliceTo cur i with
      | none => simp only [hst] at h; cases h
      | some digits =>
        simp only [hst] at h
        cases hpu : parseUsize digits with
        | none =>
          simp only [hpu] at h
          cases hsc : selCtx full pos0 <;> simp only [hsc] at h <;> cases h
        | some idx2 =>
          simp only [hpu] at h
          cases hsf : sliceFrom cur (i + 1) with
          | none => simp only [hsf] at h; cases h
          | some cur2 =>
            simp only [hsf] at h
            cases h
            obtain ⟨a, rfl⟩ := hsuf
            refine ⟨a + (i + 1), ?_⟩
            rw [sliceFrom_eq_some hsf, List.drop_drop]
    split at h
    · cases hsc : selCtx full pos0 <;> simp only [hsc] at h <;> cases h
    · exact ih hsuf h

/-- The remaining selector returned by `parse_index_selector` is a
suffix of the full selector. -/
theorem parseIndexSelector_ok_suffix {q : Nat} {full rest : List Char} {idx : Nat}
    (h : parseIndexSelector (full.drop q) full = .ok (rest, idx)) :
    ∃ b, rest = full.drop b := by
  unfold parseIndexSelector at h
  cases hd : full.drop q with
  | nil => rw [hd] at h; cases h
  | cons c0 adl =>
    rw [hd] at h
    simp only at h
    split at h
    · split at h <;> cases h
    · refine pisLoop_ok_suffix ⟨q + 1, ?_⟩ h
      have : full.drop (q + 1) = (full.drop q).drop 1 := by
        rw [List.drop_drop]
      rw [this, hd]
      rfl

end Bencedit


namespace Bencedit

/-- Every error returned by `select`'s traversal loops, entered with the
selector suffix starting after `q` consumed characters, has the exact
shape `errAt` at the consumed-prefix length of its failing accessor; a
failing accessor that is not the first means the selector began with a
`'.'` or `'['` accessor. -/
theorem selLoop_err_char : ∀ (n : Nat) (full : List Char) (q : Nat),
    full.length - q ≤ n → q < full.length →
    (1 ≤ q → full.take 1 = ['.'] ∨ full.take 1 = ['[']) →
    ((∀ (m : List (Value × Value)) (e : SelectError),
        selLoopDict full m (full.drop q) = .err e →
        ∃ r, q ≤ r ∧ r < full.length ∧ errAt full r e ∧
          (1 ≤ r → full.take 1 = ['.'] ∨ full.take 1 = ['['])) ∧
     (∀ (l : List Value) (e : SelectError),
        selLoopList full l (full.drop q) = .err e →
        ∃ r, q ≤ r ∧ r < full.length ∧ errAt full r e ∧
          (1 ≤ r → full.take 1 = ['.'] ∨ full.take 1 = ['[']))) := by
  intro n
  induction n with
  | zero =>
    intro full q hn hq _
    exact absurd hn (by omega)
  | succ n ih =>
    intro full q hn hq hhead
    obtain ⟨c, crest, hcc⟩ := drop_cons_of_lt hq
    have h1 : crest.length + 1 = full.length - q := by
      have h2 : (full.drop q).length = full.length - q := by simp
      rw [hcc] at h2
      simpa using h2
    have hpos : full.length - (c :: crest).length + 1 = q + 1 := by
      simp only [List.length_cons]
      omega
    constructor
    · -- dict arm
      intro m e h
      rw [hcc] at h
      unfold selLoopDict at h
      split at h
      · -- c = '[' : Indexable at the accessor's first character
        simp only [hpos,
          selCtx_pos (show 1 ≤ q + 1 from by omega)
            (show q + 1 ≤ full.length from by omega)] at h
        cases h
        exact ⟨q, le_refl q, hq, Or.inl rfl, hhead⟩
      · split at h
        · -- parseKeySelector panicked
          cases h
        · -- parseKeySelector error: syntax error at q + 1
          next e0 hpk =>
          cases h
          obtain ⟨ctx, msg, hctx, he0⟩ := parseKeySelector_err hpk
          rw [hpos,
            selCtx_pos (show 1 ≤ q + 1 from by omega)
              (show q + 1 ≤ full.length from by omega)] at hctx
          injection hctx with hctx2
          rw [hpos] at he0
          subst hctx2
          exact ⟨q, le_refl q, hq, Or.inr (Or.inr (Or.inl ⟨msg, he0⟩)), hhead⟩
        · -- parseKeySelector ok
          next rest key hpk =>
          have hrs : ∃ b, rest = full.drop b := by
            refine @parseKeySelector_ok_suffix q full rest key ?_
            rw [hcc]
            exact hpk
          have hrlen : rest.length < full.length - q := by
            have h3 := parseKeySelector_length hpk
            simp only [List.length_cons] at h3
            omega
          have hheadAll : full.take 1 = ['.'] ∨ full.take 1 = ['['] := by
            by_cases hq0 : 1 ≤ q
            · exact hhead hq0
            · have hq0' : q = 0 := by omega
              obtain ⟨t, ht⟩ := parseKeySelector_ok_head hpk
              left
              rw [hq0'] at hcc
              simp only [List.drop_zero] at hcc
              rw [hcc]
              injection ht with h3 _
              rw [h3]
              rfl
          cases hf : m.findSome? (fun kv =>
              match kv.1.to_str with
              | some s => if s = utf8 key then some kv.2 else none
              | none => none) with
          | some v =>
            simp only [hf] at h
            split at h
            · cases h
            · next hre =>
              have hrne : rest ≠ [] := by
                intro hnil
                rw [hnil] at hre
                exact hre rfl
              have hr1 : 1 ≤ rest.length := by
                cases rest with
                | nil => exact absurd rfl hrne
                | cons a t => simp
              have hq2 : rest = full.drop (full.length - rest.length) :=
                suffix_canon hrs
              split at h
              · -- child dict: recurse
                rw [hq2] at h
                obtain ⟨r, hr2, hr3, hr4, hr5⟩ :=
                  (ih full (full.length - rest.length) (by omega) (by omega)
                    (fun _ => hheadAll)).1 _ e h
                exact ⟨r, by omega, hr3, hr4, hr5⟩
              · -- child list: recurse
                rw [hq2] at h
                obtain ⟨r, hr2, hr3, hr4, hr5⟩ :=
                  (ih full (full.length - rest.length) (by omega) (by omega)
                    (fun _ => hheadAll)).2 _ e h
                exact ⟨r, by omega, hr3, hr4, hr5⟩
              · -- primitive hit: context through the accessor plus one char
                simp only [selCtx_pos
                  (show 1 ≤ full.length - rest.length + 1 from by omega)
                  (show full.length - rest.length + 1 ≤ full.length from by
                    omega)] at h
                cases h
                refine ⟨q, le_refl q, hq,
                  Or.inr (Or.inr (Or.inr (Or.inr (Or.inl
                    ⟨rest, key, ?_, hrne, Or.inr rfl⟩)))), hhead⟩
                rw [hcc]
                exact hpk
          | none =>
            simp only [hf] at h
            by_cases hrne : rest = []
            · subst hrne
              simp only [List.length_nil, Nat.sub_zero,
                selCtx_none (show full.length < full.length + 1 from by
                  omega)] at h
              cases h
            · have hr1 : 1 ≤ rest.length := by
                cases rest with
                | nil => exact absurd rfl hrne
                | cons a t => simp
              simp only [selCtx_pos
                (show 1 ≤ full.length - rest.length + 1 from by omega)
                (show full.length - rest.length + 1 ≤ full.length from by
                  omega)] at h
              cases h
              refine ⟨q, le_refl q, hq,
                Or.inr (Or.inr (Or.inr (Or.inr (Or.inl
                  ⟨rest, key, ?_, hrne, Or.inl rfl⟩)))), hhead⟩
              rw [hcc]
              exact hpk
    · -- list arm
      intro l e h
      rw [hcc] at h
      unfold selLoopList at h
      split at h
      · -- c = '.' : Subscriptable at the accessor's first character
        simp only [hpos,
          selCtx_pos (show 1 ≤ q + 1 from by omega)
            (show q + 1 ≤ full.length from by omega)] at h
        cases h
        exact ⟨q, le_refl q, hq, Or.inr (Or.inl rfl), hhead⟩
      · split at h
        · cases h
        · next e0 hpk =>
          cases h
          rcases parseIndexSelector_err hpk with he0 | ⟨ctx, msg, hctx, he0⟩
          · exact ⟨q, le_refl q, hq, Or.inr (Or.inr (Or.inr (Or.inl he0))), hhead⟩
          · rw [hpos,
              selCtx_pos (show 1 ≤ q + 1 from by omega)
                (show q + 1 ≤ full.length from by omega)] at hctx
            injection hctx with hctx2
            rw [hpos] at he0
            subst hctx2
            exact ⟨q, le_refl q, hq, Or.inr (Or.inr (Or.inl ⟨msg, he0⟩)), hhead⟩
        · next rest idx hpk =>
          have hrs : ∃ b, rest = full.drop b := by
            refine @parseIndexSelector_ok_suffix q full rest idx ?_
            rw [hcc]
            exact hpk
          have hrlen : rest.length < full.length - q := by
            have h3 := parseIndexSelector_length hpk
            simp only [List.length_cons] at h3
            omega
          have hheadAll : full.take 1 = ['.'] ∨ full.take 1 = ['['] := by
            by_cases hq0 : 1 ≤ q
            · exact hhead hq0
            · have hq0' : q = 0 := by omega
              obtain ⟨t, ht⟩ := parseIndexSelector_ok_head hpk
              right
              rw [hq0'] at hcc
              simp only [List.drop_zero] at hcc
              rw [hcc]
              injection ht with h3 _
              rw [h3]
              rfl
          cases hg : l.get? idx with
          | some v =>
            simp only [hg] at h
            split at h
            · cases h
            · next hre =>
              have hrne : rest ≠ [] := by
                intro hnil
                rw [hnil] at hre
                exact hre rfl
              have hr1 : 1 ≤ rest.length := by
                cases rest with
                | nil => exact absurd rfl hrne
                | cons a t => simp
              have hq2 : rest = full.drop (full.length - rest.length) :=
                suffix_canon hrs
              split at h
              · rw [hq2] at h
                obtain ⟨r, hr2, hr3, hr4, hr5⟩ :=
                  (ih full (full.length - rest.length) (by omega) (by omega)
                    (fun _ => hheadAll)).1 _ e h
                exact ⟨r, by omega, hr3, hr4, hr5⟩
              · rw [hq2] at h
                obtain ⟨r, hr2, hr3, hr4, hr5⟩ :=
                  (ih full (full.length - rest.length) (by omega) (by omega)
                    (fun _ => hheadAll)).2 _ e h
                exact ⟨r, by omega, hr3, hr4, hr5⟩
              · simp only [selCtx_pos
                  (show 1 ≤ full.length - rest.length + 1 from by omega)
                  (show full.length - rest.length + 1 ≤ full.length from by
                    omega)] at h
                cases h
                refine ⟨q, le_refl q, hq,
                  Or.inr (Or.inr (Or.inr (Or.inr (Or.inr
                    ⟨rest, idx, ?_, hrne, Or.inr rfl⟩)))), hhead⟩
                rw [hcc]
                exact hpk
          | none =>
            simp only [hg] at h
            by_cases hrne : rest = []
            · subst hrne
              simp only [List.length_nil, Nat.sub_zero,
                selCtx_none (show full.length < full.length + 1 from by
                  omega)] at h
              cases h
            · have hr1 : 1 ≤ rest.length := by
                cases rest with
                | nil => exact absurd rfl hrne
                | cons a t => simp
              simp only [selCtx_pos
                (show 1 ≤ full.length - rest.length + 1 from by omega)
                (show full.length - rest.length + 1 ≤ full.length from by
                  omega)] at h
              cases h
              refine ⟨q, le_refl q, hq,
                Or.inr (Or.inr (Or.inr (Or.inr (Or.inr
                  ⟨rest, idx, ?_, hrne, Or.inl rfl⟩)))), hhead⟩
              rw [hcc]
              exact hpk

end Bencedit

namespace Bencedit

/-- A take of the selector equal to `"<root>"` pins its length and the
selector's first character. -/
theorem take_root_head {full : List Char} {p : Nat} (hp : p ≤ full.length)
    (h : full.take p = "<root>".toList) : p = 6 ∧ full.take 1 = ['<'] := by
  have hlen : (full.take p).length = p := by
    rw [List.length_take]
    omega
  rw [h] at hlen
  have h6 : p = 6 := by
    rw [show ("<root>".toList).length = 6 from rfl] at hlen
    omega
  subst h6
  refine ⟨rfl, ?_⟩
  cases full with
  | nil => simp at h
  | cons a t =>
    have h2 : a :: t.take 5 = '<' :: "root>".toList := h
    injection h2 with ha _
    have h3 : (a :: t).take 1 = [a] := rfl
    rw [h3, ha]

/-- No error produced inside the traversal loops carries the context
`"<root>"`. -/
theorem errAt_ctx_ne_root {full : List Char} {q : Nat} {e : SelectError}
    (hq : q < full.length) (hat : errAt full q e)
    (hhead : 1 ≤ q → full.take 1 = ['.'] ∨ full.take 1 = ['[']) :
    ∀ ctx, ctxOf e = some ctx → ctx ≠ "<root>".toList := by
  intro ctx hctx hroot
  unfold errAt at hat
  rcases hat with he | he | ⟨msg, he⟩ | he |
    ⟨rest, key, hpk, hrne, he⟩ | ⟨rest, idx, hpk, hrne, he⟩
  · subst he
    simp only [ctxOf] at hctx
    injection hctx with hctx2
    subst hctx2
    obtain ⟨h6, hlt⟩ := take_root_head (by omega) hroot
    rcases hhead (by omega) with hh | hh <;> rw [hh] at hlt <;> simp at hlt
  · subst he
    simp only [ctxOf] at hctx
    injection hctx with hctx2
    subst hctx2
    obtain ⟨h6, hlt⟩ := take_root_head (by omega) hroot
    rcases hhead (by omega) with hh | hh <;> rw [hh] at hlt <;> simp at hlt
  · subst he
    simp only [ctxOf] at hctx
    injection hctx with hctx2
    subst hctx2
    obtain ⟨h6, hlt⟩ := take_root_head (by omega) hroot
    rcases hhead (by omega) with hh | hh <;> rw [hh] at hlt <;> simp at hlt
  · subst he
    simp only [ctxOf] at hctx
    cases hctx
  · have hr1 : 1 ≤ rest.length := by
      cases rest with
      | nil => exact absurd rfl hrne
      | cons a t => simp
    have hplen : rest.length < full.length - q := by
      have h3 := parseKeySelector_length hpk
      simp at h3
      omega
    have hctx2 : ctx = full.take (full.length - rest.length + 1) := by
      rcases he with he | he <;> subst he <;> simp only [ctxOf] at hctx <;>
        exact (Option.some_injective _ hctx).symm
    subst hctx2
    obtain ⟨h6, hlt⟩ := take_root_head (by omega) hroot
    by_cases hq0 : 1 ≤ q
    · rcases hhead hq0 with hh | hh <;> rw [hh] at hlt <;> simp at hlt
    · have hq0' : q = 0 := by omega
      rw [hq0', List.drop_zero] at hpk
      obtain ⟨t, ht⟩ := parseKeySelector_ok_head hpk
      rw [ht] at hlt
      simp at hlt
  · have hr1 : 1 ≤ rest.length := by
      cases rest with
      | nil => exact absurd rfl hrne
      | cons a t => simp
    have hplen : rest.length < full.length - q := by
      have h3 := parseIndexSelector_length hpk
      simp at h3
      omega
    have hctx2 : ctx = full.take (full.length - rest.length + 1) := by
      rcases he with he | he <;> subst he <;> simp only [ctxOf] at hctx <;>
        exact (Option.some_injective _ hctx).symm
    subst hctx2
    obtain ⟨h6, hlt⟩ := take_root_head (by omega) hroot
    by_cases hq0 : 1 ≤ q
    · rcases hhead hq0 with hh | hh <;> rw [hh] at hlt <;> simp at hlt
    · have hq0' : q = 0 := by omega
      rw [hq0', List.drop_zero] at hpk
      obtain ⟨t, ht⟩ := parseIndexSelector_ok_head hpk
      rw [ht] at hlt
      simp at hlt

/-- Every error returned by `select` from a container root is located
at a consumed prefix of the selector, in the exact shape `errAt`. -/
theorem select_err_char {root : Value} {sel : List Char} {e : SelectError}
    (hroot : root.is_dict = true ∨ root.is_list = true)
    (h : root.select sel = .err e) :
    ∃ q, q < sel.length ∧ errAt sel q e ∧
      (1 ≤ q → sel.take 1 = ['.'] ∨ sel.take 1 = ['[']) := by
  cases root with
  | dict m =>
    simp only [Value.select, Value.is_dict, Value.is_list, Value.is_ref,
      Bool.not_eq_true] at h
    rw [if_neg (by simp)] at h
    split at h
    · cases h
    · next hne =>
      have hlen : 0 < sel.length := by
        cases sel with
        | nil => simp at hne
        | cons a t => simp
      have h2 : selLoopDict sel m (sel.drop 0) = .err e := by
        rwa [List.drop_zero]
      obtain ⟨r, _, hr2, hr3, hr4⟩ :=
        (selLoop_err_char sel.length sel 0 (by omega) hlen
          (fun hx => absurd hx (by omega))).1 m e h2
      exact ⟨r, hr2, hr3, hr4⟩
  | list l =>
    simp only [Value.select, Value.is_dict, Value.is_list, Value.is_ref,
      Bool.not_eq_true] at h
    rw [if_neg (by simp)] at h
    split at h
    · cases h
    · next hne =>
      have hlen : 0 < sel.length := by
        cases sel with
        | nil => simp at hne
        | cons a t => simp
      have h2 : selLoopList sel l (sel.drop 0) = .err e := by
        rwa [List.drop_zero]
      obtain ⟨r, _, hr2, hr3, hr4⟩ :=
        (selLoop_err_char sel.length sel 0 (by omega) hlen
          (fun hx => absurd hx (by omega))).2 l e h2
      exact ⟨r, hr2, hr3, hr4⟩
  | int n => simp [Value.is_dict, Value.is_list] at hroot
  | str s => simp [Value.is_dict, Value.is_list] at hroot
  | bytes b => simp [Value.is_dict, Value.is_list] at hroot
  | dictRef k => simp [Value.is_dict, Value.is_list] at hroot
  | listRef k => simp [Value.is_dict, Value.is_list] at hroot

end Bencedit

namespace Bencedit

/-- **C8** (amended).  The context attached to a failing selector
evaluation is the consumed prefix plus one further character.
Universally: (1) a primitive root yields `Primitive("<root>")` for
every selector; (2) every error a container root's evaluation returns
sits at a consumed prefix `q` of the selector in the exact shape
`errAt` — container-kind mismatches and accessor syntax errors carry
`sel.take (q + 1)` (the prefix before the failing accessor plus its
first character), while missing-key, out-of-range-index and
primitive-hit failures carry the prefix through the whole accessor plus
one further character, the remainder being nonempty; (3) no such error
ever carries the context `"<root>"`, which is produced only by the
primitive-root check; and (4) when the failing accessor extends to the
end of the selector the context slice is out of bounds and the loop
panics instead of returning the missing-key / out-of-range error. -/
theorem C8_context_characterization :
    (∀ (root : Value) (sel : List Char),
        root.is_dict = false → root.is_list = false → root.is_ref = false →
        root.select sel = .err (.primitive "<root>".toList)) ∧
    (∀ (root : Value) (sel : List Char) (e : SelectError),
        root.is_dict = true ∨ root.is_list = true →
        root.select sel = .err e →
        ∃ q, q < sel.length ∧ errAt sel q e ∧
          (1 ≤ q → sel.take 1 = ['.'] ∨ sel.take 1 = ['['])) ∧
    (∀ (root : Value) (sel : List Char) (e : SelectError) (ctx : List Char),
        root.is_dict = true ∨ root.is_list = true →
        root.select sel = .err e →
        ctxOf e = some ctx → ctx ≠ "<root>".toList) ∧
    (∀ (full sel : List Char) (m : List (Value × Value)) (key : List Char),
        parseKeySelector sel full = .ok ([], key) →
        findKey m key = none →
        selLoopDict full m sel = .panicked) ∧
    (∀ (full sel : List Char) (l : List Value) (idx : Nat),
        parseIndexSelector sel full = .ok ([], idx) →
        l.get? idx = none →
        selLoopList full l sel = .panicked) := by
  refine ⟨?_, ?_, ?_, ?_, ?_⟩
  · intro root sel h1 h2 h3
    cases root <;>
      simp [Value.select, Value.is_dict, Value.is_list, Value.is_ref] at h1 h2 h3 ⊢
  · intro root sel e h1 h2
    exact select_err_char h1 h2
  · intro root sel e ctx h1 h2 hctx
    obtain ⟨q, hq1, hq2, hq3⟩ := select_err_char h1 h2
    exact errAt_ctx_ne_root hq1 hq2 hq3 ctx hctx
  · intro full sel m key hpk hfk
    obtain ⟨t, rfl⟩ := parseKeySelector_ok_head hpk
    unfold selLoopDict
    rw [if_neg (by decide)]
    split
    · next heq =>
      rw [hpk] at heq
    · next e0 heq =>
      rw [hpk] at heq
      cases heq
    · next rest1 key1 heq =>
      rw [hpk] at heq
      injection heq with heq2
      injection heq2 with hr hk
      subst hr
      subst hk
      unfold findKey at hfk
      rw [hfk]
      simp only [List.length_nil, Nat.sub_zero,
        selCtx_none (show full.length < full.length + 1 from by omega)]
  · intro full sel l idx hpk hfk
    obtain ⟨t, rfl⟩ := parseIndexSelector_ok_head hpk
    unfold selLoopList
    rw [if_neg (by decide)]
    split
    · next heq =>
      rw [hpk] at heq
    · next e0 heq =>
      rw [hpk] at heq
      cases heq
    · next rest1 idx1 heq =>
      rw [hpk] at heq
      injection heq with heq2
      injection heq2 with hr hk
      subst hr
      subst hk
      rw [hfk]
      simp only [List.length_nil, Nat.sub_zero,
        selCtx_none (show full.length < full.length + 1 from by omega)]

/-- **C8** (witness): the missing-key failure of `".bar.x"` on
`{"foo": 0}` is located by the characterization at its failing
accessor. -/
theorem C8_witness :
    ∃ q, q < (".bar.x".toList).length ∧
      errAt ".bar.x".toList q (.key ".bar.".toList "bar".toList) ∧
      (1 ≤ q → (".bar.x".toList).take 1 = ['.'] ∨
        (".bar.x".toList).take 1 = ['[']) :=
  C8_context_characterization.2.1 (Value.dict [(.str (bytesOf "foo"), .int 0)])
    ".bar.x".toList (.key ".bar.".toList "bar".toList) (Or.inl rfl)
    (by simp [Value.select, selLoopDict, selLoopList, parseKeySelector,
      parseIndexSelector, pksLoop, pisLoop, finishKey, selCtx, sliceTo, sliceFrom,
      parseUsize, utf8, charUtf8, Value.to_str, Value.is_dict, Value.is_list,
      Value.is_ref, List.findSome?, bytesOf])

end Bencedit
